import Mathlib

/-!
Verification development for the `charm_json` write-through JSON databag layer
(`src/charm_json/_main.py`).

The embedding models the Python object graph explicitly: proxy containers
(`_MutableMapping` / `_MutableSequence` instances) live in a heap indexed by
allocation order, each node holding its `_parent` back-reference, its
`_parent_key`, and its `_data` payload.  The backing databag is an association
list from string keys to string values together with a log of all writes.
Recursion depth is modelled by explicit fuel (CPython's recursion limit):
exhausting it corresponds to a `RecursionError`.

A central point of fidelity: in Python, `str` and `bytes` are both instances of
`collections.abc.Sequence`, so `_load`'s `isinstance(data, Sequence)` test at
line 185 captures strings (as sequences of one-character strings) and bytes (as
sequences of integers) before the scalar branch at lines 194-201 is reached.
The embedding reproduces this branch order exactly.
-/

namespace CharmJson

/-- Python runtime values flowing through the module: JSON-decodable data
(strings, ints, bools, None, lists, dicts), plus `bytes`, arbitrary
non-JSON objects (`obj`, e.g. sets or custom classes), and references to
live proxy containers (`ref`). Numbers are modelled as integers. -/
inductive PyVal where
  | str (s : String)
  | int (n : Int)
  | bool (b : Bool)
  | null
  | list (xs : List PyVal)
  | dict (xs : List (String × PyVal))
  | bytes (bs : List Int)
  | obj (tag : String)
  | ref (id : Nat)

/-- A `_parent_key`: either a string key (slot in a mapping or a databag key)
or an integer index (slot in a sequence). -/
inductive PKey where
  | str (k : String)
  | idx (i : Nat)
deriving Repr, DecidableEq

/-- A `_parent` back-reference: the `_WriteableDatabag` root or another node. -/
inductive Parent where
  | databag
  | node (id : Nat)
deriving Repr, DecidableEq

/-- The `_data` payload of a proxy container. -/
inductive NodeData where
  | map (entries : List (String × PyVal))
  | seq (elems : List PyVal)

/-- One `_MutableMapping` or `_MutableSequence` instance. -/
structure Node where
  parent : Parent
  parentKey : PKey
  data : NodeData

/-- The backing databag: its current contents and the log of every
`self._databag[key] = value` write performed on it. -/
structure DB where
  store : List (String × String)
  writes : List (String × String)
deriving Repr, DecidableEq

/-- Global state: the proxy heap (indexed by allocation order) and the databag. -/
structure St where
  heap : List Node
  db : DB

/-- Errors: `typeErr` is the `TypeError` raised by `_load` (line 202) and by the
JSON encoder on unserializable objects; `reservedTypeErr` the `TypeError` of
`_WriteableDatabag.__setitem__` on reserved keys (line 216); `keyErr` /
`indexErr` are `KeyError` / `IndexError`; `decodeErr` is `json.JSONDecodeError`;
`fuel` is recursion-limit exhaustion (`RecursionError`); `bad` marks states
unreachable from the Python API. -/
inductive Err where
  | typeErr (v : PyVal)
  | reservedTypeErr (k : String) (v : PyVal)
  | keyErr (k : String)
  | indexErr
  | decodeErr
  | fuel
  | bad

/-- `_Databag._EXCLUDED_KEYS`: keys set by Juju, exempt from JSON encoding. -/
def EXCLUDED_KEYS : List String := ["egress-subnets", "ingress-address", "private-address"]

/-- Dict-style lookup in an association list. -/
def findEntry : List (String × PyVal) → String → Option PyVal
  | [], _ => none
  | (k', v') :: rest, k => if k' = k then some v' else findEntry rest k

/-- Dict-style update: replace the first binding of `k`, else append
(Python dict semantics: existing keys keep their position, new keys go last). -/
def updEntry : List (String × PyVal) → String → PyVal → List (String × PyVal)
  | [], k, v => [(k, v)]
  | (k', v') :: rest, k, v => if k' = k then (k, v) :: rest else (k', v') :: updEntry rest k v

/-- Store lookup. -/
def storeFind : List (String × String) → String → Option String
  | [], _ => none
  | (k', v') :: rest, k => if k' = k then some v' else storeFind rest k

/-- Store update (same dict semantics as `updEntry`). -/
def storeUpd : List (String × String) → String → String → List (String × String)
  | [], k, v => [(k, v)]
  | (k', v') :: rest, k, v => if k' = k then (k, v) :: rest else (k', v') :: storeUpd rest k v

/-- One `self._databag[key] = value` write: updates the store and logs the write. -/
def storeWrite (st : St) (k v : String) : St :=
  { st with db := { store := storeUpd st.db.store k v, writes := st.db.writes ++ [(k, v)] } }

/-- Overwrite the node at index `i` (no-op beyond the heap, which cannot arise). -/
def setHeapNode (st : St) (i : Nat) (nd : Node) : St :=
  { st with heap := st.heap.set i nd }

/-- `self._data[key] = value` on a mapping-shaped node, not via `__setitem__`
(the "initial value set should not update parent" path of `_load`, line 183). -/
def nodeSetEntry (st : St) (nid : Nat) (k : String) (v : PyVal) : St :=
  match st.heap[nid]? with
  | some nd =>
    match nd.data with
    | .map es => setHeapNode st nid { nd with data := .map (updEntry es k v) }
    | .seq _ => st
  | none => st

/-- `self._data[index] = value` on a sequence-shaped node, not via `__setitem__`
(the "initial value set should not update parent" path of `_load`, line 192). -/
def nodeSetElem (st : St) (nid : Nat) (i : Nat) (v : PyVal) : St :=
  match st.heap[nid]? with
  | some nd =>
    match nd.data with
    | .seq l => setHeapNode st nid { nd with data := .seq (l.set i v) }
    | .map _ => st
  | none => st

mutual

/-- `_load(parent=…, parent_key=…, data=…)` (lines 162-204).  Branch order is
Python's: `Mapping` first, then `Sequence` — which captures plain lists,
proxy sequences, *strings* (as sequences of one-character strings) and *bytes*
(as sequences of integers) — then the scalar branch (now only reachable for
ints, bools and None), else `TypeError`.  Fuel models the recursion limit;
running out is a `RecursionError`. -/
def loadFuel : Nat → St → Parent → PKey → PyVal → St × Except Err PyVal
  | 0, st, _, _, _ => (st, .error .fuel)
  | f + 1, st, parent, parentKey, data =>
    match data with
    | .dict xs =>
      let nid := st.heap.length
      let st1 := { st with heap := st.heap ++ [⟨parent, parentKey, .map xs⟩] }
      match loadMapItems f st1 nid xs with
      | (st2, .ok _) => (st2, .ok (.ref nid))
      | (st2, .error e) => (st2, .error e)
    | .list xs =>
      let nid := st.heap.length
      let st1 := { st with heap := st.heap ++ [⟨parent, parentKey, .seq xs⟩] }
      match loadSeqItems f st1 nid 0 xs with
      | (st2, .ok _) => (st2, .ok (.ref nid))
      | (st2, .error e) => (st2, .error e)
    | .str s =>
      let elems := s.data.map (fun c => PyVal.str (String.mk [c]))
      let nid := st.heap.length
      let st1 := { st with heap := st.heap ++ [⟨parent, parentKey, .seq elems⟩] }
      match loadSeqItems f st1 nid 0 elems with
      | (st2, .ok _) => (st2, .ok (.ref nid))
      | (st2, .error e) => (st2, .error e)
    | .bytes bs =>
      let elems := bs.map PyVal.int
      let nid := st.heap.length
      let st1 := { st with heap := st.heap ++ [⟨parent, parentKey, .seq elems⟩] }
      match loadSeqItems f st1 nid 0 elems with
      | (st2, .ok _) => (st2, .ok (.ref nid))
      | (st2, .error e) => (st2, .error e)
    | .ref r =>
      match st.heap[r]? with
      | some nd =>
        match nd.data with
        | .map es =>
          let nid := st.heap.length
          let st1 := { st with heap := st.heap ++ [⟨parent, parentKey, .map es⟩] }
          match loadMapItems f st1 nid es with
          | (st2, .ok _) => (st2, .ok (.ref nid))
          | (st2, .error e) => (st2, .error e)
        | .seq l =>
          let nid := st.heap.length
          let st1 := { st with heap := st.heap ++ [⟨parent, parentKey, .seq l⟩] }
          match loadSeqItems f st1 nid 0 l with
          | (st2, .ok _) => (st2, .ok (.ref nid))
          | (st2, .error e) => (st2, .error e)
      | none => (st, .error .bad)
    | .int n => (st, .ok (.int n))
    | .bool b => (st, .ok (.bool b))
    | .null => (st, .ok .null)
    | .obj t => (st, .error (.typeErr (.obj t)))

/-- The population loop of `_load`'s mapping branch (lines 180-183). -/
def loadMapItems : Nat → St → Nat → List (String × PyVal) → St × Except Err Unit
  | _, st, _, [] => (st, .ok ())
  | 0, st, _, _ :: _ => (st, .error .fuel)
  | f + 1, st, nid, (k, v) :: rest =>
    match loadFuel f st (.node nid) (.str k) v with
    | (st1, .ok v') => loadMapItems f (nodeSetEntry st1 nid k v') nid rest
    | (st1, .error e) => (st1, .error e)

/-- The population loop of `_load`'s sequence branch (lines 189-192). -/
def loadSeqItems : Nat → St → Nat → Nat → List PyVal → St × Except Err Unit
  | _, st, _, _, [] => (st, .ok ())
  | 0, st, _, _, _ :: _ => (st, .error .fuel)
  | f + 1, st, nid, i, v :: rest =>
    match loadFuel f st (.node nid) (.idx i) v with
    | (st1, .ok v') => loadSeqItems f (nodeSetElem st1 nid i v') nid (i + 1) rest
    | (st1, .error e) => (st1, .error e)

end

/-! JSON text layer: a model of `json.dumps` (with the `_Encoder` hook of
lines 148-159 substituting a proxy's `_data`) and of `json.loads`. -/

/-- The double-quote character. -/
def qchar : Char := Char.ofNat 34

/-- The backslash character. -/
def bslash : Char := Char.ofNat 92

/-- Left curly bracket. -/
def lcur : Char := Char.ofNat 123

/-- Right curly bracket. -/
def rcur : Char := Char.ofNat 125

/-- JSON string escaping for one character. -/
def escChar (c : Char) : List Char :=
  if c = qchar then [bslash, qchar]
  else if c = bslash then [bslash, bslash]
  else if c = Char.ofNat 10 then [bslash, 'n']
  else if c = Char.ofNat 9 then [bslash, 't']
  else if c = Char.ofNat 13 then [bslash, 'r']
  else [c]

/-- JSON string literal for `s`. -/
def jquote (s : String) : String :=
  String.mk (qchar :: (s.data.map escChar).flatten ++ [qchar])

mutual

/-- `json.dumps(value, cls=_Encoder)`: standard JSON encoding with Python's
default separators, where `_Encoder.default` substitutes `o._data` for proxy
containers (lines 154-159) and raises `TypeError` on anything else. -/
def encodeV : Nat → St → PyVal → Except Err String
  | 0, _, _ => .error .fuel
  | _ + 1, _, .str s => .ok (jquote s)
  | _ + 1, _, .int n => .ok (toString n)
  | _ + 1, _, .bool b => .ok (if b then "true" else "false")
  | _ + 1, _, .null => .ok "null"
  | f + 1, st, .list xs =>
    match encodeList f st xs with
    | .ok parts => .ok ("[" ++ String.intercalate ", " parts ++ "]")
    | .error e => .error e
  | f + 1, st, .dict xs =>
    match encodeEntries f st xs with
    | .ok parts => .ok (String.mk [lcur] ++ String.intercalate ", " parts ++ String.mk [rcur])
    | .error e => .error e
  | _ + 1, _, .bytes bs => .error (.typeErr (.bytes bs))
  | _ + 1, _, .obj t => .error (.typeErr (.obj t))
  | f + 1, st, .ref r =>
    match st.heap[r]? with
    | none => .error .bad
    | some nd =>
      match nd.data with
      | .map es =>
        match encodeEntries f st es with
        | .ok parts => .ok (String.mk [lcur] ++ String.intercalate ", " parts ++ String.mk [rcur])
        | .error e => .error e
      | .seq l =>
        match encodeList f st l with
        | .ok parts => .ok ("[" ++ String.intercalate ", " parts ++ "]")
        | .error e => .error e

/-- Encode the elements of a JSON array. -/
def encodeList : Nat → St → List PyVal → Except Err (List String)
  | _, _, [] => .ok []
  | 0, _, _ :: _ => .error .fuel
  | f + 1, st, v :: rest =>
    match encodeV f st v with
    | .ok s =>
      match encodeList f st rest with
      | .ok parts => .ok (s :: parts)
      | .error e => .error e
    | .error e => .error e

/-- Encode the members of a JSON object (`"key": value`). -/
def encodeEntries : Nat → St → List (String × PyVal) → Except Err (List String)
  | _, _, [] => .ok []
  | 0, _, _ :: _ => .error .fuel
  | f + 1, st, (k, v) :: rest =>
    match encodeV f st v with
    | .ok s =>
      match encodeEntries f st rest with
      | .ok parts => .ok ((jquote k ++ ": " ++ s) :: parts)
      | .error e => .error e
    | .error e => .error e

end

/-- Whitespace recognised by the JSON parser. -/
def isWsChar (c : Char) : Bool :=
  (c = ' ') || (c = Char.ofNat 10) || (c = Char.ofNat 9) || (c = Char.ofNat 13)

/-- Skip leading whitespace. -/
def skipWs : List Char → List Char
  | [] => []
  | c :: rest => if isWsChar c then skipWs rest else c :: rest

/-- Undo one JSON string escape. -/
def unescape (e : Char) : Option Char :=
  if e = qchar then some qchar
  else if e = bslash then some bslash
  else if e = '/' then some '/'
  else if e = 'n' then some (Char.ofNat 10)
  else if e = 't' then some (Char.ofNat 9)
  else if e = 'r' then some (Char.ofNat 13)
  else if e = 'b' then some (Char.ofNat 8)
  else if e = 'f' then some (Char.ofNat 12)
  else none

/-- Parse the body of a JSON string after the opening quote; returns the
decoded content and the remainder after the closing quote. -/
def parseStrBody : List Char → Except Err (List Char × List Char)
  | [] => .error .decodeErr
  | c :: rest =>
    if c = qchar then .ok ([], rest)
    else if c = bslash then
      match rest with
      | [] => .error .decodeErr
      | e :: rest2 =>
        match unescape e with
        | some u =>
          match parseStrBody rest2 with
          | .ok (content, rem) => .ok (u :: content, rem)
          | .error e2 => .error e2
        | none => .error .decodeErr
    else
      match parseStrBody rest with
      | .ok (content, rem) => .ok (c :: content, rem)
      | .error e2 => .error e2

/-- Consume a run of decimal digits, accumulating their value. -/
def readDigits : List Char → Nat → Nat × List Char
  | [], acc => (acc, [])
  | c :: rest, acc =>
    if c.isDigit then readDigits rest (acc * 10 + (c.toNat - 48)) else (acc, c :: rest)

/-- Parse an integer literal (floats are not modelled; a fractional or exponent
part is a decode error in this embedding). -/
def parseNum (cs : List Char) : Except Err (PyVal × List Char) :=
  match cs with
  | '-' :: first :: rest =>
    if first.isDigit then
      match readDigits (first :: rest) 0 with
      | (n, rem) =>
        match rem with
        | c :: _ => if c = '.' || c = 'e' || c = 'E' then .error .decodeErr else .ok (.int (-(n : Int)), rem)
        | [] => .ok (.int (-(n : Int)), rem)
    else .error .decodeErr
  | first :: rest =>
    if first.isDigit then
      match readDigits (first :: rest) 0 with
      | (n, rem) =>
        match rem with
        | c :: _ => if c = '.' || c = 'e' || c = 'E' then .error .decodeErr else .ok (.int (n : Int), rem)
        | [] => .ok (.int (n : Int), rem)
    else .error .decodeErr
  | [] => .error .decodeErr

/-- Strip a literal token from the front of the input. -/
def stripTok : List Char → List Char → Option (List Char)
  | [], cs => some cs
  | _ :: _, [] => none
  | t :: ts, c :: cs => if c = t then stripTok ts cs else none

mutual

/-- Parse one JSON value (model of `json.loads`' recursive descent). -/
def parseVal : Nat → List Char → Except Err (PyVal × List Char)
  | 0, _ => .error .decodeErr
  | f + 1, cs =>
    match skipWs cs with
    | [] => .error .decodeErr
    | c :: rest =>
      if c = qchar then
        match parseStrBody rest with
        | .ok (content, rem) => .ok (.str (String.mk content), rem)
        | .error e => .error e
      else if c = lcur then
        match skipWs rest with
        | [] => .error .decodeErr
        | c2 :: rest2 =>
          if c2 = rcur then .ok (.dict [], rest2)
          else
            match parseObjItems f (c2 :: rest2) with
            | .ok (entries, rem) => .ok (.dict entries, rem)
            | .error e => .error e
      else if c = '[' then
        match skipWs rest with
        | [] => .error .decodeErr
        | c2 :: rest2 =>
          if c2 = ']' then .ok (.list [], rest2)
          else
            match parseArrItems f (c2 :: rest2) with
            | .ok (elems, rem) => .ok (.list elems, rem)
            | .error e => .error e
      else
        match stripTok ['t', 'r', 'u', 'e'] (c :: rest) with
        | some rem => .ok (.bool true, rem)
        | none =>
          match stripTok ['f', 'a', 'l', 's', 'e'] (c :: rest) with
          | some rem => .ok (.bool false, rem)
          | none =>
            match stripTok ['n', 'u', 'l', 'l'] (c :: rest) with
            | some rem => .ok (.null, rem)
            | none => parseNum (c :: rest)

/-- Parse the members of a JSON object, starting at the first key. -/
def parseObjItems : Nat → List Char → Except Err (List (String × PyVal) × List Char)
  | 0, _ => .error .decodeErr
  | f + 1, cs =>
    match cs with
    | [] => .error .decodeErr
    | c :: rest =>
      if c = qchar then
        match parseStrBody rest with
        | .ok (key, rem) =>
          match skipWs rem with
          | [] => .error .decodeErr
          | c2 :: rest2 =>
            if c2 = ':' then
              match parseVal f rest2 with
              | .ok (v, rem2) =>
                match skipWs rem2 with
                | [] => .error .decodeErr
                | c3 :: rest3 =>
                  if c3 = ',' then
                    match parseObjItems f (skipWs rest3) with
                    | .ok (entries, rem3) => .ok ((String.mk key, v) :: entries, rem3)
                    | .error e => .error e
                  else if c3 = rcur then .ok ([(String.mk key, v)], rest3)
                  else .error .decodeErr
              | .error e => .error e
            else .error .decodeErr
        | .error e => .error e
      else .error .decodeErr

/-- Parse the elements of a JSON array, starting at the first element. -/
def parseArrItems : Nat → List Char → Except Err (List PyVal × List Char)
  | 0, _ => .error .decodeErr
  | f + 1, cs =>
    match parseVal f cs with
    | .ok (v, rem) =>
      match skipWs rem with
      | [] => .error .decodeErr
      | c :: rest =>
        if c = ',' then
          match parseArrItems f rest with
          | .ok (elems, rem2) => .ok (v :: elems, rem2)
          | .error e => .error e
        else if c = ']' then .ok ([v], rest)
        else .error .decodeErr
    | .error e => .error e

end

/-- `json.loads(s)`: parse a complete JSON document; any failure is a
`JSONDecodeError`. -/
def jsonLoads (s : String) : Except Err PyVal :=
  match parseVal (s.data.length + 2) s.data with
  | .ok (v, rem) => if (skipWs rem).isEmpty then .ok v else .error .decodeErr
  | .error _ => .error .decodeErr

/-- `_WriteableDatabag.__setitem__` (lines 213-220).  Faithful to the source's
missing `return`: on a reserved key with a string value the raw string is
stored, and then control *falls through* to the JSON-encoding write, which
overwrites it. -/
def databagSet (f : Nat) (st : St) (key : String) (v : PyVal) : St × Except Err Unit :=
  if key ∈ EXCLUDED_KEYS then
    match v with
    | .str s =>
      let st1 := storeWrite st key s
      match encodeV f st1 v with
      | .ok out => (storeWrite st1 key out, .ok ())
      | .error e => (st1, .error e)
    | _ => (st, .error (.reservedTypeErr key v))
  else
    match encodeV f st v with
    | .ok out => (storeWrite st key out, .ok ())
    | .error e => (st, .error e)

/-- `_WriteableDatabag.__getitem__` (lines 208-211): reserved keys are returned
verbatim; otherwise the stored string is JSON-decoded and `_load` builds a
live tree rooted at the databag. -/
def databagGet (f : Nat) (st : St) (key : String) : St × Except Err PyVal :=
  if key ∈ EXCLUDED_KEYS then
    match storeFind st.db.store key with
    | some s => (st, .ok (.str s))
    | none => (st, .error (.keyErr key))
  else
    match storeFind st.db.store key with
    | none => (st, .error (.keyErr key))
    | some s =>
      match jsonLoads s with
      | .error e => (st, .error e)
      | .ok v => loadFuel f st .databag (.str key) v

/-- `__setitem__` on a proxy node (`_MutableMapping.__setitem__`, lines 95-97,
and `_MutableSequence.__setitem__`, lines 127-129): `_load` the value with this
node as parent, store it in `_data`, then perform
`self._parent[self._parent_key] = self` — recursing into the parent's
`__setitem__` (one more stack frame, hence one fuel unit) or, at the root,
into `_WriteableDatabag.__setitem__`. -/
def setNode : Nat → St → Nat → PKey → PyVal → St × Except Err Unit
  | 0, st, _, _, _ => (st, .error .fuel)
  | f + 1, st, nid, key, v =>
    match st.heap[nid]? with
    | none => (st, .error .bad)
    | some _ =>
      match loadFuel f st (.node nid) key v with
      | (st1, .error e) => (st1, .error e)
      | (st1, .ok v') =>
        match st1.heap[nid]? with
        | none => (st1, .error .bad)
        | some nd =>
          match nd.data, key with
          | .map es, .str k =>
            let st2 := setHeapNode st1 nid { nd with data := .map (updEntry es k v') }
            match nd.parent, nd.parentKey with
            | .databag, .str pk => databagSet f st2 pk (.ref nid)
            | .databag, .idx _ => (st2, .error .bad)
            | .node p, pk => setNode f st2 p pk (.ref nid)
          | .seq l, .idx i =>
            if i < l.length then
              let st2 := setHeapNode st1 nid { nd with data := .seq (l.set i v') }
              match nd.parent, nd.parentKey with
              | .databag, .str pk => databagSet f st2 pk (.ref nid)
              | .databag, .idx _ => (st2, .error .bad)
              | .node p, pk => setNode f st2 p pk (.ref nid)
            else (st1, .error .indexErr)
          | _, _ => (st1, .error .bad)

/-- `_MutableSequence.insert` (lines 138-145): `_load` the value, insert it
into `_data` (Python's `list.insert` clamps an over-long index to the end),
re-number the `_parent_key` of every proxy-typed element, then notify. -/
def renumber : St → List PyVal → Nat → St
  | st, [], _ => st
  | st, e :: rest, i =>
    match e with
    | .ref r =>
      match st.heap[r]? with
      | some nd => renumber (setHeapNode st r { nd with parentKey := .idx i }) rest (i + 1)
      | none => renumber st rest (i + 1)
    | _ => renumber st rest (i + 1)

/-- `list.insert(i, v)` for an in-range or clamped index. -/
def insAt : Nat → PyVal → List PyVal → List PyVal
  | 0, v, l => v :: l
  | _ + 1, v, [] => [v]
  | n + 1, v, x :: rest => x :: insAt n v rest

/-- `_MutableSequence.insert(index, value)` (lines 138-145). -/
def insertNode (f : Nat) (st : St) (nid : Nat) (i : Nat) (v : PyVal) : St × Except Err Unit :=
  match f with
  | 0 => (st, .error .fuel)
  | f + 1 =>
    match st.heap[nid]? with
    | none => (st, .error .bad)
    | some nd0 =>
      match nd0.data with
      | .map _ => (st, .error .bad)
      | .seq _ =>
        match loadFuel f st (.node nid) (.idx i) v with
        | (st1, .error e) => (st1, .error e)
        | (st1, .ok v') =>
          match st1.heap[nid]? with
          | none => (st1, .error .bad)
          | some nd =>
            match nd.data with
            | .map _ => (st1, .error .bad)
            | .seq l =>
              let l2 := insAt i v' l
              let st2 := setHeapNode st1 nid { nd with data := .seq l2 }
              let st3 := renumber st2 l2 0
              match st3.heap[nid]? with
              | none => (st3, .error .bad)
              | some nd3 =>
                match nd3.parent, nd3.parentKey with
                | .databag, .str pk => databagSet f st3 pk (.ref nid)
                | .databag, .idx _ => (st3, .error .bad)
                | .node p, pk => setNode f st3 p pk (.ref nid)

/-- `__getitem__` on a proxy node (lines 92-93 and 124-125): a read straight
out of `_data`, with no side effect. -/
def getItemNode (st : St) (nid : Nat) (key : PKey) : Except Err PyVal :=
  match st.heap[nid]? with
  | none => .error .bad
  | some nd =>
    match nd.data, key with
    | .map es, .str k =>
      match findEntry es k with
      | some v => .ok v
      | none => .error (.keyErr k)
    | .seq l, .idx i =>
      match l[i]? with
      | some v => .ok v
      | none => .error .indexErr
    | _, _ => .error .bad

mutual

/-- Resolve proxy references to plain structural values, for stating
structural equality of results. -/
def toPlain : Nat → St → PyVal → Except Err PyVal
  | 0, _, _ => .error .fuel
  | _ + 1, _, .str s => .ok (.str s)
  | _ + 1, _, .int n => .ok (.int n)
  | _ + 1, _, .bool b => .ok (.bool b)
  | _ + 1, _, .null => .ok .null
  | _ + 1, _, .bytes bs => .ok (.bytes bs)
  | _ + 1, _, .obj t => .ok (.obj t)
  | f + 1, st, .list xs =>
    match toPlainList f st xs with
    | .ok ys => .ok (.list ys)
    | .error e => .error e
  | f + 1, st, .dict xs =>
    match toPlainEntries f st xs with
    | .ok ys => .ok (.dict ys)
    | .error e => .error e
  | f + 1, st, .ref r =>
    match st.heap[r]? with
    | none => .error .bad
    | some nd =>
      match nd.data with
      | .map es =>
        match toPlainEntries f st es with
        | .ok ys => .ok (.dict ys)
        | .error e => .error e
      | .seq l =>
        match toPlainList f st l with
        | .ok ys => .ok (.list ys)
        | .error e => .error e

/-- Resolve a list of values. -/
def toPlainList : Nat → St → List PyVal → Except Err (List PyVal)
  | _, _, [] => .ok []
  | 0, _, _ :: _ => .error .fuel
  | f + 1, st, v :: rest =>
    match toPlain f st v with
    | .ok y =>
      match toPlainList f st rest with
      | .ok ys => .ok (y :: ys)
      | .error e => .error e
    | .error e => .error e

/-- Resolve the values of an entry list. -/
def toPlainEntries : Nat → St → List (String × PyVal) → Except Err (List (String × PyVal))
  | _, _, [] => .ok []
  | 0, _, _ :: _ => .error .fuel
  | f + 1, st, (k, v) :: rest =>
    match toPlain f st v with
    | .ok y =>
      match toPlainEntries f st rest with
      | .ok ys => .ok ((k, y) :: ys)
      | .error e => .error e
    | .error e => .error e

end

/-- Top-level classification of `_load` (§4.1 of the spec): every runtime type
the chain of `isinstance` checks at lines 176-201 accepts.  Note that `str`
and `bytes` are accepted (as `collections.abc.Sequence` instances); only
values outside every branch (custom objects, sets, …) fail. -/
def classifies (v : PyVal) : Bool :=
  match v with
  | .obj _ => false
  | _ => true

/-- The `_parent` chain from node `q`: the list of node ids visited by
following `_parent` links until the databag root is reached; `none` if the
chain is longer than `n` steps or hits a missing node. -/
def wlist : Nat → St → Nat → Option (List Nat)
  | 0, _, _ => none
  | n + 1, st, q =>
    match st.heap[q]? with
    | none => none
    | some nd =>
      match nd.parent with
      | .databag => some [q]
      | .node p => (wlist n st p).map (fun L => q :: L)

/-- The key `k` does not occur in the list. -/
def keyFree : String → List String → Bool
  | _, [] => true
  | k, k' :: rest => if k' = k then false else keyFree k rest

/-- No duplicate keys (the Python `dict` invariant). -/
def noDupKeys : List String → Bool
  | [] => true
  | k :: rest => keyFree k rest && noDupKeys rest

mutual

/-- Plain data that `_load` rebuilds faithfully: numbers, booleans, null,
lists, and dicts with no duplicate keys — no strings (which the C2 slip
converts into sequence proxies), no `bytes` (silently turned into integer
lists), no custom objects, no live references. -/
def wfPlain : PyVal → Bool
  | .int _ => true
  | .bool _ => true
  | .null => true
  | .list xs => wfPlainList xs
  | .dict xs => noDupKeys (xs.map Prod.fst) && wfPlainEntries xs
  | _ => false

/-- `wfPlain` over list elements. -/
def wfPlainList : List PyVal → Bool
  | [] => true
  | x :: rest => wfPlain x && wfPlainList rest

/-- `wfPlain` over entry values. -/
def wfPlainEntries : List (String × PyVal) → Bool
  | [] => true
  | (_, x) :: rest => wfPlain x && wfPlainEntries rest

end

mutual

/-- `toPlain` restricted to reference ids at or above a bound: resolves like
`toPlain` but refuses to read any node below `b`.  `toPlainB 0` coincides
with `toPlain`; a positive bound isolates a freshly built subtree copy from
changes to older nodes. -/
def toPlainB : Nat → Nat → St → PyVal → Except Err PyVal
  | _, 0, _, _ => .error .fuel
  | _, _ + 1, _, .str s => .ok (.str s)
  | _, _ + 1, _, .int n => .ok (.int n)
  | _, _ + 1, _, .bool b => .ok (.bool b)
  | _, _ + 1, _, .null => .ok .null
  | _, _ + 1, _, .bytes bs => .ok (.bytes bs)
  | _, _ + 1, _, .obj t => .ok (.obj t)
  | b, f + 1, st, .list xs =>
    match toPlainListB b f st xs with
    | .ok ys => .ok (.list ys)
    | .error e => .error e
  | b, f + 1, st, .dict xs =>
    match toPlainEntriesB b f st xs with
    | .ok ys => .ok (.dict ys)
    | .error e => .error e
  | b, f + 1, st, .ref r =>
    if r < b then .error .bad
    else
      match st.heap[r]? with
      | none => .error .bad
      | some nd =>
        match nd.data with
        | .map es =>
          match toPlainEntriesB b f st es with
          | .ok ys => .ok (.dict ys)
          | .error e => .error e
        | .seq l =>
          match toPlainListB b f st l with
          | .ok ys => .ok (.list ys)
          | .error e => .error e

/-- Bounded resolution of a list of values. -/
def toPlainListB : Nat → Nat → St → List PyVal → Except Err (List PyVal)
  | _, _, _, [] => .ok []
  | _, 0, _, _ :: _ => .error .fuel
  | b, f + 1, st, v :: rest =>
    match toPlainB b f st v with
    | .ok y =>
      match toPlainListB b f st rest with
      | .ok ys => .ok (y :: ys)
      | .error e => .error e
    | .error e => .error e

/-- Bounded resolution of the values of an entry list. -/
def toPlainEntriesB : Nat → Nat → St → List (String × PyVal) → Except Err (List (String × PyVal))
  | _, _, _, [] => .ok []
  | _, 0, _, _ :: _ => .error .fuel
  | b, f + 1, st, (k, v) :: rest =>
    match toPlainB b f st v with
    | .ok y =>
      match toPlainEntriesB b f st rest with
      | .ok ys => .ok ((k, y) :: ys)
      | .error e => .error e
    | .error e => .error e

end

/-! Concrete scenario states used by the claims below. -/

/-- Fresh empty state: no proxies, empty databag. -/
def st0 : St := ⟨[], ⟨[], []⟩⟩

/-- The JSON text of `\x7b"a": \x7b"b": 1\x7d\x7d`. -/
def jtext1 : String := "\x7b\"a\": \x7b\"b\": 1\x7d\x7d"

/-- The JSON text of `\x7b"a": \x7b"b": 2\x7d\x7d`. -/
def jtext2 : String := "\x7b\"a\": \x7b\"b\": 2\x7d\x7d"

/-- Backing store holding `jtext1` at key `"cfg"`. -/
def st_c1 : St := ⟨[], ⟨[("cfg", jtext1)], []⟩⟩

/-- State after `d = bag["cfg"]` on `st_c1`. -/
def c1_st1 : St := (databagGet 100 st_c1 "cfg").1

/-- State after `d["a"]["b"] = 2` (a `__setitem__` on the inner node 1). -/
def c1_st2 : St := (setNode 100 c1_st1 1 (.str "b") (.int 2)).1

/-- The re-read of `"cfg"` after the mutation. -/
def c1_reread : St × Except Err PyVal := databagGet 100 c1_st2 "cfg"

/-- `bag["k"] = ""` on a fresh state. -/
def c3_set : St × Except Err Unit := databagSet 100 st0 "k" (.str "")

/-- The subsequent `bag["k"]` read. -/
def c3_get : St × Except Err PyVal := databagGet 100 c3_set.1 "k"

/-- `bag["ingress-address"] = "10.0.0.1"` on a fresh state. -/
def c4_res : St × Except Err Unit := databagSet 100 st0 "ingress-address" (.str "10.0.0.1")

/-- `bag["private-address"] = "10.1.2.3"` on a fresh state. -/
def c8_res : St × Except Err Unit := databagSet 100 st0 "private-address" (.str "10.1.2.3")

/-- `bag["k7"] = []` on a fresh state. -/
def c7_set : St × Except Err Unit := databagSet 100 st0 "k7" (.list [])

/-- The subsequent `bag["k7"]` read, returning the empty sequence proxy. -/
def c7_get : St × Except Err PyVal := databagGet 100 c7_set.1 "k7"

/-- `proxy.insert(0, b"hi")` on that proxy (node 0): bytes via the mutation
path. -/
def c7_ins : St × Except Err Unit := insertNode 100 c7_get.1 0 0 (.bytes [104, 105])

/-- A state with a single empty root sequence proxy, for witnesses. -/
def stW5 : St := ⟨[⟨.databag, .str "k", .seq []⟩], ⟨[("k", "[]")], []⟩⟩

/-- A live root sequence `[1]`, for the C7 witness. -/
def stW7 : St := ⟨[⟨.databag, .str "k7w", .seq [.int 1]⟩], ⟨[("k7w", "[1]")], []⟩⟩

/-- Two live root mapping proxies `kc` (node 0) and `kp` (node 1), as after
reading both keys. -/
def st9 : St :=
  ⟨[⟨.databag, .str "kc", .map [("x", .int 1)]⟩,
    ⟨.databag, .str "kp", .map [("y", .int 2)]⟩],
   ⟨[("kc", "\x7b\"x\": 1\x7d"), ("kp", "\x7b\"y\": 2\x7d")], []⟩⟩

/-- State after `c["k"] = p` (aliasing assignment of node 1 into node 0). -/
def st9' : St := (setNode 21 st9 0 (.str "k") (.ref 1)).1

/-- State after the subsequent mutation `p["z"] = 3` on the original node 1. -/
def st9'' : St := (setNode 21 st9' 1 (.str "z") (.int 3)).1

/-- Two live root mapping proxies where the source tree `kp` (node 1) holds a
nonempty string entry. -/
def st9s : St :=
  ⟨[⟨.databag, .str "kc", .map [("x", .int 1)]⟩,
    ⟨.databag, .str "kp", .map [("s", .str "a")]⟩],
   ⟨[("kc", "\x7b\"x\": 1\x7d"), ("kp", "\x7b\"s\": \"a\"\x7d")], []⟩⟩

/-- Two live root mapping proxies where the source tree `kp` (node 1) holds an
empty-string entry. -/
def st9e : St :=
  ⟨[⟨.databag, .str "kc", .map [("x", .int 1)]⟩,
    ⟨.databag, .str "kp", .map [("e", .str "")]⟩],
   ⟨[("kc", "\x7b\"x\": 1\x7d"), ("kp", "\x7b\"e\": \"\"\x7d")], []⟩⟩

/-- State after `c["k"] = p` on `st9e` (this assignment terminates). -/
def st9e' : St := (setNode 30 st9e 0 (.str "k") (.ref 1)).1

/-- A live root sequence `[1, \x7b"q": 5\x7d, 2]` (node 0) with its mapping
element (node 1) at position 1, as after reading key `"k"`. -/
def st6 : St :=
  ⟨[⟨.databag, .str "k", .seq [.int 1, .ref 1, .int 2]⟩,
    ⟨.node 0, .idx 1, .map [("q", .int 5)]⟩],
   ⟨[("k", "[1, \x7b\"q\": 5\x7d, 2]")], []⟩⟩

/-- State after `proxy.insert(0, 9)`. -/
def st6' : St := (insertNode 31 st6 0 0 (.int 9)).1

/-- State after the subsequent mutation `shifted["q"] = 7` on node 1. -/
def st6'' : St := (setNode 31 st6' 1 (.str "q") (.int 7)).1

mutual

/-- The value contains no Python string and no proxy reference anywhere
(so `_load`'s string divergence and dangling references cannot interfere). -/
def plainSansStr : PyVal → Bool
  | .str _ => false
  | .ref _ => false
  | .int _ => true
  | .bool _ => true
  | .null => true
  | .bytes _ => true
  | .obj _ => true
  | .list xs => plainSansStrList xs
  | .dict xs => plainSansStrEntries xs

/-- `plainSansStr` over list elements. -/
def plainSansStrList : List PyVal → Bool
  | [] => true
  | x :: rest => plainSansStr x && plainSansStrList rest

/-- `plainSansStr` over entry values. -/
def plainSansStrEntries : List (String × PyVal) → Bool
  | [] => true
  | (_, x) :: rest => plainSansStr x && plainSansStrEntries rest

end

mutual

/-- The value contains, somewhere in its structure, a datum that classifies as
neither mapping, sequence, string, number, boolean nor null (a custom object,
a set, …). -/
def hasObj : PyVal → Bool
  | .obj _ => true
  | .list xs => hasObjList xs
  | .dict xs => hasObjEntries xs
  | _ => false

/-- `hasObj` over list elements. -/
def hasObjList : List PyVal → Bool
  | [] => false
  | x :: rest => hasObj x || hasObjList rest

/-- `hasObj` over entry values. -/
def hasObjEntries : List (String × PyVal) → Bool
  | [] => false
  | (_, x) :: rest => hasObj x || hasObjEntries rest

end

/-- State evolution that keeps the databag and every pre-existing node intact
(only fresh allocations may be added). -/
def PresAll (stA stB : St) : Prop :=
  stB.db = stA.db ∧ stA.heap.length ≤ stB.heap.length ∧
    ∀ j, j < stA.heap.length → stB.heap[j]? = stA.heap[j]?

/-- State evolution that keeps the databag and every pre-existing node other
than `nid` intact. -/
def PresExc (nid : Nat) (stA stB : St) : Prop :=
  stB.db = stA.db ∧ stA.heap.length ≤ stB.heap.length ∧
    ∀ j, j < stA.heap.length → j ≠ nid → stB.heap[j]? = stA.heap[j]?

/-- State evolution preserving each existing node's `_parent` and
`_parent_key` (its `_data` may change; fresh nodes may be appended). -/
def PresProj (stA stB : St) : Prop :=
  stA.heap.length ≤ stB.heap.length ∧
    ∀ (j : Nat) (nd : Node), stA.heap[j]? = some nd →
      ∃ nd', stB.heap[j]? = some nd' ∧ nd'.parent = nd.parent ∧ nd'.parentKey = nd.parentKey

/-- A non-string scalar (number, boolean or null): a value `_load` returns
unchanged at once. -/
def isScalarNS : PyVal → Bool
  | .int _ => true
  | .bool _ => true
  | .null => true
  | _ => false

/-- All entry values are non-string scalars. -/
def scalarEntries : List (String × PyVal) → Bool
  | [] => true
  | (_, v) :: rest => isScalarNS v && scalarEntries rest

/-! Theorems. -/

/-- C1: write-through propagation of a deep mutation.  With the JSON text for
`\x7b"a": \x7b"b": 1\x7d\x7d` stored at `"cfg"`: reading yields the root proxy
(node 0) whose `"a"` entry is the inner proxy (node 1); setting `d["a"]["b"] = 2`
on the live tree succeeds; re-reading `"cfg"` yields a tree structurally equal
to `\x7b"a": \x7b"b": 2\x7d\x7d`; and the store's string for `"cfg"` was
rewritten by the mutation even though only the leaf changed. -/
theorem claim1_thm :
    (databagGet 100 st_c1 "cfg").2 = .ok (.ref 0)
    ∧ getItemNode c1_st1 0 (.str "a") = .ok (.ref 1)
    ∧ (setNode 100 c1_st1 1 (.str "b") (.int 2)).2 = .ok ()
    ∧ c1_reread.2 = .ok (.ref 3)
    ∧ toPlain 100 c1_reread.1 (.ref 3) = .ok (.dict [("a", .dict [("b", .int 2)])])
    ∧ storeFind c1_st2.db.store "cfg" = some jtext2
    ∧ jtext2 ≠ jtext1 :=
  ⟨rfl, rfl, rfl, rfl, rfl, rfl, by decide⟩

/-- Auxiliary for C2: `_load` on a one-character string never terminates —
the string is classified as a `Sequence` whose single element is the same
one-character string, so the recursion consumes any amount of fuel
(a `RecursionError` in Python). -/
theorem loadFuel_str_singleton :
    ∀ (f : Nat) (c : Char) (st : St) (p : Parent) (pk : PKey),
      (loadFuel f st p pk (.str (String.mk [c]))).2 = .error .fuel := by
  intro f
  induction f using Nat.strong_induction_on with
  | _ f ih =>
    intro c st p pk
    match f with
    | 0 => rfl
    | 1 => rfl
    | g + 2 =>
      rcases hload : loadFuel g
          { st with heap := st.heap ++ [⟨p, pk, .seq [.str (String.mk [c])]⟩] }
          (.node st.heap.length) (.idx 0) (.str (String.mk [c])) with ⟨st', res⟩
      have h2 := ih g (by omega) c
          { st with heap := st.heap ++ [⟨p, pk, .seq [.str (String.mk [c])]⟩] }
          (.node st.heap.length) (.idx 0)
      rw [hload] at h2
      dsimp only at h2
      subst h2
      show (loadFuel (g + 2) st p pk (.str (String.mk [c]))).2 = .error .fuel
      dsimp only [loadFuel, loadSeqItems, String.mk, List.map]
      rw [hload]

/-- Auxiliary for C2: `_load` on any nonempty string exhausts all fuel
(`RecursionError`): its first character is itself a one-character string. -/
theorem loadFuel_str_cons :
    ∀ (f : Nat) (c : Char) (cs : List Char) (st : St) (p : Parent) (pk : PKey),
      (loadFuel f st p pk (.str (String.mk (c :: cs)))).2 = .error .fuel := by
  intro f c cs st p pk
  match f with
  | 0 => rfl
  | 1 => rfl
  | g + 2 =>
    rcases hload : loadFuel g
        { st with heap := st.heap ++
            [⟨p, pk, .seq (PyVal.str (String.mk [c])
              :: cs.map fun c => PyVal.str (String.mk [c]))⟩] }
        (.node st.heap.length) (.idx 0) (.str (String.mk [c])) with ⟨st', res⟩
    have h2 := loadFuel_str_singleton g c
        { st with heap := st.heap ++
            [⟨p, pk, .seq (PyVal.str (String.mk [c])
              :: cs.map fun c => PyVal.str (String.mk [c]))⟩] }
        (.node st.heap.length) (.idx 0)
    rw [hload] at h2
    dsimp only at h2
    subst h2
    show (loadFuel (g + 2) st p pk (.str (String.mk (c :: cs)))).2 = .error .fuel
    dsimp only [loadFuel, loadSeqItems, String.mk, List.map]
    rw [hload]

/-- C2: the claim fails on strings.  The builder classifies a string as a
`Sequence` (Python `str` is a `collections.abc.Sequence`) before ever reaching
the scalar branch: building a nonempty string exhausts any recursion budget
(`RecursionError`) instead of returning the string, and building the empty
string terminates but returns an empty *sequence proxy*, not the string.
Non-string scalars (numbers, booleans, null) are indeed returned unchanged
with no proxy. -/
theorem claim2_thm :
    (∀ (f : Nat) (c : Char) (cs : List Char) (st : St) (p : Parent) (pk : PKey),
      (loadFuel f st p pk (.str (String.mk (c :: cs)))).2 = .error .fuel)
    ∧ (loadFuel 5 st0 .databag (.str "k") (.str "")).2 = .ok (.ref 0)
    ∧ (loadFuel 5 st0 .databag (.str "k") (.str "")).1.heap
        = [⟨.databag, .str "k", .seq []⟩]
    ∧ (∀ (f : Nat) (st : St) (p : Parent) (pk : PKey) (n : Int),
        loadFuel (f + 1) st p pk (.int n) = (st, .ok (.int n)))
    ∧ (∀ (f : Nat) (st : St) (p : Parent) (pk : PKey) (b : Bool),
        loadFuel (f + 1) st p pk (.bool b) = (st, .ok (.bool b)))
    ∧ (∀ (f : Nat) (st : St) (p : Parent) (pk : PKey),
        loadFuel (f + 1) st p pk .null = (st, .ok .null)) :=
  ⟨loadFuel_str_cons, rfl, rfl, fun _ _ _ _ _ => rfl, fun _ _ _ _ _ => rfl,
    fun _ _ _ _ => rfl⟩

/-- C3: the round-trip law fails at the string value `""`.  `set("k", "")`
stores the JSON text `""`; the subsequent `get("k")` decodes it to the empty
string, which `_load` wraps as an empty sequence proxy — structurally the
empty list, not the string.  (For nonempty strings the read diverges instead,
by the lemmas of C2.) -/
theorem claim3_thm :
    c3_set.2 = .ok ()
    ∧ storeFind c3_set.1.db.store "k" = some (String.mk [qchar, qchar])
    ∧ c3_get.2 = .ok (.ref 0)
    ∧ toPlain 100 c3_get.1 (.ref 0) = .ok (.list [])
    ∧ (PyVal.list [] = PyVal.str "" → False) :=
  ⟨rfl, rfl, rfl, rfl, fun h => PyVal.noConfusion h⟩

/-- C4: reserved-key passthrough on write fails.  `set("ingress-address",
"10.0.0.1")` first stores the raw string, but — the `return` being missing —
falls through and overwrites it with the JSON-encoded text `"10.0.0.1"`
(with quotes), so the final stored value is *not* the verbatim string. -/
theorem claim4_thm :
    c4_res.2 = .ok ()
    ∧ c4_res.1.db.writes
        = [("ingress-address", "10.0.0.1"), ("ingress-address", jquote "10.0.0.1")]
    ∧ storeFind c4_res.1.db.store "ingress-address" = some (jquote "10.0.0.1")
    ∧ jquote "10.0.0.1" ≠ "10.0.0.1" :=
  ⟨rfl, rfl, rfl, by decide⟩

/-- C8: "at most one store write per operation" fails.  A single `set` call on
a reserved key writes the same backing-store key twice: once with the raw
string, then again with its JSON encoding (the missing `return`). -/
theorem claim8_thm :
    c8_res.2 = .ok ()
    ∧ c8_res.1.db.writes
        = [("private-address", "10.1.2.3"), ("private-address", jquote "10.1.2.3")]
    ∧ (c8_res.1.db.writes.map Prod.fst = ["private-address", "private-address"])
    ∧ c8_res.1.db.writes.length = 2 :=
  ⟨rfl, rfl, rfl, rfl⟩

/-- C7 counterexample: `bytes` does *not* fail with a TypeKind error.  Python
`bytes` is a `Sequence`, so inserting `b"hi"` into a live list proxy succeeds,
is silently converted to the list `[104, 105]`, and is written through to the
backing store. -/
theorem claim7_counterexample :
    c7_ins.2 = .ok ()
    ∧ storeFind c7_ins.1.db.store "k7" = some "[[104, 105]]"
    ∧ c7_ins.1.db.writes = [("k7", "[]"), ("k7", "[[104, 105]]")] :=
  ⟨rfl, rfl, rfl⟩

/-- C5: mutation atomicity.  If the value argument of a proxy `__setitem__` or
`insert` fails classification, the operation raises exactly the TypeKind error
carrying that value and returns with the state *unchanged* — no update of the
container's `_data`, no parent notification, no store write. -/
theorem claim5_thm (f : Nat) (st : St) (nid : Nat) (key : PKey) (v : PyVal)
    (nd : Node) (l : List PyVal) (i : Nat)
    (hv : classifies v = false)
    (hnid : st.heap[nid]? = some nd) :
    setNode (f + 2) st nid key v = (st, .error (.typeErr v))
    ∧ (nd.data = .seq l → insertNode (f + 2) st nid i v = (st, .error (.typeErr v))) := by
  cases v
  case obj tag =>
    constructor
    · simp only [setNode, hnid, loadFuel]
    · intro hseq
      simp only [insertNode, hnid, hseq, loadFuel]
  all_goals exact Bool.noConfusion hv

/-- Witness for C5 at a concrete state: a live empty list proxy, a set and an
insert of a Python set object. -/
theorem claim5_witness :
    classifies (.obj "set()") = false
    ∧ stW5.heap[0]? = some ⟨.databag, .str "k", .seq []⟩
    ∧ setNode 10 stW5 0 (.str "x") (.obj "set()") = (stW5, .error (.typeErr (.obj "set()")))
    ∧ insertNode 10 stW5 0 0 (.obj "set()") = (stW5, .error (.typeErr (.obj "set()"))) := by
  have h := claim5_thm 8 stW5 0 (.str "x") (.obj "set()")
    ⟨.databag, .str "k", .seq []⟩ [] 0 rfl rfl
  exact ⟨rfl, rfl, h.1, h.2 rfl⟩

/-- C10: reading a non-reserved key whose stored string is not valid JSON
raises the JSON decode error — an error distinct from every member of the
TypeKind / ReservedKeyTypeKind / KeyNotFound / IndexOutOfRange taxonomy — and
returns with the state (in particular the backing store) unchanged. -/
theorem claim10_thm (f : Nat) (st : St) (key s : String)
    (hk : key ∉ EXCLUDED_KEYS) (hs : storeFind st.db.store key = some s)
    (hbad : jsonLoads s = .error .decodeErr) :
    databagGet f st key = (st, .error .decodeErr)
    ∧ (∀ w, Err.decodeErr ≠ .typeErr w)
    ∧ (∀ k w, Err.decodeErr ≠ .reservedTypeErr k w)
    ∧ (∀ k, Err.decodeErr ≠ .keyErr k)
    ∧ Err.decodeErr ≠ .indexErr := by
  refine ⟨?_, fun w h => Err.noConfusion h, fun k w h => Err.noConfusion h,
    fun k h => Err.noConfusion h, fun h => Err.noConfusion h⟩
  simp only [databagGet, hs, hbad, if_neg hk]

/-- Witness for C10: the stored text `not json` fails to decode and `get`
propagates the decode error leaving the state untouched. -/
theorem claim10_witness :
    ("w" ∉ EXCLUDED_KEYS)
    ∧ storeFind (St.mk [] ⟨[("w", "not json")], []⟩).db.store "w" = some "not json"
    ∧ jsonLoads "not json" = .error .decodeErr
    ∧ databagGet 9 (St.mk [] ⟨[("w", "not json")], []⟩) "w"
        = (St.mk [] ⟨[("w", "not json")], []⟩, .error .decodeErr) :=
  ⟨by decide, rfl, rfl,
    (claim10_thm 9 (St.mk [] ⟨[("w", "not json")], []⟩) "w" "not json"
      (by decide) rfl rfl).1⟩

/-! State-preservation lemmas for `_load`: it allocates fresh nodes and seeds
them, but never touches the databag or any pre-existing node (except, inside
the population loops, the node being populated). -/

theorem getElem?_some_lt {l : List Node} {i : Nat} {nd : Node}
    (h : l[i]? = some nd) : i < l.length := by
  by_contra hge
  rw [List.getElem?_eq_none (by omega)] at h
  exact Option.noConfusion h

theorem presAll_refl (st : St) : PresAll st st :=
  ⟨rfl, le_refl _, fun _ _ => rfl⟩

theorem presAll_trans {a b c : St} (h1 : PresAll a b) (h2 : PresAll b c) : PresAll a c :=
  ⟨h2.1.trans h1.1, le_trans h1.2.1 h2.2.1,
    fun j hj => (h2.2.2 j (lt_of_lt_of_le hj h1.2.1)).trans (h1.2.2 j hj)⟩

theorem presExc_of_presAll {nid : Nat} {a b : St} (h : PresAll a b) : PresExc nid a b :=
  ⟨h.1, h.2.1, fun j hj _ => h.2.2 j hj⟩

theorem presExc_trans {nid : Nat} {a b c : St} (h1 : PresExc nid a b)
    (h2 : PresExc nid b c) : PresExc nid a c :=
  ⟨h2.1.trans h1.1, le_trans h1.2.1 h2.2.1,
    fun j hj hne => (h2.2.2 j (lt_of_lt_of_le hj h1.2.1) hne).trans (h1.2.2 j hj hne)⟩

theorem presAll_alloc (st : St) (nd : Node) :
    PresAll st { st with heap := st.heap ++ [nd] } :=
  ⟨rfl, by simp, fun j hj => List.getElem?_append_left hj⟩

/-- A loop that spares everything but the freshly allocated node, run after the
allocation, spares everything that existed before the allocation. -/
theorem presAll_of_alloc_exc {st : St} {nd : Node} {st2 : St}
    (h : PresExc st.heap.length { st with heap := st.heap ++ [nd] } st2) :
    PresAll st st2 := by
  refine ⟨h.1, le_trans (by simp) h.2.1, fun j hj => ?_⟩
  have := h.2.2 j (by simp; omega) (by omega)
  rw [this]
  exact List.getElem?_append_left hj

theorem setHeapNode_presExc (st : St) (nid : Nat) (nd : Node) :
    PresExc nid st (setHeapNode st nid nd) :=
  ⟨rfl, by simp [setHeapNode], fun j _ hne =>
    List.getElem?_set_ne (fun h => hne h.symm)⟩

theorem nodeSetEntry_presExc (st : St) (nid : Nat) (k : String) (v : PyVal) :
    PresExc nid st (nodeSetEntry st nid k v) := by
  unfold nodeSetEntry
  split
  · split
    · exact setHeapNode_presExc ..
    · exact presExc_of_presAll (presAll_refl _)
  · exact presExc_of_presAll (presAll_refl _)

theorem nodeSetElem_presExc (st : St) (nid : Nat) (i : Nat) (v : PyVal) :
    PresExc nid st (nodeSetElem st nid i v) := by
  unfold nodeSetElem
  split
  · split
    · exact setHeapNode_presExc ..
    · exact presExc_of_presAll (presAll_refl _)
  · exact presExc_of_presAll (presAll_refl _)

/-- `_load` preserves the databag and all existing nodes; its population loops
preserve everything except the node they are seeding. -/
theorem load_pres : ∀ f : Nat,
    (∀ st p pk v, PresAll st (loadFuel f st p pk v).1)
    ∧ (∀ st nid xs, PresExc nid st (loadMapItems f st nid xs).1)
    ∧ (∀ st nid i xs, PresExc nid st (loadSeqItems f st nid i xs).1) := by
  intro f
  induction f with
  | zero =>
    refine ⟨fun st p pk v => presAll_refl st, fun st nid xs => ?_, fun st nid i xs => ?_⟩
    · cases xs <;> exact presExc_of_presAll (presAll_refl st)
    · cases xs <;> exact presExc_of_presAll (presAll_refl st)
  | succ g ih =>
    obtain ⟨ihL, ihM, ihS⟩ := ih
    refine ⟨?_, ?_, ?_⟩
    · intro st p pk v
      cases v with
      | dict xs =>
        have hm := ihM { st with heap := st.heap ++ [⟨p, pk, .map xs⟩] } st.heap.length xs
        dsimp only [loadFuel]
        rcases h : loadMapItems g { st with heap := st.heap ++ [⟨p, pk, .map xs⟩] }
            st.heap.length xs with ⟨st2, res⟩
        rw [h] at hm
        cases res <;> exact presAll_of_alloc_exc hm
      | list xs =>
        have hm := ihS { st with heap := st.heap ++ [⟨p, pk, .seq xs⟩] } st.heap.length 0 xs
        dsimp only [loadFuel]
        rcases h : loadSeqItems g { st with heap := st.heap ++ [⟨p, pk, .seq xs⟩] }
            st.heap.length 0 xs with ⟨st2, res⟩
        rw [h] at hm
        cases res <;> exact presAll_of_alloc_exc hm
      | str s =>
        have hm := ihS { st with heap := st.heap ++
            [⟨p, pk, .seq (s.data.map fun c => PyVal.str (String.mk [c]))⟩] }
            st.heap.length 0 (s.data.map fun c => PyVal.str (String.mk [c]))
        dsimp only [loadFuel]
        rcases h : loadSeqItems g { st with heap := st.heap ++
            [⟨p, pk, .seq (s.data.map fun c => PyVal.str (String.mk [c]))⟩] }
            st.heap.length 0 (s.data.map fun c => PyVal.str (String.mk [c])) with ⟨st2, res⟩
        rw [h] at hm
        cases res <;> exact presAll_of_alloc_exc hm
      | bytes bs =>
        have hm := ihS { st with heap := st.heap ++ [⟨p, pk, .seq (bs.map PyVal.int)⟩] }
            st.heap.length 0 (bs.map PyVal.int)
        dsimp only [loadFuel]
        rcases h : loadSeqItems g { st with heap := st.heap ++
            [⟨p, pk, .seq (bs.map PyVal.int)⟩] }
            st.heap.length 0 (bs.map PyVal.int) with ⟨st2, res⟩
        rw [h] at hm
        cases res <;> exact presAll_of_alloc_exc hm
      | ref r =>
        dsimp only [loadFuel]
        cases hr : st.heap[r]? with
        | none => exact presAll_refl st
        | some nd =>
          dsimp only
          cases hd : nd.data with
          | map es =>
            dsimp only
            have hm := ihM { st with heap := st.heap ++ [⟨p, pk, .map es⟩] } st.heap.length es
            rcases h : loadMapItems g { st with heap := st.heap ++ [⟨p, pk, .map es⟩] }
                st.heap.length es with ⟨st2, res⟩
            rw [h] at hm
            cases res <;> exact presAll_of_alloc_exc hm
          | seq l =>
            dsimp only
            have hm := ihS { st with heap := st.heap ++ [⟨p, pk, .seq l⟩] } st.heap.length 0 l
            rcases h : loadSeqItems g { st with heap := st.heap ++ [⟨p, pk, .seq l⟩] }
                st.heap.length 0 l with ⟨st2, res⟩
            rw [h] at hm
            cases res <;> exact presAll_of_alloc_exc hm
      | int _ => exact presAll_refl st
      | bool _ => exact presAll_refl st
      | null => exact presAll_refl st
      | obj _ => exact presAll_refl st
    · intro st nid xs
      cases xs with
      | nil => exact presExc_of_presAll (presAll_refl st)
      | cons hd tl =>
        rcases hd with ⟨k, v⟩
        dsimp only [loadMapItems]
        rcases h : loadFuel g st (.node nid) (.str k) v with ⟨st1, res⟩
        have hl := ihL st (.node nid) (.str k) v
        rw [h] at hl
        cases res with
        | error e => exact presExc_of_presAll hl
        | ok v' =>
          have h2 := nodeSetEntry_presExc st1 nid k v'
          have h3 := ihM (nodeSetEntry st1 nid k v') nid tl
          exact presExc_trans (presExc_trans (presExc_of_presAll hl) h2) h3
    · intro st nid i xs
      cases xs with
      | nil => exact presExc_of_presAll (presAll_refl st)
      | cons hd tl =>
        dsimp only [loadSeqItems]
        rcases h : loadFuel g st (.node nid) (.idx i) hd with ⟨st1, res⟩
        have hl := ihL st (.node nid) (.idx i) hd
        rw [h] at hl
        cases res with
        | error e => exact presExc_of_presAll hl
        | ok v' =>
          have h2 := nodeSetElem_presExc st1 nid i v'
          have h3 := ihS (nodeSetElem st1 nid i v') nid (i + 1) tl
          exact presExc_trans (presExc_trans (presExc_of_presAll hl) h2) h3

/-! Facts about `insAt` (Python `list.insert`). -/

theorem insAt_length : ∀ (i : Nat) (v : PyVal) (l : List PyVal),
    (insAt i v l).length = l.length + 1 := by
  intro i
  induction i with
  | zero => intro v l; rfl
  | succ n ih =>
    intro v l
    cases l with
    | nil => rfl
    | cons hd tl => simpa [insAt] using ih v tl

theorem insAt_get_lt : ∀ (i : Nat) (v : PyVal) (l : List PyVal) (j : Nat),
    j < i → i ≤ l.length → (insAt i v l)[j]? = l[j]? := by
  intro i
  induction i with
  | zero => intro v l j hj _; omega
  | succ n ih =>
    intro v l j hj hle
    cases l with
    | nil => simp at hle
    | cons hd tl =>
      cases j with
      | zero => simp [insAt]
      | succ j' => simpa [insAt] using ih v tl j' (by omega) (by simpa using hle)

theorem insAt_get_self : ∀ (i : Nat) (v : PyVal) (l : List PyVal),
    i ≤ l.length → (insAt i v l)[i]? = some v := by
  intro i
  induction i with
  | zero => intro v l _; simp [insAt]
  | succ n ih =>
    intro v l hle
    cases l with
    | nil => simp at hle
    | cons hd tl => simpa [insAt] using ih v tl (by simpa using hle)

theorem insAt_get_ge : ∀ (i : Nat) (v : PyVal) (l : List PyVal) (j : Nat),
    i ≤ j → j < l.length → (insAt i v l)[j + 1]? = l[j]? := by
  intro i
  induction i with
  | zero =>
    intro v l j _ hj
    simp [insAt]
  | succ n ih =>
    intro v l j hij hj
    cases l with
    | nil => simp at hj
    | cons hd tl =>
      cases j with
      | zero => omega
      | succ j' => simpa [insAt] using ih v tl j' (by omega) (by simpa using hj)

/-! Facts about `renumber` (the `_parent_key` re-numbering loop of `insert`). -/

theorem renumber_db : ∀ (l : List PyVal) (st : St) (i : Nat),
    (renumber st l i).db = st.db := by
  intro l
  induction l with
  | nil => intro st i; rfl
  | cons e rest ih =>
    intro st i
    cases e <;> simp only [renumber] <;> try apply ih
    case ref r =>
      cases h : st.heap[r]? with
      | none => apply ih
      | some nd => apply ih

theorem renumber_length : ∀ (l : List PyVal) (st : St) (i : Nat),
    (renumber st l i).heap.length = st.heap.length := by
  intro l
  induction l with
  | nil => intro st i; rfl
  | cons e rest ih =>
    intro st i
    cases e <;> simp only [renumber] <;> try apply ih
    case ref r =>
      cases h : st.heap[r]? with
      | none => apply ih
      | some nd => rw [ih]; simp [setHeapNode]

theorem renumber_parent_data : ∀ (l : List PyVal) (st : St) (i : Nat) (r : Nat),
    ((renumber st l i).heap[r]?).map (fun nd => (nd.parent, nd.data))
      = (st.heap[r]?).map (fun nd => (nd.parent, nd.data)) := by
  intro l
  induction l with
  | nil => intro st i r; rfl
  | cons e rest ih =>
    intro st i r
    cases e <;> simp only [renumber] <;> try apply ih
    case ref r' =>
      cases h : st.heap[r']? with
      | none => apply ih
      | some nd =>
        refine (ih ..).trans ?_
        by_cases hrr : r' = r
        · subst hrr
          have hlt : r' < st.heap.length := getElem?_some_lt h
          rw [show (setHeapNode st r' { nd with parentKey := .idx i }).heap[r']?
              = some { nd with parentKey := .idx i } from
            List.getElem?_set_eq_of_lt _ hlt, h]
          rfl
        · rw [show (setHeapNode st r' { nd with parentKey := .idx i }).heap[r]?
              = st.heap[r]? from List.getElem?_set_ne hrr]

theorem renumber_not_in : ∀ (l : List PyVal) (st : St) (i : Nat) (r : Nat),
    (∀ j : Nat, l[j]? ≠ some (PyVal.ref r)) →
    (renumber st l i).heap[r]? = st.heap[r]? := by
  intro l
  induction l with
  | nil => intro st i r _; rfl
  | cons e rest ih =>
    intro st i r hno
    have hrest : ∀ j : Nat, rest[j]? ≠ some (PyVal.ref r) := by
      intro j
      have := hno (j + 1)
      simpa using this
    cases e <;> simp only [renumber] <;> try exact ih _ _ _ hrest
    case ref r' =>
      have hne : r' ≠ r := by
        intro heq
        exact hno 0 (by simp [heq])
      cases h : st.heap[r']? with
      | none => exact ih _ _ _ hrest
      | some nd =>
        refine (ih _ _ _ hrest).trans ?_
        exact List.getElem?_set_ne hne

theorem renumber_last : ∀ (l : List PyVal) (st : St) (i : Nat) (j : Nat) (r : Nat) (nd : Node),
    l[j]? = some (PyVal.ref r) →
    (∀ j2 : Nat, j < j2 → l[j2]? ≠ some (PyVal.ref r)) →
    st.heap[r]? = some nd →
    ∃ nd', (renumber st l i).heap[r]? = some nd' ∧ nd'.parentKey = .idx (i + j) := by
  intro l
  induction l with
  | nil => intro st i j r nd h _ _; simp at h
  | cons e rest ih =>
    intro st i j r nd hj hlast hr
    cases j with
    | zero =>
      have he : e = .ref r := by simpa using hj
      subst he
      have hrest : ∀ j2 : Nat, rest[j2]? ≠ some (PyVal.ref r) := by
        intro j2
        have := hlast (j2 + 1) (by omega)
        simpa using this
      simp only [renumber, hr]
      have hlt : r < st.heap.length := getElem?_some_lt hr
      rw [renumber_not_in rest _ _ _ hrest]
      exact ⟨{ nd with parentKey := .idx i },
        List.getElem?_set_eq_of_lt _ hlt, by simp⟩
    | succ j' =>
      have hj' : rest[j']? = some (PyVal.ref r) := by simpa using hj
      have hlast' : ∀ j2 : Nat, j' < j2 → rest[j2]? ≠ some (PyVal.ref r) := by
        intro j2 h2
        have := hlast (j2 + 1) (by omega)
        simpa using this
      have hgen : ∀ (st2 : St) (nd2 : Node), st2.heap[r]? = some nd2 →
          ∃ nd', (renumber st2 rest (i + 1)).heap[r]? = some nd'
            ∧ nd'.parentKey = .idx (i + (j' + 1)) := by
        intro st2 nd2 h2
        obtain ⟨nd', h3, h4⟩ := ih st2 (i + 1) j' r nd2 hj' hlast' h2
        exact ⟨nd', h3, by rw [h4]; congr 1; omega⟩
      cases e <;> simp only [renumber] <;> try exact hgen st nd hr
      case ref r' =>
        cases h' : st.heap[r']? with
        | none => exact hgen st nd hr
        | some nd2 =>
          by_cases hrr : r' = r
          · subst hrr
            have hlt : r' < st.heap.length := getElem?_some_lt h'
            exact hgen _ _ (List.getElem?_set_eq_of_lt _ hlt)
          · exact hgen _ nd ((List.getElem?_set_ne hrr).trans hr)

/-! Facts about `_WriteableDatabag.__setitem__` as the terminus of a
write-through chain. -/

theorem databagSet_heap (f : Nat) (st : St) (k : String) (v : PyVal) :
    ((databagSet f st k v).1).heap = st.heap := by
  unfold databagSet
  split
  · split
    · dsimp only
      split <;> rfl
    all_goals rfl
  · split <;> rfl

/-- A successful databag write of a proxy reference: the key must be
non-reserved (a reserved key would raise the reserved-key `TypeError`), the
tree serialized, and the resulting string stored. -/
theorem databagSet_ok_ref (f : Nat) (st : St) (k : String) (nid : Nat) (st' : St)
    (h : databagSet f st k (.ref nid) = (st', .ok ())) :
    k ∉ EXCLUDED_KEYS
    ∧ ∃ out, encodeV f st (.ref nid) = .ok out ∧ st' = storeWrite st k out := by
  by_cases hk : k ∈ EXCLUDED_KEYS
  · exfalso
    unfold databagSet at h
    rw [if_pos hk] at h
    exact absurd (congrArg Prod.snd h) (by simp)
  · refine ⟨hk, ?_⟩
    unfold databagSet at h
    rw [if_neg hk] at h
    cases he : encodeV f st (.ref nid) with
    | ok out =>
      rw [he] at h
      exact ⟨out, rfl, (Prod.mk.injEq .. ▸ h).1.symm⟩
    | error e =>
      rw [he] at h
      exact absurd (congrArg Prod.snd h) (by simp)

/-! Tools for the aliasing analysis (C9): `_load` of a proxy mapping whose
entries are all non-string scalars is exactly a fresh structural copy. -/

theorem list_set_same {α : Type} : ∀ (l : List α) (i : Nat) (a : α),
    l[i]? = some a → l.set i a = l := by
  intro l
  induction l with
  | nil => intro i a h; simp at h
  | cons hd tl ih =>
    intro i a h
    cases i with
    | zero =>
      simp only [List.getElem?_cons_zero, Option.some.injEq] at h
      subst h
      rfl
    | succ j =>
      simp only [List.getElem?_cons_succ] at h
      simp [List.set, ih j a h]

theorem setHeapNode_same (st : St) (nid : Nat) (nd : Node)
    (h : st.heap[nid]? = some nd) : setHeapNode st nid nd = st := by
  unfold setHeapNode
  rw [list_set_same _ _ _ h]

theorem node_eta (nd : Node) :
    ({ parent := nd.parent, parentKey := nd.parentKey, data := nd.data } : Node) = nd :=
  rfl

theorem updEntry_of_findEntry : ∀ (es : List (String × PyVal)) (k : String) (v : PyVal),
    findEntry es k = some v → updEntry es k v = es := by
  intro es
  induction es with
  | nil => intro k v h; simp [findEntry] at h
  | cons hd tl ih =>
    intro k v h
    rcases hd with ⟨k', v'⟩
    by_cases hk : k' = k
    · subst hk
      have h2 : v' = v := by simpa [findEntry] using h
      subst h2
      simp [updEntry]
    · simp only [findEntry, if_neg hk] at h
      simp [updEntry, if_neg hk, ih k v h]

theorem loadFuel_scalarNS (g : Nat) (st : St) (p : Parent) (pk : PKey) (v : PyVal)
    (hv : isScalarNS v = true) :
    loadFuel (g + 1) st p pk v = (st, .ok v) := by
  cases v <;> simp [isScalarNS] at hv <;> rfl

/-- The population loop over entries that are already present in the node's
seeded `_data` and are non-string scalars is the identity on the state. -/
theorem loadMapItems_sub (wholeEs : List (String × PyVal)) (nid : Nat) :
    ∀ (xs : List (String × PyVal)) (g : Nat) (st : St) (nd : Node),
      st.heap[nid]? = some nd →
      nd.data = .map wholeEs →
      (∀ k v, (k, v) ∈ xs → findEntry wholeEs k = some v ∧ isScalarNS v = true) →
      xs.length + 1 ≤ g →
      loadMapItems g st nid xs = (st, .ok ()) := by
  intro xs
  induction xs with
  | nil =>
    intro g st nd _ _ _ hg
    obtain ⟨g1, rfl⟩ : ∃ g1, g = g1 + 1 := ⟨g - 1, by omega⟩
    rfl
  | cons hd tl ih =>
    intro g st nd hnid hdata hall hg
    rcases hd with ⟨k, v⟩
    obtain ⟨g1, rfl⟩ : ∃ g1, g = g1 + 1 := ⟨g - 1, by simp at hg; omega⟩
    have hg1 : tl.length + 1 ≤ g1 := by simp at hg; omega
    have hv := hall k v (by simp)
    obtain ⟨g2, rfl⟩ : ∃ g2, g1 = g2 + 1 := ⟨g1 - 1, by omega⟩
    dsimp only [loadMapItems]
    rw [loadFuel_scalarNS _ _ _ _ _ hv.2]
    dsimp only
    have hset : nodeSetEntry st nid k v = st := by
      unfold nodeSetEntry
      rw [hnid]
      dsimp only
      rw [hdata]
      dsimp only
      rw [updEntry_of_findEntry _ _ _ hv.1]
      have heta : ({ nd with data := NodeData.map wholeEs } : Node) = nd := by
        rw [← hdata]
      rw [heta]
      exact setHeapNode_same st nid nd hnid
    rw [hset]
    exact ih (g2 + 1) st nd hnid hdata
      (fun k' v' hm => hall k' v' (by simp [hm])) hg1

/-- `_load` on a reference to a mapping proxy whose entries are non-string
scalars: exactly one fresh node is allocated, holding a structural copy of the
entries, with the designated parent and key. -/
theorem loadFuel_ref_flat (g : Nat) (st : St) (p : Parent) (pk : PKey) (r : Nat)
    (nd : Node) (es : List (String × PyVal))
    (hr : st.heap[r]? = some nd) (hd : nd.data = .map es)
    (hall : ∀ k v, (k, v) ∈ es → findEntry es k = some v ∧ isScalarNS v = true)
    (hg : es.length + 2 ≤ g) :
    loadFuel g st p pk (.ref r)
      = ({ st with heap := st.heap ++ [⟨p, pk, .map es⟩] }, .ok (.ref st.heap.length)) := by
  obtain ⟨g1, rfl⟩ : ∃ g1, g = g1 + 1 := ⟨g - 1, by omega⟩
  dsimp only [loadFuel]
  rw [hr]
  dsimp only
  rw [hd]
  dsimp only
  rw [loadMapItems_sub es st.heap.length es g1
    { st with heap := st.heap ++ [⟨p, pk, .map es⟩] } ⟨p, pk, .map es⟩
    (by simp) rfl (fun k v hm => hall k v hm) (by omega)]

/-- A successful `_load` of a proxy reference returns the reference to the
node freshly allocated at the old end of the heap. -/
theorem loadFuel_ref_ok (f : Nat) (st : St) (p : Parent) (pk : PKey) (r : Nat)
    (st1 : St) (w : PyVal)
    (h : loadFuel f st p pk (.ref r) = (st1, .ok w)) : w = .ref st.heap.length := by
  match f with
  | 0 => exact absurd (congrArg Prod.snd h) (by simp [loadFuel])
  | f + 1 =>
    dsimp only [loadFuel] at h
    cases hr : st.heap[r]? with
    | none =>
      rw [hr] at h
      exact absurd (congrArg Prod.snd h) (by simp)
    | some nd =>
      rw [hr] at h
      dsimp only at h
      cases hd : nd.data with
      | map es =>
        rw [hd] at h
        dsimp only at h
        rcases hm : loadMapItems f { st with heap := st.heap ++ [⟨p, pk, .map es⟩] }
            st.heap.length es with ⟨st2, res⟩
        rw [hm] at h
        cases res with
        | ok u => exact (Except.ok.inj (Prod.mk.injEq .. ▸ h).2).symm
        | error e => exact absurd (congrArg Prod.snd h) (by simp)
      | seq l =>
        rw [hd] at h
        dsimp only at h
        rcases hm : loadSeqItems f { st with heap := st.heap ++ [⟨p, pk, .seq l⟩] }
            st.heap.length 0 l with ⟨st2, res⟩
        rw [hm] at h
        cases res with
        | ok u => exact (Except.ok.inj (Prod.mk.injEq .. ▸ h).2).symm
        | error e => exact absurd (congrArg Prod.snd h) (by simp)

/-! Characterizations of a successful `__setitem__` write-through step. -/

/-- `__setitem__` on a mapping proxy whose parent is the databag root:
the value is `_load`ed, the entry updated, and the whole tree serialized and
written to the node's root key. -/
theorem setNode_root_map (f1 : Nat) (st : St) (nid : Nat) (k2 : String) (v2 : PyVal)
    (nd : Node) (ms : List (String × PyVal)) (kk : String) (st2 : St)
    (hn : st.heap[nid]? = some nd) (hd : nd.data = .map ms)
    (hpar : nd.parent = .databag) (hpk : nd.parentKey = .str kk)
    (hok : setNode (f1 + 1) st nid (.str k2) v2 = (st2, .ok ())) :
    ∃ v2' st1 out,
      loadFuel f1 st (.node nid) (.str k2) v2 = (st1, .ok v2')
      ∧ PresAll st st1
      ∧ kk ∉ EXCLUDED_KEYS
      ∧ encodeV f1 (setHeapNode st1 nid { nd with data := .map (updEntry ms k2 v2') }) (.ref nid) = .ok out
      ∧ st2 = storeWrite (setHeapNode st1 nid { nd with data := .map (updEntry ms k2 v2') }) kk out := by
  dsimp only [setNode] at hok
  rw [hn] at hok
  dsimp only at hok
  rcases hl : loadFuel f1 st (.node nid) (.str k2) v2 with ⟨st1, res⟩
  rw [hl] at hok
  cases res with
  | error e => exact absurd (congrArg Prod.snd hok) (by simp)
  | ok v2' =>
    dsimp only at hok
    have hpres : PresAll st st1 := by
      have hp := (load_pres f1).1 st (.node nid) (.str k2) v2
      rw [hl] at hp
      exact hp
    have hn1 : st1.heap[nid]? = some nd :=
      (hpres.2.2 nid (getElem?_some_lt hn)).trans hn
    rw [hn1] at hok
    dsimp only at hok
    rw [hd] at hok
    dsimp only at hok
    rw [hpar, hpk] at hok
    dsimp only at hok
    obtain ⟨hkk, out, he, hst⟩ := databagSet_ok_ref f1 _ kk nid st2 hok
    refine ⟨v2', st1, out, rfl, hpres, hkk, ?_, ?_⟩
    · rw [hpar, hpk]
      exact he
    · rw [hpar, hpk]
      exact hst

/-- `__setitem__` on a sequence proxy whose parent is the databag root. -/
theorem setNode_root_seq (f1 : Nat) (st : St) (sid : Nat) (jn : Nat) (w : PyVal)
    (nd : Node) (l : List PyVal) (kk : String) (st2 : St)
    (hn : st.heap[sid]? = some nd) (hd : nd.data = .seq l)
    (hpar : nd.parent = .databag) (hpk : nd.parentKey = .str kk)
    (hok : setNode (f1 + 1) st sid (.idx jn) w = (st2, .ok ())) :
    ∃ w' st1 out,
      loadFuel f1 st (.node sid) (.idx jn) w = (st1, .ok w')
      ∧ PresAll st st1
      ∧ jn < l.length
      ∧ kk ∉ EXCLUDED_KEYS
      ∧ encodeV f1 (setHeapNode st1 sid { nd with data := .seq (l.set jn w') }) (.ref sid) = .ok out
      ∧ st2 = storeWrite (setHeapNode st1 sid { nd with data := .seq (l.set jn w') }) kk out := by
  dsimp only [setNode] at hok
  rw [hn] at hok
  dsimp only at hok
  rcases hl : loadFuel f1 st (.node sid) (.idx jn) w with ⟨st1, res⟩
  rw [hl] at hok
  cases res with
  | error e => exact absurd (congrArg Prod.snd hok) (by simp)
  | ok w' =>
    dsimp only at hok
    have hpres : PresAll st st1 := by
      have hp := (load_pres f1).1 st (.node sid) (.idx jn) w
      rw [hl] at hp
      exact hp
    have hn1 : st1.heap[sid]? = some nd :=
      (hpres.2.2 sid (getElem?_some_lt hn)).trans hn
    rw [hn1] at hok
    dsimp only at hok
    rw [hd] at hok
    dsimp only at hok
    by_cases hjn : jn < l.length
    · rw [if_pos hjn] at hok
      rw [hpar, hpk] at hok
      dsimp only at hok
      obtain ⟨hkk, out, he, hst⟩ := databagSet_ok_ref f1 _ kk sid st2 hok
      refine ⟨w', st1, out, rfl, hpres, hjn, hkk, ?_, ?_⟩
      · rw [hpar, hpk]
        exact he
      · rw [hpar, hpk]
        exact hst
    · rw [if_neg hjn] at hok
      exact absurd (congrArg Prod.snd hok) (by simp)

/-- `__setitem__` on a mapping proxy whose parent is another proxy node: one
unfolding step — load, update `_data`, then notify the parent node. -/
theorem setNode_child_map (f1 : Nat) (st : St) (nid : Nat) (k2 : String) (v2 : PyVal)
    (nd : Node) (ms : List (String × PyVal)) (sid : Nat) (pkk : PKey) (st2 : St)
    (hn : st.heap[nid]? = some nd) (hd : nd.data = .map ms)
    (hpar : nd.parent = .node sid) (hpk : nd.parentKey = pkk)
    (hok : setNode (f1 + 1) st nid (.str k2) v2 = (st2, .ok ())) :
    ∃ v2' st1,
      loadFuel f1 st (.node nid) (.str k2) v2 = (st1, .ok v2')
      ∧ PresAll st st1
      ∧ setNode f1 (setHeapNode st1 nid { nd with data := .map (updEntry ms k2 v2') })
          sid pkk (.ref nid) = (st2, .ok ()) := by
  dsimp only [setNode] at hok
  rw [hn] at hok
  dsimp only at hok
  rcases hl : loadFuel f1 st (.node nid) (.str k2) v2 with ⟨st1, res⟩
  rw [hl] at hok
  cases res with
  | error e => exact absurd (congrArg Prod.snd hok) (by simp)
  | ok v2' =>
    dsimp only at hok
    have hpres : PresAll st st1 := by
      have hp := (load_pres f1).1 st (.node nid) (.str k2) v2
      rw [hl] at hp
      exact hp
    have hn1 : st1.heap[nid]? = some nd :=
      (hpres.2.2 nid (getElem?_some_lt hn)).trans hn
    rw [hn1] at hok
    dsimp only at hok
    rw [hd] at hok
    dsimp only at hok
    rw [hpar, hpk] at hok
    dsimp only at hok
    refine ⟨v2', st1, rfl, hpres, ?_⟩
    rw [hpar, hpk]
    exact hok

/-! Parent-walk machinery: a successful write-through chain follows `_parent`
links from the mutated node to the databag root, modifies only the nodes it
visits (plus fresh allocations), and never changes any node's `_parent` or
`_parent_key`. -/

theorem presProj_refl (st : St) : PresProj st st :=
  ⟨le_refl _, fun _ nd h => ⟨nd, h, rfl, rfl⟩⟩

theorem presProj_trans {a b c : St} (h1 : PresProj a b) (h2 : PresProj b c) : PresProj a c := by
  refine ⟨le_trans h1.1 h2.1, fun j nd h => ?_⟩
  obtain ⟨nd1, hb, hp1, hk1⟩ := h1.2 j nd h
  obtain ⟨nd2, hc, hp2, hk2⟩ := h2.2 j nd1 hb
  exact ⟨nd2, hc, hp2.trans hp1, hk2.trans hk1⟩

theorem presProj_of_presAll {a b : St} (h : PresAll a b) : PresProj a b := by
  refine ⟨h.2.1, fun j nd hj => ?_⟩
  exact ⟨nd, (h.2.2 j (getElem?_some_lt hj)).trans hj, rfl, rfl⟩

/-- Overwriting a node with one sharing its `_parent` and `_parent_key`
preserves all projections. -/
theorem presProj_set (st : St) (i : Nat) (nd0 nd1 : Node)
    (h : st.heap[i]? = some nd0)
    (hp : nd1.parent = nd0.parent) (hk : nd1.parentKey = nd0.parentKey) :
    PresProj st (setHeapNode st i nd1) := by
  refine ⟨by simp [setHeapNode], fun j nd hj => ?_⟩
  by_cases hij : j = i
  · subst hij
    have hnd : nd = nd0 := by rw [h] at hj; exact (Option.some.inj hj).symm
    have hlt : j < st.heap.length := getElem?_some_lt hj
    exact ⟨nd1, List.getElem?_set_eq_of_lt _ hlt, by rw [hp, hnd], by rw [hk, hnd]⟩
  · exact ⟨nd, (List.getElem?_set_ne (fun hh => hij hh.symm)).trans hj, rfl, rfl⟩

theorem presProj_of_heapEq {a b c : St} (h : PresProj a b) (he : c.heap = b.heap) :
    PresProj a c := by
  refine ⟨by rw [he]; exact h.1, fun j nd hj => ?_⟩
  obtain ⟨nd', hb, hp, hk⟩ := h.2 j nd hj
  refine ⟨nd', ?_, hp, hk⟩
  rw [show c.heap[j]? = b.heap[j]? from by rw [he]]
  exact hb

theorem nodeSetEntry_presProj (st : St) (nid : Nat) (k : String) (v : PyVal) :
    PresProj st (nodeSetEntry st nid k v) := by
  unfold nodeSetEntry
  cases hn : st.heap[nid]? with
  | none => exact presProj_refl st
  | some nd =>
    dsimp only
    cases hd : nd.data with
    | map es =>
      dsimp only
      exact presProj_set st nid nd _ hn rfl rfl
    | seq l =>
      dsimp only
      exact presProj_refl st

theorem nodeSetElem_presProj (st : St) (nid : Nat) (i : Nat) (v : PyVal) :
    PresProj st (nodeSetElem st nid i v) := by
  unfold nodeSetElem
  cases hn : st.heap[nid]? with
  | none => exact presProj_refl st
  | some nd =>
    dsimp only
    cases hd : nd.data with
    | map es =>
      dsimp only
      exact presProj_refl st
    | seq l =>
      dsimp only
      exact presProj_set st nid nd _ hn rfl rfl

/-- `_load` preserves every existing node's `_parent` and `_parent_key`. -/
theorem loadFuel_proj (f : Nat) (st : St) (p : Parent) (pk : PKey) (v : PyVal) :
    PresProj st (loadFuel f st p pk v).1 :=
  presProj_of_presAll ((load_pres f).1 st p pk v)

/-- The population loops of `_load` also preserve every node's `_parent` and
`_parent_key` (they touch only the seeded node's `_data`). -/
theorem load_proj_loops : ∀ f : Nat,
    (∀ st nid xs, PresProj st (loadMapItems f st nid xs).1)
    ∧ (∀ st nid i xs, PresProj st (loadSeqItems f st nid i xs).1) := by
  intro f
  induction f with
  | zero =>
    refine ⟨fun st nid xs => ?_, fun st nid i xs => ?_⟩
    · cases xs <;> exact presProj_refl st
    · cases xs <;> exact presProj_refl st
  | succ g ih =>
    obtain ⟨ihM, ihS⟩ := ih
    refine ⟨?_, ?_⟩
    · intro st nid xs
      cases xs with
      | nil => exact presProj_refl st
      | cons hd tl =>
        rcases hd with ⟨k, v⟩
        dsimp only [loadMapItems]
        rcases h : loadFuel g st (.node nid) (.str k) v with ⟨st1, res⟩
        have hl : PresProj st st1 := by
          have hp := loadFuel_proj g st (.node nid) (.str k) v
          rw [h] at hp
          exact hp
        cases res with
        | error e => exact hl
        | ok v' =>
          exact presProj_trans (presProj_trans hl (nodeSetEntry_presProj st1 nid k v'))
            (ihM _ nid tl)
    · intro st nid i xs
      cases xs with
      | nil => exact presProj_refl st
      | cons hd tl =>
        dsimp only [loadSeqItems]
        rcases h : loadFuel g st (.node nid) (.idx i) hd with ⟨st1, res⟩
        have hl : PresProj st st1 := by
          have hp := loadFuel_proj g st (.node nid) (.idx i) hd
          rw [h] at hp
          exact hp
        cases res with
        | error e => exact hl
        | ok v' =>
          exact presProj_trans (presProj_trans hl (nodeSetElem_presProj st1 nid i v'))
            (ihS _ nid (i + 1) tl)

/-- One unfolding of a successful `__setitem__` on any proxy node: the value
is loaded, the node's `_data` slot updated (mapping key or in-range sequence
index), then `self._parent[self._parent_key] = self` runs — a databag write at
the root, or a recursive `__setitem__` on the parent node. -/
theorem setNode_step (f1 : Nat) (st : St) (nid : Nat) (key : PKey) (v2 : PyVal)
    (nd : Node) (st2 : St)
    (hn : st.heap[nid]? = some nd)
    (hok : setNode (f1 + 1) st nid key v2 = (st2, .ok ())) :
    ∃ v' st1 newdata,
      loadFuel f1 st (.node nid) key v2 = (st1, .ok v')
      ∧ ((∃ es k2, nd.data = NodeData.map es ∧ key = PKey.str k2
            ∧ newdata = NodeData.map (updEntry es k2 v'))
         ∨ (∃ l j, nd.data = NodeData.seq l ∧ key = PKey.idx j ∧ j < l.length
            ∧ newdata = NodeData.seq (l.set j v')))
      ∧ ((∃ p2, nd.parent = Parent.node p2
            ∧ setNode f1 (setHeapNode st1 nid { nd with data := newdata }) p2 nd.parentKey
                (.ref nid) = (st2, .ok ()))
         ∨ (∃ kk, nd.parent = Parent.databag ∧ nd.parentKey = PKey.str kk
            ∧ databagSet f1 (setHeapNode st1 nid { nd with data := newdata }) kk
                (.ref nid) = (st2, .ok ()))) := by
  dsimp only [setNode] at hok
  rw [hn] at hok
  dsimp only at hok
  rcases hl : loadFuel f1 st (.node nid) key v2 with ⟨st1, res⟩
  rw [hl] at hok
  cases res with
  | error e => exact absurd (congrArg Prod.snd hok) (by simp)
  | ok v' =>
    dsimp only at hok
    have hpres : PresAll st st1 := by
      have hp := (load_pres f1).1 st (.node nid) key v2
      rw [hl] at hp
      exact hp
    have hn1 : st1.heap[nid]? = some nd :=
      (hpres.2.2 nid (getElem?_some_lt hn)).trans hn
    rw [hn1] at hok
    dsimp only at hok
    cases hd : nd.data with
    | map es =>
      rw [hd] at hok
      cases key with
      | idx j =>
        dsimp only at hok
        exact absurd (congrArg Prod.snd hok) (by simp)
      | str k2 =>
        dsimp only at hok
        refine ⟨v', st1, NodeData.map (updEntry es k2 v'), rfl,
          .inl ⟨es, k2, rfl, rfl, rfl⟩, ?_⟩
        cases hpar : nd.parent with
        | node p2 =>
          rw [hpar] at hok
          dsimp only at hok
          exact .inl ⟨p2, rfl, hok⟩
        | databag =>
          rw [hpar] at hok
          cases hpk : nd.parentKey with
          | idx m =>
            rw [hpk] at hok
            dsimp only at hok
            exact absurd (congrArg Prod.snd hok) (by simp)
          | str kk =>
            rw [hpk] at hok
            dsimp only at hok
            exact .inr ⟨kk, rfl, rfl, hok⟩
    | seq l =>
      rw [hd] at hok
      cases key with
      | str k2 =>
        dsimp only at hok
        exact absurd (congrArg Prod.snd hok) (by simp)
      | idx j =>
        dsimp only at hok
        by_cases hj : j < l.length
        · rw [if_pos hj] at hok
          refine ⟨v', st1, NodeData.seq (l.set j v'), rfl,
            .inr ⟨l, j, rfl, rfl, hj, rfl⟩, ?_⟩
          cases hpar : nd.parent with
          | node p2 =>
            rw [hpar] at hok
            dsimp only at hok
            exact .inl ⟨p2, rfl, hok⟩
          | databag =>
            rw [hpar] at hok
            cases hpk : nd.parentKey with
            | idx m =>
              rw [hpk] at hok
              dsimp only at hok
              exact absurd (congrArg Prod.snd hok) (by simp)
            | str kk =>
              rw [hpk] at hok
              dsimp only at hok
              exact .inr ⟨kk, rfl, rfl, hok⟩
        · rw [if_neg hj] at hok
          exact absurd (congrArg Prod.snd hok) (by simp)

/-- `setNode_step` when the node's parent is known to be another node. -/
theorem setNode_child_any (f1 : Nat) (st : St) (nid : Nat) (key : PKey) (v2 : PyVal)
    (nd : Node) (p2 : Nat) (st2 : St)
    (hn : st.heap[nid]? = some nd) (hpar : nd.parent = .node p2)
    (hok : setNode (f1 + 1) st nid key v2 = (st2, .ok ())) :
    ∃ v' st1 newdata,
      loadFuel f1 st (.node nid) key v2 = (st1, .ok v')
      ∧ ((∃ es k2, nd.data = NodeData.map es ∧ key = PKey.str k2
            ∧ newdata = NodeData.map (updEntry es k2 v'))
         ∨ (∃ l j, nd.data = NodeData.seq l ∧ key = PKey.idx j ∧ j < l.length
            ∧ newdata = NodeData.seq (l.set j v')))
      ∧ setNode f1 (setHeapNode st1 nid { nd with data := newdata }) p2 nd.parentKey
          (.ref nid) = (st2, .ok ()) := by
  obtain ⟨v', st1, newdata, hl, hshape, hnot⟩ := setNode_step f1 st nid key v2 nd st2 hn hok
  rcases hnot with ⟨p2', hpar', hok2⟩ | ⟨kk, hpar', _, _⟩
  · have hpp : p2 = p2' := Parent.node.inj (hpar.symm.trans hpar')
    subst hpp
    exact ⟨v', st1, newdata, hl, hshape, hok2⟩
  · rw [hpar] at hpar'
    exact Parent.noConfusion hpar'

/-- A successful `__setitem__` chain starting at node `q` reaches the databag
along the `_parent` walk from `q` (readable in the final state), leaves every
node off that walk with its entry intact, and preserves every node's
`_parent` and `_parent_key`. -/
theorem setNode_walk : ∀ (f : Nat) (st : St) (q : Nat) (pk : PKey) (w : PyVal) (st' : St),
    setNode f st q pk w = (st', .ok ()) →
    ∃ n L, wlist n st' q = some L
      ∧ (∀ (m : Nat) (nd_m : Node), st.heap[m]? = some nd_m → ¬ m ∈ L →
           st'.heap[m]? = some nd_m)
      ∧ PresProj st st' := by
  intro f
  induction f with
  | zero =>
    intro st q pk w st' hok
    exact absurd (congrArg Prod.snd hok) (by simp [setNode])
  | succ g ih =>
    intro st q pk w st' hok
    cases hq : st.heap[q]? with
    | none =>
      dsimp only [setNode] at hok
      rw [hq] at hok
      exact absurd (congrArg Prod.snd hok) (by simp)
    | some nd =>
      obtain ⟨v', st1, newdata, hl, hshape, hnot⟩ := setNode_step g st q pk w nd st' hq hok
      have hpres : PresAll st st1 := by
        have hp := (load_pres g).1 st (.node q) pk w
        rw [hl] at hp
        exact hp
      have hqlt : q < st.heap.length := getElem?_some_lt hq
      have hq1 : st1.heap[q]? = some nd := (hpres.2.2 q hqlt).trans hq
      have hqlt1 : q < st1.heap.length := lt_of_lt_of_le hqlt hpres.2.1
      have hq2 : (setHeapNode st1 q { nd with data := newdata }).heap[q]?
          = some { nd with data := newdata } := List.getElem?_set_eq_of_lt _ hqlt1
      have hproj2 : PresProj st (setHeapNode st1 q { nd with data := newdata }) :=
        presProj_trans (presProj_of_presAll hpres)
          (presProj_set st1 q nd _ hq1 rfl rfl)
      rcases hnot with ⟨p2, hpar, hok2⟩ | ⟨kk, hpar, hpk2, hok2⟩
      · obtain ⟨n, L, hw, hpresL, hprojL⟩ := ih _ p2 nd.parentKey (.ref q) st' hok2
        obtain ⟨qnd', hq', hqp', _⟩ := hprojL.2 q _ hq2
        refine ⟨n + 1, q :: L, ?_, ?_, presProj_trans hproj2 hprojL⟩
        · dsimp only [wlist]
          rw [hq']
          dsimp only
          rw [show qnd'.parent = Parent.node p2 from hqp'.trans hpar]
          dsimp only
          rw [hw]
          rfl
        · intro m nd_m hm hnm
          have hmq : m ≠ q := fun h => hnm (h ▸ List.mem_cons_self q L)
          have hmL : ¬ m ∈ L := fun h => hnm (List.mem_cons_of_mem q h)
          have h1 : st1.heap[m]? = some nd_m :=
            (hpres.2.2 m (getElem?_some_lt hm)).trans hm
          have h2 : (setHeapNode st1 q { nd with data := newdata }).heap[m]? = some nd_m := by
            rw [show (setHeapNode st1 q { nd with data := newdata }).heap[m]?
                = st1.heap[m]? from List.getElem?_set_ne (fun h => hmq h.symm)]
            exact h1
          exact hpresL m nd_m h2 hmL
      · have hheap : st'.heap = (setHeapNode st1 q { nd with data := newdata }).heap := by
          have h1 : (databagSet g (setHeapNode st1 q { nd with data := newdata }) kk
              (.ref q)).1 = st' := congrArg Prod.fst hok2
          rw [← h1]
          exact databagSet_heap g _ kk (.ref q)
        refine ⟨1, [q], ?_, ?_, presProj_of_heapEq hproj2 hheap⟩
        · dsimp only [wlist]
          rw [show st'.heap[q]? = some { nd with data := newdata } from by
            rw [show st'.heap[q]? = (setHeapNode st1 q
                { nd with data := newdata }).heap[q]? from by rw [hheap]]
            exact hq2]
          dsimp only
          rw [show ({ nd with data := newdata } : Node).parent = Parent.databag from hpar]
        · intro m nd_m hm hnm
          have hmq : m ≠ q := by
            intro h
            exact hnm (by rw [h]; exact List.mem_cons_self q [])
          have h1 : st1.heap[m]? = some nd_m :=
            (hpres.2.2 m (getElem?_some_lt hm)).trans hm
          rw [show st'.heap[m]? = (setHeapNode st1 q
              { nd with data := newdata }).heap[m]? from by rw [hheap]]
          rw [show (setHeapNode st1 q { nd with data := newdata }).heap[m]?
              = st1.heap[m]? from List.getElem?_set_ne (fun h => hmq h.symm)]
          exact h1

/-- The parent walk from a fixed start is unique (independent of the step
bound). -/
theorem wlist_unique : ∀ (n1 : Nat) (st : St) (q : Nat) (L1 : List Nat),
    wlist n1 st q = some L1 →
    ∀ (n2 : Nat) (L2 : List Nat), wlist n2 st q = some L2 → L1 = L2 := by
  intro n1
  induction n1 with
  | zero =>
    intro st q L1 h
    exact absurd h (by simp [wlist])
  | succ m ih =>
    intro st q L1 h1 n2 L2 h2
    cases n2 with
    | zero => exact absurd h2 (by simp [wlist])
    | succ m2 =>
      dsimp only [wlist] at h1 h2
      cases hq : st.heap[q]? with
      | none =>
        rw [hq] at h1
        exact absurd h1 (by simp)
      | some nd =>
        rw [hq] at h1 h2
        dsimp only at h1 h2
        cases hp : nd.parent with
        | databag =>
          rw [hp] at h1 h2
          dsimp only at h1 h2
          rw [← Option.some.inj h1, ← Option.some.inj h2]
        | node p =>
          rw [hp] at h1 h2
          dsimp only at h1 h2
          cases hw1 : wlist m st p with
          | none =>
            rw [hw1] at h1
            exact absurd h1 (by simp)
          | some T1 =>
            rw [hw1] at h1
            cases hw2 : wlist m2 st p with
            | none =>
              rw [hw2] at h2
              exact absurd h2 (by simp)
            | some T2 =>
              rw [hw2] at h2
              have hT := ih st p T1 hw1 m2 T2 hw2
              simp only [Option.map_some'] at h1 h2
              rw [← Option.some.inj h1, ← Option.some.inj h2, hT]

/-- Every member of a parent walk has its own parent walk, no longer than the
containing one. -/
theorem wlist_mem : ∀ (n : Nat) (st : St) (q : Nat) (L : List Nat),
    wlist n st q = some L → ∀ s : Nat, s ∈ L →
    ∃ (m : Nat) (LS : List Nat), wlist m st s = some LS ∧ LS.length ≤ L.length := by
  intro n
  induction n with
  | zero =>
    intro st q L h
    exact absurd h (by simp [wlist])
  | succ m ih =>
    intro st q L h s hs
    dsimp only [wlist] at h
    cases hq : st.heap[q]? with
    | none =>
      rw [hq] at h
      exact absurd h (by simp)
    | some nd =>
      rw [hq] at h
      dsimp only at h
      cases hp : nd.parent with
      | databag =>
        rw [hp] at h
        dsimp only at h
        have hL : [q] = L := Option.some.inj h
        subst hL
        have hsq : s = q := by simpa using hs
        subst hsq
        refine ⟨m + 1, [s], ?_, le_refl _⟩
        dsimp only [wlist]
        rw [hq]
        dsimp only
        rw [hp]
      | node p =>
        rw [hp] at h
        dsimp only at h
        cases hw : wlist m st p with
        | none =>
          rw [hw] at h
          exact absurd h (by simp)
        | some T =>
          rw [hw] at h
          simp only [Option.map_some'] at h
          have hL : q :: T = L := Option.some.inj h
          subst hL
          rcases List.mem_cons.mp hs with hsq | hsT
          · subst hsq
            refine ⟨m + 1, s :: T, ?_, le_refl _⟩
            dsimp only [wlist]
            rw [hq]
            dsimp only
            rw [hp]
            dsimp only
            rw [hw]
            rfl
          · obtain ⟨m2, LS, hls, hlen⟩ := ih st p T hw s hsT
            exact ⟨m2, LS, hls, le_trans hlen (by simp)⟩

/-- A write-through chain notified from node `sid`'s parent can never return
to `sid`: a revisit would make the parent walk periodic, and a successful
(terminating) chain reaches the databag.  Hence `sid`'s entry survives its
own notification untouched. -/
theorem setNode_noRevisit (f : Nat) (st : St) (p2 : Nat) (pk : PKey) (w : PyVal)
    (st' : St) (sid : Nat) (ndS : Node)
    (hok : setNode f st p2 pk w = (st', .ok ()))
    (hs : st.heap[sid]? = some ndS) (hpar : ndS.parent = .node p2) :
    st'.heap[sid]? = some ndS := by
  obtain ⟨n, L, hw, hpres, hproj⟩ := setNode_walk f st p2 pk w st' hok
  by_cases hmem : sid ∈ L
  · exfalso
    obtain ⟨nd', hnd', hp', _⟩ := hproj.2 sid ndS hs
    have hws : wlist (n + 1) st' sid = some (sid :: L) := by
      dsimp only [wlist]
      rw [hnd']
      dsimp only
      rw [hp'.trans hpar]
      dsimp only
      rw [hw]
      rfl
    obtain ⟨m, LS, hls, hlen⟩ := wlist_mem n st' p2 L hw sid hmem
    have hEq : sid :: L = LS := wlist_unique (n + 1) st' sid (sid :: L) hws m LS hls
    have hlen2 : LS.length = L.length + 1 := by rw [← hEq]; simp
    omega
  · exact hpres sid ndS hs hmem

/-! Copy-correctness machinery for the aliasing analysis (C9): a successful
`_load` of string-free plain data builds a fresh subtree that resolves to the
same plain value. -/

theorem set_append_length {α : Type} : ∀ (l1 : List α) (x y : α) (l2 : List α),
    (l1 ++ x :: l2).set l1.length y = l1 ++ y :: l2 := by
  intro l1
  induction l1 with
  | nil => intro x y l2; rfl
  | cons a t ih =>
    intro x y l2
    simp [List.set, ih x y l2]

theorem updEntry_append_notin : ∀ (pre : List (String × PyVal)) (k : String)
    (v v1 : PyVal) (rest : List (String × PyVal)),
    ¬ k ∈ pre.map Prod.fst →
    updEntry (pre ++ (k, v) :: rest) k v1 = pre ++ (k, v1) :: rest := by
  intro pre
  induction pre with
  | nil =>
    intro k v v1 rest _
    simp [updEntry]
  | cons a t ih =>
    intro k v v1 rest hnk
    rcases a with ⟨k0, v0⟩
    have hk0 : k0 ≠ k := by
      intro h
      exact hnk (by simp [h])
    have ht : ¬ k ∈ t.map Prod.fst := fun h => hnk (by simp [h])
    simp only [List.cons_append, updEntry, if_neg hk0]
    exact congrArg (List.cons (k0, v0)) (ih k v v1 rest ht)

theorem keyFree_append_cons : ∀ (l1 : List String) (b : String) (l2 : List String)
    (a : String), keyFree a (l1 ++ b :: l2) = true → ¬ b = a := by
  intro l1
  induction l1 with
  | nil =>
    intro b l2 a h
    simp only [List.nil_append, keyFree] at h
    intro hba
    rw [if_pos hba] at h
    exact Bool.noConfusion h
  | cons c t ih =>
    intro b l2 a h
    simp only [List.cons_append, keyFree] at h
    by_cases hca : c = a
    · rw [if_pos hca] at h
      exact Bool.noConfusion h
    · rw [if_neg hca] at h
      exact ih b l2 a h

theorem noDupKeys_mid : ∀ (l1 : List String) (k : String) (l2 : List String),
    noDupKeys (l1 ++ k :: l2) = true → ¬ k ∈ l1 := by
  intro l1
  induction l1 with
  | nil =>
    intro k l2 _
    simp
  | cons a t ih =>
    intro k l2 h
    simp only [List.cons_append, noDupKeys, Bool.and_eq_true] at h
    intro hmem
    rcases List.mem_cons.mp hmem with hka | hkt
    · exact keyFree_append_cons t k l2 a h.1 hka
    · exact ih k l2 h.2 hkt

theorem presAll_set_ge {st0 stA : St} (h : PresAll st0 stA) (nid : Nat)
    (hge : st0.heap.length ≤ nid) (nd : Node) :
    PresAll st0 (setHeapNode stA nid nd) := by
  refine ⟨h.1, ?_, fun j hj => ?_⟩
  · show st0.heap.length ≤ (stA.heap.set nid nd).length
    rw [List.length_set]
    exact h.2.1
  · rw [show (setHeapNode stA nid nd).heap[j]? = stA.heap[j]? from
      List.getElem?_set_ne (by omega)]
    exact h.2.2 j hj

theorem toPlainListB_nil (b F : Nat) (st : St) : toPlainListB b F st [] = .ok [] := by
  cases F <;> rfl

theorem toPlainEntriesB_nil (b F : Nat) (st : St) : toPlainEntriesB b F st [] = .ok [] := by
  cases F <;> rfl

/-- The unbounded resolver is the bounded resolver at bound 0. -/
theorem toPlain_eq_B0 : ∀ F : Nat,
    (∀ st v, toPlain F st v = toPlainB 0 F st v)
    ∧ (∀ st xs, toPlainList F st xs = toPlainListB 0 F st xs)
    ∧ (∀ st xs, toPlainEntries F st xs = toPlainEntriesB 0 F st xs) := by
  intro F
  induction F with
  | zero =>
    refine ⟨fun st v => rfl, fun st xs => ?_, fun st xs => ?_⟩
    · cases xs <;> rfl
    · cases xs <;> rfl
  | succ g ih =>
    obtain ⟨ihV, ihX, ihE⟩ := ih
    refine ⟨?_, ?_, ?_⟩
    · intro st v
      cases v with
      | str s => rfl
      | int n => rfl
      | bool b => rfl
      | null => rfl
      | bytes bs => rfl
      | obj t => rfl
      | list xs =>
        dsimp only [toPlain, toPlainB]
        rw [ihX st xs]
      | dict xs =>
        dsimp only [toPlain, toPlainB]
        rw [ihE st xs]
      | ref r =>
        dsimp only [toPlain, toPlainB]
        rw [if_neg (Nat.not_lt_zero r)]
        cases st.heap[r]? with
        | none => rfl
        | some nd =>
          dsimp only
          cases nd.data with
          | map es =>
            dsimp only
            rw [ihE st es]
          | seq l =>
            dsimp only
            rw [ihX st l]
    · intro st xs
      cases xs with
      | nil => rfl
      | cons v rest =>
        dsimp only [toPlainList, toPlainListB]
        rw [ihV st v]
        cases toPlainB 0 g st v with
        | error e => rfl
        | ok y =>
          dsimp only
          rw [ihX st rest]
    · intro st xs
      cases xs with
      | nil => rfl
      | cons hd rest =>
        rcases hd with ⟨k, v⟩
        dsimp only [toPlainEntries, toPlainEntriesB]
        rw [ihV st v]
        cases toPlainB 0 g st v with
        | error e => rfl
        | ok y =>
          dsimp only
          rw [ihE st rest]

/-- Weakening the reference bound preserves bounded resolution. -/
theorem toPlainB_le : ∀ F : Nat,
    (∀ b b' st v w, b' ≤ b → toPlainB b F st v = .ok w → toPlainB b' F st v = .ok w)
    ∧ (∀ b b' st xs ws, b' ≤ b → toPlainListB b F st xs = .ok ws →
        toPlainListB b' F st xs = .ok ws)
    ∧ (∀ b b' st xs ws, b' ≤ b → toPlainEntriesB b F st xs = .ok ws →
        toPlainEntriesB b' F st xs = .ok ws) := by
  intro F
  induction F with
  | zero =>
    refine ⟨fun b b' st v w _ h => absurd h (by simp [toPlainB]), ?_, ?_⟩
    · intro b b' st xs ws _ h
      cases xs with
      | nil =>
        rw [toPlainListB_nil] at h
        rw [toPlainListB_nil]
        exact h
      | cons hd tl => exact absurd h (by simp [toPlainListB])
    · intro b b' st xs ws _ h
      cases xs with
      | nil =>
        rw [toPlainEntriesB_nil] at h
        rw [toPlainEntriesB_nil]
        exact h
      | cons hd tl => exact absurd h (by simp [toPlainEntriesB])
  | succ g ih =>
    obtain ⟨ihV, ihX, ihE⟩ := ih
    refine ⟨?_, ?_, ?_⟩
    · intro b b' st v w hb h
      cases v with
      | str s => exact h
      | int n => exact h
      | bool b2 => exact h
      | null => exact h
      | bytes bs => exact h
      | obj t => exact h
      | list xs =>
        dsimp only [toPlainB] at h ⊢
        cases hx : toPlainListB b g st xs with
        | error e =>
          try rw [hx] at h
          exact absurd h (by simp)
        | ok ys =>
          try rw [hx] at h
          rw [ihX b b' st xs ys hb hx]
          exact h
      | dict xs =>
        dsimp only [toPlainB] at h ⊢
        cases hx : toPlainEntriesB b g st xs with
        | error e =>
          try rw [hx] at h
          exact absurd h (by simp)
        | ok ys =>
          try rw [hx] at h
          rw [ihE b b' st xs ys hb hx]
          exact h
      | ref r =>
        dsimp only [toPlainB] at h ⊢
        by_cases hrb : r < b
        · rw [if_pos hrb] at h
          exact absurd h (by simp)
        · rw [if_neg hrb] at h
          rw [if_neg (show ¬ r < b' by omega)]
          cases hr : st.heap[r]? with
          | none =>
            try rw [hr] at h
            exact absurd h (by simp)
          | some nd =>
            try rw [hr] at h
            try rw [hr]
            dsimp only at h ⊢
            cases hd : nd.data with
            | map es =>
              try rw [hd] at h
              try rw [hd]
              dsimp only at h ⊢
              cases hx : toPlainEntriesB b g st es with
              | error e =>
                try rw [hx] at h
                exact absurd h (by simp)
              | ok ys =>
                try rw [hx] at h
                rw [ihE b b' st es ys hb hx]
                exact h
            | seq l =>
              try rw [hd] at h
              try rw [hd]
              dsimp only at h ⊢
              cases hx : toPlainListB b g st l with
              | error e =>
                try rw [hx] at h
                exact absurd h (by simp)
              | ok ys =>
                try rw [hx] at h
                rw [ihX b b' st l ys hb hx]
                exact h
    · intro b b' st xs ws hb h
      cases xs with
      | nil =>
        rw [toPlainListB_nil] at h
        rw [toPlainListB_nil]
        exact h
      | cons v tl =>
        dsimp only [toPlainListB] at h ⊢
        cases hv : toPlainB b g st v with
        | error e =>
          try rw [hv] at h
          exact absurd h (by simp)
        | ok y =>
          try rw [hv] at h
          rw [ihV b b' st v y hb hv]
          dsimp only at h ⊢
          cases ht : toPlainListB b g st tl with
          | error e =>
            try rw [ht] at h
            exact absurd h (by simp)
          | ok ys =>
            try rw [ht] at h
            rw [ihX b b' st tl ys hb ht]
            exact h
    · intro b b' st xs ws hb h
      cases xs with
      | nil =>
        rw [toPlainEntriesB_nil] at h
        rw [toPlainEntriesB_nil]
        exact h
      | cons hd tl =>
        rcases hd with ⟨k, v⟩
        dsimp only [toPlainEntriesB] at h ⊢
        cases hv : toPlainB b g st v with
        | error e =>
          try rw [hv] at h
          exact absurd h (by simp)
        | ok y =>
          try rw [hv] at h
          rw [ihV b b' st v y hb hv]
          dsimp only at h ⊢
          cases ht : toPlainEntriesB b g st tl with
          | error e =>
            try rw [ht] at h
            exact absurd h (by simp)
          | ok ys =>
            try rw [ht] at h
            rw [ihE b b' st tl ys hb ht]
            exact h

/-- Bounded resolution is monotone in the fuel. -/
theorem toPlainB_mono : ∀ F : Nat,
    (∀ b F' st v w, toPlainB b F st v = .ok w → F ≤ F' → toPlainB b F' st v = .ok w)
    ∧ (∀ b F' st xs ws, toPlainListB b F st xs = .ok ws → F ≤ F' →
        toPlainListB b F' st xs = .ok ws)
    ∧ (∀ b F' st xs ws, toPlainEntriesB b F st xs = .ok ws → F ≤ F' →
        toPlainEntriesB b F' st xs = .ok ws) := by
  intro F
  induction F with
  | zero =>
    refine ⟨fun b F' st v w h _ => absurd h (by simp [toPlainB]), ?_, ?_⟩
    · intro b F' st xs ws h _
      cases xs with
      | nil =>
        rw [toPlainListB_nil] at h
        rw [toPlainListB_nil]
        exact h
      | cons hd tl => exact absurd h (by simp [toPlainListB])
    · intro b F' st xs ws h _
      cases xs with
      | nil =>
        rw [toPlainEntriesB_nil] at h
        rw [toPlainEntriesB_nil]
        exact h
      | cons hd tl => exact absurd h (by simp [toPlainEntriesB])
  | succ g ih =>
    obtain ⟨ihV, ihX, ihE⟩ := ih
    refine ⟨?_, ?_, ?_⟩
    · intro b F' st v w h hF
      obtain ⟨g', rfl⟩ : ∃ g', F' = g' + 1 := ⟨F' - 1, by omega⟩
      have hg : g ≤ g' := by omega
      cases v with
      | str s => exact h
      | int n => exact h
      | bool b2 => exact h
      | null => exact h
      | bytes bs => exact h
      | obj t => exact h
      | list xs =>
        dsimp only [toPlainB] at h ⊢
        cases hx : toPlainListB b g st xs with
        | error e =>
          try rw [hx] at h
          exact absurd h (by simp)
        | ok ys =>
          try rw [hx] at h
          rw [ihX b g' st xs ys hx hg]
          exact h
      | dict xs =>
        dsimp only [toPlainB] at h ⊢
        cases hx : toPlainEntriesB b g st xs with
        | error e =>
          try rw [hx] at h
          exact absurd h (by simp)
        | ok ys =>
          try rw [hx] at h
          rw [ihE b g' st xs ys hx hg]
          exact h
      | ref r =>
        dsimp only [toPlainB] at h ⊢
        by_cases hrb : r < b
        · rw [if_pos hrb] at h
          exact absurd h (by simp)
        · rw [if_neg hrb] at h
          rw [if_neg hrb]
          cases hr : st.heap[r]? with
          | none =>
            try rw [hr] at h
            exact absurd h (by simp)
          | some nd =>
            try rw [hr] at h
            try rw [hr]
            dsimp only at h ⊢
            cases hd : nd.data with
            | map es =>
              try rw [hd] at h
              try rw [hd]
              dsimp only at h ⊢
              cases hx : toPlainEntriesB b g st es with
              | error e =>
                try rw [hx] at h
                exact absurd h (by simp)
              | ok ys =>
                try rw [hx] at h
                rw [ihE b g' st es ys hx hg]
                exact h
            | seq l =>
              try rw [hd] at h
              try rw [hd]
              dsimp only at h ⊢
              cases hx : toPlainListB b g st l with
              | error e =>
                try rw [hx] at h
                exact absurd h (by simp)
              | ok ys =>
                try rw [hx] at h
                rw [ihX b g' st l ys hx hg]
                exact h
    · intro b F' st xs ws h hF
      cases xs with
      | nil =>
        rw [toPlainListB_nil] at h
        rw [toPlainListB_nil]
        exact h
      | cons v tl =>
        obtain ⟨g', rfl⟩ : ∃ g', F' = g' + 1 := ⟨F' - 1, by omega⟩
        have hg : g ≤ g' := by omega
        dsimp only [toPlainListB] at h ⊢
        cases hv : toPlainB b g st v with
        | error e =>
          try rw [hv] at h
          exact absurd h (by simp)
        | ok y =>
          try rw [hv] at h
          rw [ihV b g' st v y hv hg]
          dsimp only at h ⊢
          cases ht : toPlainListB b g st tl with
          | error e =>
            try rw [ht] at h
            exact absurd h (by simp)
          | ok ys =>
            try rw [ht] at h
            rw [ihX b g' st tl ys ht hg]
            exact h
    · intro b F' st xs ws h hF
      cases xs with
      | nil =>
        rw [toPlainEntriesB_nil] at h
        rw [toPlainEntriesB_nil]
        exact h
      | cons hd tl =>
        rcases hd with ⟨k, v⟩
        obtain ⟨g', rfl⟩ : ∃ g', F' = g' + 1 := ⟨F' - 1, by omega⟩
        have hg : g ≤ g' := by omega
        dsimp only [toPlainEntriesB] at h ⊢
        cases hv : toPlainB b g st v with
        | error e =>
          try rw [hv] at h
          exact absurd h (by simp)
        | ok y =>
          try rw [hv] at h
          rw [ihV b g' st v y hv hg]
          dsimp only at h ⊢
          cases ht : toPlainEntriesB b g st tl with
          | error e =>
            try rw [ht] at h
            exact absurd h (by simp)
          | ok ys =>
            try rw [ht] at h
            rw [ihE b g' st tl ys ht hg]
            exact h

/-- Bounded resolution only reads nodes at or above the bound, so it survives
any state change confined to nodes below the bound (plus fresh allocations). -/
theorem toPlainB_port : ∀ F : Nat,
    (∀ b (st st2 : St) v w, toPlainB b F st v = .ok w →
      (∀ j : Nat, b ≤ j → j < st.heap.length → st2.heap[j]? = st.heap[j]?) →
      toPlainB b F st2 v = .ok w)
    ∧ (∀ b (st st2 : St) xs ws, toPlainListB b F st xs = .ok ws →
      (∀ j : Nat, b ≤ j → j < st.heap.length → st2.heap[j]? = st.heap[j]?) →
      toPlainListB b F st2 xs = .ok ws)
    ∧ (∀ b (st st2 : St) xs ws, toPlainEntriesB b F st xs = .ok ws →
      (∀ j : Nat, b ≤ j → j < st.heap.length → st2.heap[j]? = st.heap[j]?) →
      toPlainEntriesB b F st2 xs = .ok ws) := by
  intro F
  induction F with
  | zero =>
    refine ⟨fun b st st2 v w h _ => absurd h (by simp [toPlainB]), ?_, ?_⟩
    · intro b st st2 xs ws h _
      cases xs with
      | nil =>
        rw [toPlainListB_nil] at h
        rw [toPlainListB_nil]
        exact h
      | cons hd tl => exact absurd h (by simp [toPlainListB])
    · intro b st st2 xs ws h _
      cases xs with
      | nil =>
        rw [toPlainEntriesB_nil] at h
        rw [toPlainEntriesB_nil]
        exact h
      | cons hd tl => exact absurd h (by simp [toPlainEntriesB])
  | succ g ih =>
    obtain ⟨ihV, ihX, ihE⟩ := ih
    refine ⟨?_, ?_, ?_⟩
    · intro b st st2 v w h hagree
      cases v with
      | str s => exact h
      | int n => exact h
      | bool b2 => exact h
      | null => exact h
      | bytes bs => exact h
      | obj t => exact h
      | list xs =>
        dsimp only [toPlainB] at h ⊢
        cases hx : toPlainListB b g st xs with
        | error e =>
          try rw [hx] at h
          exact absurd h (by simp)
        | ok ys =>
          try rw [hx] at h
          rw [ihX b st st2 xs ys hx hagree]
          exact h
      | dict xs =>
        dsimp only [toPlainB] at h ⊢
        cases hx : toPlainEntriesB b g st xs with
        | error e =>
          try rw [hx] at h
          exact absurd h (by simp)
        | ok ys =>
          try rw [hx] at h
          rw [ihE b st st2 xs ys hx hagree]
          exact h
      | ref r =>
        dsimp only [toPlainB] at h ⊢
        by_cases hrb : r < b
        · rw [if_pos hrb] at h
          exact absurd h (by simp)
        · rw [if_neg hrb] at h
          rw [if_neg hrb]
          cases hr : st.heap[r]? with
          | none =>
            try rw [hr] at h
            exact absurd h (by simp)
          | some nd =>
            try rw [hr] at h
            have hr2 : st2.heap[r]? = some nd :=
              (hagree r (by omega) (getElem?_some_lt hr)).trans hr
            try rw [hr2]
            dsimp only at h ⊢
            cases hd : nd.data with
            | map es =>
              try rw [hd] at h
              try rw [hd]
              dsimp only at h ⊢
              cases hx : toPlainEntriesB b g st es with
              | error e =>
                try rw [hx] at h
                exact absurd h (by simp)
              | ok ys =>
                try rw [hx] at h
                rw [ihE b st st2 es ys hx hagree]
                exact h
            | seq l =>
              try rw [hd] at h
              try rw [hd]
              dsimp only at h ⊢
              cases hx : toPlainListB b g st l with
              | error e =>
                try rw [hx] at h
                exact absurd h (by simp)
              | ok ys =>
                try rw [hx] at h
                rw [ihX b st st2 l ys hx hagree]
                exact h
    · intro b st st2 xs ws h hagree
      cases xs with
      | nil =>
        rw [toPlainListB_nil] at h
        rw [toPlainListB_nil]
        exact h
      | cons v tl =>
        dsimp only [toPlainListB] at h ⊢
        cases hv : toPlainB b g st v with
        | error e =>
          try rw [hv] at h
          exact absurd h (by simp)
        | ok y =>
          try rw [hv] at h
          rw [ihV b st st2 v y hv hagree]
          dsimp only at h ⊢
          cases ht : toPlainListB b g st tl with
          | error e =>
            try rw [ht] at h
            exact absurd h (by simp)
          | ok ys =>
            try rw [ht] at h
            rw [ihX b st st2 tl ys ht hagree]
            exact h
    · intro b st st2 xs ws h hagree
      cases xs with
      | nil =>
        rw [toPlainEntriesB_nil] at h
        rw [toPlainEntriesB_nil]
        exact h
      | cons hd tl =>
        rcases hd with ⟨k, v⟩
        dsimp only [toPlainEntriesB] at h ⊢
        cases hv : toPlainB b g st v with
        | error e =>
          try rw [hv] at h
          exact absurd h (by simp)
        | ok y =>
          try rw [hv] at h
          rw [ihV b st st2 v y hv hagree]
          dsimp only at h ⊢
          cases ht : toPlainEntriesB b g st tl with
          | error e =>
            try rw [ht] at h
            exact absurd h (by simp)
          | ok ys =>
            try rw [ht] at h
            rw [ihE b st st2 tl ys ht hagree]
            exact h

/-- Resolution in the unbounded resolver survives heap-preserving extension. -/
theorem toPlain_presAll (F : Nat) (st st2 : St) (v w : PyVal)
    (h : toPlain F st v = .ok w) (hp : PresAll st st2) : toPlain F st2 v = .ok w := by
  rw [(toPlain_eq_B0 F).1 st2 v]
  rw [(toPlain_eq_B0 F).1 st v] at h
  exact (toPlainB_port F).1 0 st st2 v w h (fun j _ hj => hp.2.2 j hj)

/-- Concatenation of bounded entry resolutions (at a combined fuel). -/
theorem toPlainEntriesB_append (b : Nat) (st : St) :
    ∀ (l1 : List (String × PyVal)) (F1 : Nat) (w1 : List (String × PyVal))
      (l2 : List (String × PyVal)) (F2 : Nat) (w2 : List (String × PyVal)),
    toPlainEntriesB b F1 st l1 = .ok w1 → toPlainEntriesB b F2 st l2 = .ok w2 →
    ∃ F3, toPlainEntriesB b F3 st (l1 ++ l2) = .ok (w1 ++ w2) := by
  intro l1
  induction l1 with
  | nil =>
    intro F1 w1 l2 F2 w2 h1 h2
    rw [toPlainEntriesB_nil] at h1
    have hw : [] = w1 := Except.ok.inj h1
    subst hw
    exact ⟨F2, by simpa using h2⟩
  | cons hd tl ih =>
    intro F1 w1 l2 F2 w2 h1 h2
    rcases hd with ⟨k, v⟩
    cases F1 with
    | zero => exact absurd h1 (by simp [toPlainEntriesB])
    | succ g1 =>
      dsimp only [toPlainEntriesB] at h1
      cases hv : toPlainB b g1 st v with
      | error e =>
        try rw [hv] at h1
        exact absurd h1 (by simp)
      | ok y =>
        try rw [hv] at h1
        dsimp only at h1
        cases ht : toPlainEntriesB b g1 st tl with
        | error e =>
          try rw [ht] at h1
          exact absurd h1 (by simp)
        | ok ys =>
          try rw [ht] at h1
          dsimp only at h1
          have hw1 : (k, y) :: ys = w1 := Except.ok.inj h1
          subst hw1
          obtain ⟨F3, h3⟩ := ih g1 ys l2 F2 w2 ht h2
          refine ⟨max g1 F3 + 1, ?_⟩
          show toPlainEntriesB b (max g1 F3 + 1) st ((k, v) :: (tl ++ l2))
            = .ok ((k, y) :: (ys ++ w2))
          dsimp only [toPlainEntriesB]
          rw [(toPlainB_mono g1).1 b (max g1 F3) st v y hv (le_max_left ..)]
          dsimp only
          rw [(toPlainB_mono F3).2.2 b (max g1 F3) st (tl ++ l2) (ys ++ w2) h3
            (le_max_right ..)]

/-- Concatenation of bounded list resolutions (at a combined fuel). -/
theorem toPlainListB_append (b : Nat) (st : St) :
    ∀ (l1 : List PyVal) (F1 : Nat) (w1 : List PyVal)
      (l2 : List PyVal) (F2 : Nat) (w2 : List PyVal),
    toPlainListB b F1 st l1 = .ok w1 → toPlainListB b F2 st l2 = .ok w2 →
    ∃ F3, toPlainListB b F3 st (l1 ++ l2) = .ok (w1 ++ w2) := by
  intro l1
  induction l1 with
  | nil =>
    intro F1 w1 l2 F2 w2 h1 h2
    rw [toPlainListB_nil] at h1
    have hw : [] = w1 := Except.ok.inj h1
    subst hw
    exact ⟨F2, by simpa using h2⟩
  | cons v tl ih =>
    intro F1 w1 l2 F2 w2 h1 h2
    cases F1 with
    | zero => exact absurd h1 (by simp [toPlainListB])
    | succ g1 =>
      dsimp only [toPlainListB] at h1
      cases hv : toPlainB b g1 st v with
      | error e =>
        try rw [hv] at h1
        exact absurd h1 (by simp)
      | ok y =>
        try rw [hv] at h1
        dsimp only at h1
        cases ht : toPlainListB b g1 st tl with
        | error e =>
          try rw [ht] at h1
          exact absurd h1 (by simp)
        | ok ys =>
          try rw [ht] at h1
          dsimp only at h1
          have hw1 : y :: ys = w1 := Except.ok.inj h1
          subst hw1
          obtain ⟨F3, h3⟩ := ih g1 ys l2 F2 w2 ht h2
          refine ⟨max g1 F3 + 1, ?_⟩
          show toPlainListB b (max g1 F3 + 1) st (v :: (tl ++ l2))
            = .ok (y :: (ys ++ w2))
          dsimp only [toPlainListB]
          rw [(toPlainB_mono g1).1 b (max g1 F3) st v y hv (le_max_left ..)]
          dsimp only
          rw [(toPlainB_mono F3).2.1 b (max g1 F3) st (tl ++ l2) (ys ++ w2) h3
            (le_max_right ..)]

/-- Resolving an entry list keeps its keys. -/
theorem toPlainEntries_keys : ∀ (F : Nat) (st : St) (es ws : List (String × PyVal)),
    toPlainEntries F st es = .ok ws → ws.map Prod.fst = es.map Prod.fst := by
  intro F
  induction F with
  | zero =>
    intro st es ws h
    cases es with
    | nil =>
      have hw : [] = ws := Except.ok.inj h
      rw [← hw]
    | cons hd tl => exact absurd h (by simp [toPlainEntries])
  | succ g ih =>
    intro st es ws h
    cases es with
    | nil =>
      have hw : [] = ws := Except.ok.inj h
      rw [← hw]
    | cons hd tl =>
      rcases hd with ⟨k, v⟩
      dsimp only [toPlainEntries] at h
      cases hv : toPlain g st v with
      | error e =>
        try rw [hv] at h
        exact absurd h (by simp)
      | ok y =>
        try rw [hv] at h
        dsimp only at h
        cases ht : toPlainEntries g st tl with
        | error e =>
          try rw [ht] at h
          exact absurd h (by simp)
        | ok ys =>
          try rw [ht] at h
          dsimp only at h
          have hw : (k, y) :: ys = ws := Except.ok.inj h
          rw [← hw]
          simp [ih st tl ys ht]

/-- Copy correctness of `_load`: a successful load of a value that resolves to
string-free, duplicate-key-free plain data builds a result that resolves —
reading only freshly built nodes — to the same plain data.  The loop parts
carry the invariant that the seeded node holds the already-rebuilt prefix then
the original suffix. -/
theorem load_copy : ∀ g : Nat,
    (∀ st p pk v st1 v1, loadFuel g st p pk v = (st1, .ok v1) →
      ∀ (F : Nat) (w : PyVal) (b : Nat), toPlain F st v = .ok w → wfPlain w = true →
      b ≤ st.heap.length →
      ∃ F2, toPlainB b F2 st1 v1 = .ok w)
    ∧ (∀ stc nid xs st2, loadMapItems g stc nid xs = (st2, .ok ()) →
      ∀ (st0 : St) (par : Parent) (pk : PKey) (pre : List (String × PyVal))
        (F Fp : Nat) (wsx wsp : List (String × PyVal)),
      PresAll st0 stc →
      st0.heap.length ≤ nid →
      stc.heap[nid]? = some ⟨par, pk, .map (pre ++ xs)⟩ →
      noDupKeys ((pre ++ xs).map Prod.fst) = true →
      toPlainEntries F st0 xs = .ok wsx →
      wfPlainEntries wsx = true →
      toPlainEntriesB (nid + 1) Fp stc pre = .ok wsp →
      ∃ pre2 F2,
        st2.heap[nid]? = some ⟨par, pk, .map (pre ++ pre2)⟩
        ∧ toPlainEntriesB (nid + 1) F2 st2 (pre ++ pre2) = .ok (wsp ++ wsx))
    ∧ (∀ stc nid i xs st2, loadSeqItems g stc nid i xs = (st2, .ok ()) →
      ∀ (st0 : St) (par : Parent) (pk : PKey) (pre : List PyVal)
        (F Fp : Nat) (wsx wsp : List PyVal),
      PresAll st0 stc →
      st0.heap.length ≤ nid →
      stc.heap[nid]? = some ⟨par, pk, .seq (pre ++ xs)⟩ →
      i = pre.length →
      toPlainList F st0 xs = .ok wsx →
      wfPlainList wsx = true →
      toPlainListB (nid + 1) Fp stc pre = .ok wsp →
      ∃ pre2 F2,
        st2.heap[nid]? = some ⟨par, pk, .seq (pre ++ pre2)⟩
        ∧ toPlainListB (nid + 1) F2 st2 (pre ++ pre2) = .ok (wsp ++ wsx)) := by
  intro g
  induction g with
  | zero =>
    refine ⟨?_, ?_, ?_⟩
    · intro st p pk v st1 v1 hok
      exact absurd (congrArg Prod.snd hok) (by simp [loadFuel])
    · intro stc nid xs st2 hok st0 par pk pre F Fp wsx wsp hpres0 hge hnd hdup hsrc hwf hpre
      cases xs with
      | nil =>
        have hok2 : ((stc, Except.ok ()) : St × Except Err Unit) = (st2, .ok ()) := hok
        have hst : stc = st2 := (Prod.mk.injEq .. ▸ hok2).1
        subst hst
        have hwsx : wsx = [] := by
          cases F with
          | zero => exact (Except.ok.inj hsrc).symm
          | succ F1 => exact (Except.ok.inj hsrc).symm
        subst hwsx
        refine ⟨[], Fp, hnd, ?_⟩
        simpa using hpre
      | cons hd tl => exact absurd (congrArg Prod.snd hok) (by simp [loadMapItems])
    · intro stc nid i xs st2 hok st0 par pk pre F Fp wsx wsp hpres0 hge hnd hi hsrc hwf hpre
      cases xs with
      | nil =>
        have hok2 : ((stc, Except.ok ()) : St × Except Err Unit) = (st2, .ok ()) := hok
        have hst : stc = st2 := (Prod.mk.injEq .. ▸ hok2).1
        subst hst
        have hwsx : wsx = [] := by
          cases F with
          | zero => exact (Except.ok.inj hsrc).symm
          | succ F1 => exact (Except.ok.inj hsrc).symm
        subst hwsx
        refine ⟨[], Fp, hnd, ?_⟩
        simpa using hpre
      | cons hd tl => exact absurd (congrArg Prod.snd hok) (by simp [loadSeqItems])
  | succ g ih =>
    obtain ⟨ihL, ihM, ihS⟩ := ih
    refine ⟨?_, ?_, ?_⟩
    · intro st p pk v st1 v1 hok F w b hres hwf hble
      cases v with
      | int n =>
        have hok2 : ((st, Except.ok (PyVal.int n)) : St × Except Err PyVal) = (st1, .ok v1) := hok
        have hst : st = st1 := (Prod.mk.injEq .. ▸ hok2).1
        have hv1 : PyVal.int n = v1 := Except.ok.inj (Prod.mk.injEq .. ▸ hok2).2
        subst hst
        subst hv1
        cases F with
        | zero => exact absurd hres (by simp [toPlain])
        | succ F1 =>
          have hw : PyVal.int n = w := Except.ok.inj hres
          subst hw
          exact ⟨1, rfl⟩
      | bool b2 =>
        have hok2 : ((st, Except.ok (PyVal.bool b2)) : St × Except Err PyVal)
            = (st1, .ok v1) := hok
        have hst : st = st1 := (Prod.mk.injEq .. ▸ hok2).1
        have hv1 : PyVal.bool b2 = v1 := Except.ok.inj (Prod.mk.injEq .. ▸ hok2).2
        subst hst
        subst hv1
        cases F with
        | zero => exact absurd hres (by simp [toPlain])
        | succ F1 =>
          have hw : PyVal.bool b2 = w := Except.ok.inj hres
          subst hw
          exact ⟨1, rfl⟩
      | null =>
        have hok2 : ((st, Except.ok PyVal.null) : St × Except Err PyVal) = (st1, .ok v1) := hok
        have hst : st = st1 := (Prod.mk.injEq .. ▸ hok2).1
        have hv1 : PyVal.null = v1 := Except.ok.inj (Prod.mk.injEq .. ▸ hok2).2
        subst hst
        subst hv1
        cases F with
        | zero => exact absurd hres (by simp [toPlain])
        | succ F1 =>
          have hw : PyVal.null = w := Except.ok.inj hres
          subst hw
          exact ⟨1, rfl⟩
      | str s =>
        cases F with
        | zero => exact absurd hres (by simp [toPlain])
        | succ F1 =>
          have hw : PyVal.str s = w := Except.ok.inj hres
          subst hw
          exact absurd hwf (by simp [wfPlain])
      | bytes bs =>
        cases F with
        | zero => exact absurd hres (by simp [toPlain])
        | succ F1 =>
          have hw : PyVal.bytes bs = w := Except.ok.inj hres
          subst hw
          exact absurd hwf (by simp [wfPlain])
      | obj t => exact absurd (congrArg Prod.snd hok) (by simp [loadFuel])
      | dict xs =>
        dsimp only [loadFuel] at hok
        rcases hm : loadMapItems g { st with heap := st.heap ++ [⟨p, pk, .map xs⟩] }
            st.heap.length xs with ⟨stm, res⟩
        rw [hm] at hok
        cases res with
        | error e => exact absurd (congrArg Prod.snd hok) (by simp)
        | ok u =>
          cases u
          dsimp only at hok
          have hst : stm = st1 := (Prod.mk.injEq .. ▸ hok).1
          have hv1 : PyVal.ref st.heap.length = v1 :=
            Except.ok.inj (Prod.mk.injEq .. ▸ hok).2
          subst hst
          subst hv1
          cases F with
          | zero => exact absurd hres (by simp [toPlain])
          | succ F1 =>
            dsimp only [toPlain] at hres
            cases hpe : toPlainEntries F1 st xs with
            | error e =>
              try rw [hpe] at hres
              exact absurd hres (by simp)
            | ok ws =>
              try rw [hpe] at hres
              dsimp only at hres
              have hw : PyVal.dict ws = w := Except.ok.inj hres
              subst hw
              have hwf2 : noDupKeys (ws.map Prod.fst) = true ∧ wfPlainEntries ws = true := by
                simpa [wfPlain, Bool.and_eq_true] using hwf
              have hdup : noDupKeys (xs.map Prod.fst) = true := by
                rw [← toPlainEntries_keys F1 st xs ws hpe]
                exact hwf2.1
              obtain ⟨pre2, F2, hfin, hres2⟩ := ihM
                { st with heap := st.heap ++ [⟨p, pk, .map xs⟩] }
                st.heap.length xs stm hm st p pk [] F1 1 ws []
                (presAll_alloc st ⟨p, pk, .map xs⟩) (le_refl _)
                (List.getElem?_concat_length ..) hdup hpe hwf2.2
                (toPlainEntriesB_nil ..)
              refine ⟨F2 + 1, ?_⟩
              dsimp only [toPlainB]
              rw [if_neg (show ¬ st.heap.length < b by omega)]
              rw [hfin]
              dsimp only
              have hres3 := (toPlainB_le F2).2.2 (st.heap.length + 1) b stm ([] ++ pre2)
                ([] ++ ws) (by omega) hres2
              rw [hres3]
              rfl
      | list xs =>
        dsimp only [loadFuel] at hok
        rcases hm : loadSeqItems g { st with heap := st.heap ++ [⟨p, pk, .seq xs⟩] }
            st.heap.length 0 xs with ⟨stm, res⟩
        rw [hm] at hok
        cases res with
        | error e => exact absurd (congrArg Prod.snd hok) (by simp)
        | ok u =>
          cases u
          dsimp only at hok
          have hst : stm = st1 := (Prod.mk.injEq .. ▸ hok).1
          have hv1 : PyVal.ref st.heap.length = v1 :=
            Except.ok.inj (Prod.mk.injEq .. ▸ hok).2
          subst hst
          subst hv1
          cases F with
          | zero => exact absurd hres (by simp [toPlain])
          | succ F1 =>
            dsimp only [toPlain] at hres
            cases hpe : toPlainList F1 st xs with
            | error e =>
              try rw [hpe] at hres
              exact absurd hres (by simp)
            | ok ws =>
              try rw [hpe] at hres
              dsimp only at hres
              have hw : PyVal.list ws = w := Except.ok.inj hres
              subst hw
              have hwf2 : wfPlainList ws = true := by simpa [wfPlain] using hwf
              obtain ⟨pre2, F2, hfin, hres2⟩ := ihS
                { st with heap := st.heap ++ [⟨p, pk, .seq xs⟩] }
                st.heap.length 0 xs stm hm st p pk [] F1 1 ws []
                (presAll_alloc st ⟨p, pk, .seq xs⟩) (le_refl _)
                (List.getElem?_concat_length ..) rfl hpe hwf2
                (toPlainListB_nil ..)
              refine ⟨F2 + 1, ?_⟩
              dsimp only [toPlainB]
              rw [if_neg (show ¬ st.heap.length < b by omega)]
              rw [hfin]
              dsimp only
              have hres3 := (toPlainB_le F2).2.1 (st.heap.length + 1) b stm ([] ++ pre2)
                ([] ++ ws) (by omega) hres2
              rw [hres3]
              rfl
      | ref r =>
        dsimp only [loadFuel] at hok
        cases hr : st.heap[r]? with
        | none =>
          try rw [hr] at hok
          exact absurd (congrArg Prod.snd hok) (by simp)
        | some nd =>
          try rw [hr] at hok
          dsimp only at hok
          cases F with
          | zero => exact absurd hres (by simp [toPlain])
          | succ F1 =>
            dsimp only [toPlain] at hres
            try rw [hr] at hres
            dsimp only at hres
            cases hd : nd.data with
            | map es =>
              try rw [hd] at hok
              try rw [hd] at hres
              dsimp only at hok hres
              rcases hm : loadMapItems g { st with heap := st.heap ++ [⟨p, pk, .map es⟩] }
                  st.heap.length es with ⟨stm, res⟩
              rw [hm] at hok
              cases res with
              | error e => exact absurd (congrArg Prod.snd hok) (by simp)
              | ok u =>
                cases u
                dsimp only at hok
                have hst : stm = st1 := (Prod.mk.injEq .. ▸ hok).1
                have hv1 : PyVal.ref st.heap.length = v1 :=
                  Except.ok.inj (Prod.mk.injEq .. ▸ hok).2
                subst hst
                subst hv1
                cases hpe : toPlainEntries F1 st es with
                | error e =>
                  try rw [hpe] at hres
                  exact absurd hres (by simp)
                | ok ws =>
                  try rw [hpe] at hres
                  dsimp only at hres
                  have hw : PyVal.dict ws = w := Except.ok.inj hres
                  subst hw
                  have hwf2 : noDupKeys (ws.map Prod.fst) = true
                      ∧ wfPlainEntries ws = true := by
                    simpa [wfPlain, Bool.and_eq_true] using hwf
                  have hdup : noDupKeys (es.map Prod.fst) = true := by
                    rw [← toPlainEntries_keys F1 st es ws hpe]
                    exact hwf2.1
                  obtain ⟨pre2, F2, hfin, hres2⟩ := ihM
                    { st with heap := st.heap ++ [⟨p, pk, .map es⟩] }
                    st.heap.length es stm hm st p pk [] F1 1 ws []
                    (presAll_alloc st ⟨p, pk, .map es⟩) (le_refl _)
                    (List.getElem?_concat_length ..) hdup hpe hwf2.2
                    (toPlainEntriesB_nil ..)
                  refine ⟨F2 + 1, ?_⟩
                  dsimp only [toPlainB]
                  rw [if_neg (show ¬ st.heap.length < b by omega)]
                  rw [hfin]
                  dsimp only
                  have hres3 := (toPlainB_le F2).2.2 (st.heap.length + 1) b stm ([] ++ pre2)
                    ([] ++ ws) (by omega) hres2
                  rw [hres3]
                  rfl
            | seq l =>
              try rw [hd] at hok
              try rw [hd] at hres
              dsimp only at hok hres
              rcases hm : loadSeqItems g { st with heap := st.heap ++ [⟨p, pk, .seq l⟩] }
                  st.heap.length 0 l with ⟨stm, res⟩
              rw [hm] at hok
              cases res with
              | error e => exact absurd (congrArg Prod.snd hok) (by simp)
              | ok u =>
                cases u
                dsimp only at hok
                have hst : stm = st1 := (Prod.mk.injEq .. ▸ hok).1
                have hv1 : PyVal.ref st.heap.length = v1 :=
                  Except.ok.inj (Prod.mk.injEq .. ▸ hok).2
                subst hst
                subst hv1
                cases hpe : toPlainList F1 st l with
                | error e =>
                  try rw [hpe] at hres
                  exact absurd hres (by simp)
                | ok ws =>
                  try rw [hpe] at hres
                  dsimp only at hres
                  have hw : PyVal.list ws = w := Except.ok.inj hres
                  subst hw
                  have hwf2 : wfPlainList ws = true := by simpa [wfPlain] using hwf
                  obtain ⟨pre2, F2, hfin, hres2⟩ := ihS
                    { st with heap := st.heap ++ [⟨p, pk, .seq l⟩] }
                    st.heap.length 0 l stm hm st p pk [] F1 1 ws []
                    (presAll_alloc st ⟨p, pk, .seq l⟩) (le_refl _)
                    (List.getElem?_concat_length ..) rfl hpe hwf2
                    (toPlainListB_nil ..)
                  refine ⟨F2 + 1, ?_⟩
                  dsimp only [toPlainB]
                  rw [if_neg (show ¬ st.heap.length < b by omega)]
                  rw [hfin]
                  dsimp only
                  have hres3 := (toPlainB_le F2).2.1 (st.heap.length + 1) b stm ([] ++ pre2)
                    ([] ++ ws) (by omega) hres2
                  rw [hres3]
                  rfl
    · intro stc nid xs st2 hok st0 par pk pre F Fp wsx wsp hpres0 hge hnd hdup hsrc hwf hpre
      cases xs with
      | nil =>
        have hok2 : ((stc, Except.ok ()) : St × Except Err Unit) = (st2, .ok ()) := hok
        have hst : stc = st2 := (Prod.mk.injEq .. ▸ hok2).1
        subst hst
        have hwsx : wsx = [] := by
          cases F with
          | zero => exact (Except.ok.inj hsrc).symm
          | succ F1 => exact (Except.ok.inj hsrc).symm
        subst hwsx
        refine ⟨[], Fp, hnd, ?_⟩
        simpa using hpre
      | cons hd tl =>
        rcases hd with ⟨k, v⟩
        dsimp only [loadMapItems] at hok
        rcases hld : loadFuel g stc (.node nid) (.str k) v with ⟨stA, res⟩
        rw [hld] at hok
        cases res with
        | error e => exact absurd (congrArg Prod.snd hok) (by simp)
        | ok v1 =>
          dsimp only at hok
          cases F with
          | zero => exact absurd hsrc (by simp [toPlainEntries])
          | succ F1 =>
            dsimp only [toPlainEntries] at hsrc
            cases hh : toPlain F1 st0 v with
            | error e =>
              try rw [hh] at hsrc
              exact absurd hsrc (by simp)
            | ok w1 =>
              try rw [hh] at hsrc
              dsimp only at hsrc
              cases ht : toPlainEntries F1 st0 tl with
              | error e =>
                try rw [ht] at hsrc
                exact absurd hsrc (by simp)
              | ok wsr =>
                try rw [ht] at hsrc
                dsimp only at hsrc
                have hwsx : (k, w1) :: wsr = wsx := Except.ok.inj hsrc
                subst hwsx
                have hwf1 : wfPlain w1 = true ∧ wfPlainEntries wsr = true := by
                  simpa [wfPlainEntries, Bool.and_eq_true] using hwf
                have hnidlt : nid < stc.heap.length := getElem?_some_lt hnd
                have hsrcc : toPlain F1 stc v = .ok w1 :=
                  toPlain_presAll F1 st0 stc v w1 hh hpres0
                obtain ⟨Fh, hresh⟩ := ihL stc (.node nid) (.str k) v stA v1 hld F1 w1
                  (nid + 1) hsrcc hwf1.1 (by omega)
                have hpresA : PresAll stc stA := by
                  have hp := (load_pres g).1 stc (.node nid) (.str k) v
                  rw [hld] at hp
                  exact hp
                have hndA : stA.heap[nid]? = some ⟨par, pk, .map (pre ++ (k, v) :: tl)⟩ :=
                  (hpresA.2.2 nid hnidlt).trans hnd
                have hkeys : (pre ++ (k, v) :: tl).map Prod.fst
                    = pre.map Prod.fst ++ k :: tl.map Prod.fst := by simp
                have hkpre : ¬ k ∈ pre.map Prod.fst := by
                  apply noDupKeys_mid (pre.map Prod.fst) k (tl.map Prod.fst)
                  rw [← hkeys]
                  exact hdup
                have hupd : updEntry (pre ++ (k, v) :: tl) k v1 = pre ++ (k, v1) :: tl :=
                  updEntry_append_notin pre k v v1 tl hkpre
                have hsetE : nodeSetEntry stA nid k v1
                    = setHeapNode stA nid ⟨par, pk, NodeData.map (pre ++ (k, v1) :: tl)⟩ := by
                  unfold nodeSetEntry
                  rw [hndA]
                  dsimp only
                  rw [hupd]
                rw [hsetE] at hok
                have hnidA : nid < stA.heap.length := lt_of_lt_of_le hnidlt hpresA.2.1
                have hagree1 : ∀ j : Nat, nid + 1 ≤ j → j < stc.heap.length →
                    stA.heap[j]? = stc.heap[j]? := fun j _ hj => hpresA.2.2 j hj
                have hagree2 : ∀ j : Nat, nid + 1 ≤ j → j < stA.heap.length →
                    (setHeapNode stA nid
                      ⟨par, pk, NodeData.map (pre ++ (k, v1) :: tl)⟩).heap[j]?
                      = stA.heap[j]? := by
                  intro j hjge hj
                  exact List.getElem?_set_ne (by omega)
                have hpreA : toPlainEntriesB (nid + 1) Fp
                    (setHeapNode stA nid ⟨par, pk, NodeData.map (pre ++ (k, v1) :: tl)⟩) pre
                    = .ok wsp := by
                  have h1 := (toPlainB_port Fp).2.2 (nid + 1) stc stA pre wsp hpre hagree1
                  exact (toPlainB_port Fp).2.2 (nid + 1) stA _ pre wsp h1 hagree2
                have hheadA : toPlainB (nid + 1) Fh
                    (setHeapNode stA nid ⟨par, pk, NodeData.map (pre ++ (k, v1) :: tl)⟩) v1
                    = .ok w1 :=
                  (toPlainB_port Fh).1 (nid + 1) stA _ v1 w1 hresh hagree2
                have hsing : toPlainEntriesB (nid + 1) (Fh + 1)
                    (setHeapNode stA nid ⟨par, pk, NodeData.map (pre ++ (k, v1) :: tl)⟩)
                    [(k, v1)] = .ok [(k, w1)] := by
                  dsimp only [toPlainEntriesB]
                  rw [hheadA]
                  dsimp only
                  rw [toPlainEntriesB_nil]
                obtain ⟨Fc, hcomb⟩ := toPlainEntriesB_append (nid + 1) _ pre Fp wsp
                  [(k, v1)] (Fh + 1) [(k, w1)] hpreA hsing
                have hpres1 : PresAll st0
                    (setHeapNode stA nid ⟨par, pk, NodeData.map (pre ++ (k, v1) :: tl)⟩) :=
                  presAll_set_ge (presAll_trans hpres0 hpresA) nid hge _
                have hndB : (setHeapNode stA nid
                    ⟨par, pk, NodeData.map (pre ++ (k, v1) :: tl)⟩).heap[nid]?
                    = some ⟨par, pk, NodeData.map ((pre ++ [(k, v1)]) ++ tl)⟩ := by
                  rw [List.append_assoc]
                  exact List.getElem?_set_eq_of_lt _ hnidA
                have hdupB : noDupKeys (((pre ++ [(k, v1)]) ++ tl).map Prod.fst) = true := by
                  have he : ((pre ++ [(k, v1)]) ++ tl).map Prod.fst
                      = (pre ++ (k, v) :: tl).map Prod.fst := by simp
                  rw [he]
                  exact hdup
                obtain ⟨pre2, F2, hfin, hres2⟩ := ihM _ nid tl st2 hok st0 par pk
                  (pre ++ [(k, v1)]) F1 Fc wsr (wsp ++ [(k, w1)]) hpres1 hge hndB hdupB
                  ht hwf1.2 hcomb
                refine ⟨(k, v1) :: pre2, F2, ?_, ?_⟩
                · rw [show pre ++ (k, v1) :: pre2 = (pre ++ [(k, v1)]) ++ pre2 from by simp]
                  exact hfin
                · rw [show pre ++ (k, v1) :: pre2 = (pre ++ [(k, v1)]) ++ pre2 from by simp]
                  rw [show wsp ++ (k, w1) :: wsr = (wsp ++ [(k, w1)]) ++ wsr from by simp]
                  exact hres2
    · intro stc nid i xs st2 hok st0 par pk pre F Fp wsx wsp hpres0 hge hnd hi hsrc hwf hpre
      cases xs with
      | nil =>
        have hok2 : ((stc, Except.ok ()) : St × Except Err Unit) = (st2, .ok ()) := hok
        have hst : stc = st2 := (Prod.mk.injEq .. ▸ hok2).1
        subst hst
        have hwsx : wsx = [] := by
          cases F with
          | zero => exact (Except.ok.inj hsrc).symm
          | succ F1 => exact (Except.ok.inj hsrc).symm
        subst hwsx
        refine ⟨[], Fp, hnd, ?_⟩
        simpa using hpre
      | cons v tl =>
        dsimp only [loadSeqItems] at hok
        rcases hld : loadFuel g stc (.node nid) (.idx i) v with ⟨stA, res⟩
        rw [hld] at hok
        cases res with
        | error e => exact absurd (congrArg Prod.snd hok) (by simp)
        | ok v1 =>
          dsimp only at hok
          cases F with
          | zero => exact absurd hsrc (by simp [toPlainList])
          | succ F1 =>
            dsimp only [toPlainList] at hsrc
            cases hh : toPlain F1 st0 v with
            | error e =>
              try rw [hh] at hsrc
              exact absurd hsrc (by simp)
            | ok w1 =>
              try rw [hh] at hsrc
              dsimp only at hsrc
              cases ht : toPlainList F1 st0 tl with
              | error e =>
                try rw [ht] at hsrc
                exact absurd hsrc (by simp)
              | ok wsr =>
                try rw [ht] at hsrc
                dsimp only at hsrc
                have hwsx : w1 :: wsr = wsx := Except.ok.inj hsrc
                subst hwsx
                have hwf1 : wfPlain w1 = true ∧ wfPlainList wsr = true := by
                  simpa [wfPlainList, Bool.and_eq_true] using hwf
                have hnidlt : nid < stc.heap.length := getElem?_some_lt hnd
                have hsrcc : toPlain F1 stc v = .ok w1 :=
                  toPlain_presAll F1 st0 stc v w1 hh hpres0
                obtain ⟨Fh, hresh⟩ := ihL stc (.node nid) (.idx i) v stA v1 hld F1 w1
                  (nid + 1) hsrcc hwf1.1 (by omega)
                have hpresA : PresAll stc stA := by
                  have hp := (load_pres g).1 stc (.node nid) (.idx i) v
                  rw [hld] at hp
                  exact hp
                have hndA : stA.heap[nid]? = some ⟨par, pk, .seq (pre ++ v :: tl)⟩ :=
                  (hpresA.2.2 nid hnidlt).trans hnd
                subst hi
                have hsetE : nodeSetElem stA nid pre.length v1
                    = setHeapNode stA nid ⟨par, pk, NodeData.seq (pre ++ v1 :: tl)⟩ := by
                  unfold nodeSetElem
                  rw [hndA]
                  dsimp only
                  rw [set_append_length]
                rw [hsetE] at hok
                have hnidA : nid < stA.heap.length := lt_of_lt_of_le hnidlt hpresA.2.1
                have hagree1 : ∀ j : Nat, nid + 1 ≤ j → j < stc.heap.length →
                    stA.heap[j]? = stc.heap[j]? := fun j _ hj => hpresA.2.2 j hj
                have hagree2 : ∀ j : Nat, nid + 1 ≤ j → j < stA.heap.length →
                    (setHeapNode stA nid
                      ⟨par, pk, NodeData.seq (pre ++ v1 :: tl)⟩).heap[j]?
                      = stA.heap[j]? := by
                  intro j hjge hj
                  exact List.getElem?_set_ne (by omega)
                have hpreA : toPlainListB (nid + 1) Fp
                    (setHeapNode stA nid ⟨par, pk, NodeData.seq (pre ++ v1 :: tl)⟩) pre
                    = .ok wsp := by
                  have h1 := (toPlainB_port Fp).2.1 (nid + 1) stc stA pre wsp hpre hagree1
                  exact (toPlainB_port Fp).2.1 (nid + 1) stA _ pre wsp h1 hagree2
                have hheadA : toPlainB (nid + 1) Fh
                    (setHeapNode stA nid ⟨par, pk, NodeData.seq (pre ++ v1 :: tl)⟩) v1
                    = .ok w1 :=
                  (toPlainB_port Fh).1 (nid + 1) stA _ v1 w1 hresh hagree2
                have hsing : toPlainListB (nid + 1) (Fh + 1)
                    (setHeapNode stA nid ⟨par, pk, NodeData.seq (pre ++ v1 :: tl)⟩)
                    [v1] = .ok [w1] := by
                  dsimp only [toPlainListB]
                  rw [hheadA]
                  dsimp only
                  rw [toPlainListB_nil]
                obtain ⟨Fc, hcomb⟩ := toPlainListB_append (nid + 1) _ pre Fp wsp
                  [v1] (Fh + 1) [w1] hpreA hsing
                have hpres1 : PresAll st0
                    (setHeapNode stA nid ⟨par, pk, NodeData.seq (pre ++ v1 :: tl)⟩) :=
                  presAll_set_ge (presAll_trans hpres0 hpresA) nid hge _
                have hndB : (setHeapNode stA nid
                    ⟨par, pk, NodeData.seq (pre ++ v1 :: tl)⟩).heap[nid]?
                    = some ⟨par, pk, NodeData.seq ((pre ++ [v1]) ++ tl)⟩ := by
                  rw [List.append_assoc]
                  exact List.getElem?_set_eq_of_lt _ hnidA
                have hlen1 : pre.length + 1 = (pre ++ [v1]).length := by simp
                obtain ⟨pre2, F2, hfin, hres2⟩ := ihS _ nid (pre.length + 1) tl st2 hok
                  st0 par pk (pre ++ [v1]) F1 Fc wsr (wsp ++ [w1]) hpres1 hge hndB hlen1
                  ht hwf1.2 hcomb
                refine ⟨v1 :: pre2, F2, ?_, ?_⟩
                · rw [show pre ++ v1 :: pre2 = (pre ++ [v1]) ++ pre2 from by simp]
                  exact hfin
                · rw [show pre ++ v1 :: pre2 = (pre ++ [v1]) ++ pre2 from by simp]
                  rw [show wsp ++ w1 :: wsr = (wsp ++ [w1]) ++ wsr from by simp]
                  exact hres2

/-- A successful `_load` of a proxy reference leaves the freshly allocated
copy root (at the old end of the heap) with the designated parent and key:
the population loop touches only `_data` fields. -/
theorem loadFuel_ref_parent (f : Nat) (st : St) (p : Parent) (pk : PKey) (r : Nat)
    (st1 : St) (w : PyVal)
    (h : loadFuel f st p pk (.ref r) = (st1, .ok w)) :
    ∃ qnd, st1.heap[st.heap.length]? = some qnd ∧ qnd.parent = p ∧ qnd.parentKey = pk := by
  match f with
  | 0 => exact absurd (congrArg Prod.snd h) (by simp [loadFuel])
  | f + 1 =>
    dsimp only [loadFuel] at h
    cases hr : st.heap[r]? with
    | none =>
      try rw [hr] at h
      exact absurd (congrArg Prod.snd h) (by simp)
    | some nd =>
      try rw [hr] at h
      dsimp only at h
      cases hd : nd.data with
      | map es =>
        try rw [hd] at h
        dsimp only at h
        rcases hm : loadMapItems f { st with heap := st.heap ++ [⟨p, pk, .map es⟩] }
            st.heap.length es with ⟨st2, res⟩
        rw [hm] at h
        cases res with
        | error e => exact absurd (congrArg Prod.snd h) (by simp)
        | ok u =>
          have hproj := (load_proj_loops f).1
            { st with heap := st.heap ++ [⟨p, pk, .map es⟩] } st.heap.length es
          rw [hm] at hproj
          have hst : st2 = st1 := (Prod.mk.injEq .. ▸ h).1
          subst hst
          exact hproj.2 st.heap.length ⟨p, pk, .map es⟩ (List.getElem?_concat_length ..)
      | seq l =>
        try rw [hd] at h
        dsimp only at h
        rcases hm : loadSeqItems f { st with heap := st.heap ++ [⟨p, pk, .seq l⟩] }
            st.heap.length 0 l with ⟨st2, res⟩
        rw [hm] at h
        cases res with
        | error e => exact absurd (congrArg Prod.snd h) (by simp)
        | ok u =>
          have hproj := (load_proj_loops f).2
            { st with heap := st.heap ++ [⟨p, pk, .seq l⟩] } st.heap.length 0 l
          rw [hm] at hproj
          have hst : st2 = st1 := (Prod.mk.injEq .. ▸ h).1
          subst hst
          exact hproj.2 st.heap.length ⟨p, pk, .seq l⟩ (List.getElem?_concat_length ..)

/-- C9 counterexample: the original claim fails on string content.  With `p`'s
tree holding the nonempty string entry `"s": "a"`, `c["k"] = p` raises
`RecursionError` while rebuilding the copy (the C2 slip re-enters `_load` on
the string's one-character items) and installs nothing.  With the empty-string
entry `"e": ""`, the assignment succeeds but installs a copy that is NOT
structurally equal to `p`'s tree: the `""` became an empty sequence proxy,
resolving to `[]`. -/
theorem claim9_counterexample :
    (setNode 30 st9s 0 (.str "k") (.ref 1)).2 = .error .fuel
    ∧ (setNode 30 st9e 0 (.str "k") (.ref 1)).2 = .ok ()
    ∧ getItemNode st9e' 0 (.str "k") = .ok (.ref 2)
    ∧ toPlain 20 st9e (.ref 1) = .ok (.dict [("e", .str "")])
    ∧ toPlain 20 st9e' (.ref 2) = .ok (.dict [("e", .list [])])
    ∧ PyVal.dict [("e", .str "")] ≠ PyVal.dict [("e", .list [])] :=
  ⟨rfl, rfl, rfl, rfl, rfl, by simp⟩

/-- C9 (amended): assigning an existing proxy container `p` as the value of a
slot in another container `c` (`c[k] = p`) does not install `p` itself.
Part one: a fresh node, allocated at the old end of the heap, is installed in
`c`'s slot with `c` as its parent and `k` as its key — both at build time and
after the notification chain — while `p` keeps its `_parent` and
`_parent_key`; and whenever `p`'s tree resolves to plain data free of
strings, `bytes`, custom objects and duplicate keys, the installed copy
resolves to the same plain value (structural equality; string content instead
diverges or changes shape — see the counterexample).  Part two: a subsequent
mutation of `p` touches exactly `p`'s own parent chain (plus fresh nodes):
every node off that chain — in particular `c` and the installed copy, which
are not ancestors of `p` — keeps its entry, and every node keeps its
`_parent` and `_parent_key`, so the mutation propagates through `p`'s
original slot and does not update `c[k]`. -/
theorem claim9_thm :
    (∀ (f1 : Nat) (st : St) (c p : Nat) (key : PKey) (st' : St) (cnd pnd : Node),
      st.heap[c]? = some cnd → st.heap[p]? = some pnd →
      setNode (f1 + 1) st c key (.ref p) = (st', .ok ()) →
      ∃ st1,
        loadFuel f1 st (.node c) key (.ref p) = (st1, .ok (.ref st.heap.length))
        ∧ p < st.heap.length
        ∧ c < st.heap.length
        ∧ (∃ qnd, st1.heap[st.heap.length]? = some qnd
             ∧ qnd.parent = .node c ∧ qnd.parentKey = key)
        ∧ (∃ qnd', st'.heap[st.heap.length]? = some qnd'
             ∧ qnd'.parent = .node c ∧ qnd'.parentKey = key)
        ∧ (∃ pnd', st'.heap[p]? = some pnd'
             ∧ pnd'.parent = pnd.parent ∧ pnd'.parentKey = pnd.parentKey)
        ∧ (∃ cnd', st'.heap[c]? = some cnd'
             ∧ cnd'.parent = cnd.parent ∧ cnd'.parentKey = cnd.parentKey
             ∧ ((∃ es kk, cnd.data = NodeData.map es ∧ key = PKey.str kk
                   ∧ cnd'.data = NodeData.map (updEntry es kk (.ref st.heap.length)))
                ∨ (∃ l j, cnd.data = NodeData.seq l ∧ key = PKey.idx j ∧ j < l.length
                   ∧ cnd'.data = NodeData.seq (l.set j (.ref st.heap.length)))))
        ∧ (∀ (F : Nat) (w : PyVal), toPlain F st (.ref p) = .ok w → wfPlain w = true →
             ∃ F2, toPlain F2 st1 (.ref st.heap.length) = .ok w))
    ∧ (∀ (f2 : Nat) (stb : St) (p2 : Nat) (key2 : PKey) (v2 : PyVal) (st'' : St),
      setNode f2 stb p2 key2 v2 = (st'', .ok ()) →
      ∃ n L, wlist n st'' p2 = some L
        ∧ (∀ (m : Nat) (nd_m : Node), stb.heap[m]? = some nd_m → ¬ m ∈ L →
             st''.heap[m]? = some nd_m)
        ∧ (∀ (m : Nat) (nd_m : Node), stb.heap[m]? = some nd_m →
             ∃ nd', st''.heap[m]? = some nd' ∧ nd'.parent = nd_m.parent
               ∧ nd'.parentKey = nd_m.parentKey)) := by
  constructor
  · intro f1 st c p key st' cnd pnd hc hp hok
    have hclen : c < st.heap.length := getElem?_some_lt hc
    have hplen : p < st.heap.length := getElem?_some_lt hp
    obtain ⟨v', st1, newdata, hl, hshape, hnot⟩ :=
      setNode_step f1 st c key (.ref p) cnd st' hc hok
    have hv' : v' = .ref st.heap.length := loadFuel_ref_ok f1 st (.node c) key p st1 v' hl
    subst hv'
    have hpres : PresAll st st1 := by
      have hpr := (load_pres f1).1 st (.node c) key (.ref p)
      rw [hl] at hpr
      exact hpr
    obtain ⟨qnd, hq1, hqp, hqk⟩ := loadFuel_ref_parent f1 st (.node c) key p st1
      (.ref st.heap.length) hl
    have hc1 : st1.heap[c]? = some cnd := (hpres.2.2 c hclen).trans hc
    have hclen1 : c < st1.heap.length := lt_of_lt_of_le hclen hpres.2.1
    generalize hSX : setHeapNode st1 c ⟨cnd.parent, cnd.parentKey, newdata⟩ = stX at hnot
    have hXc : stX.heap[c]? = some ⟨cnd.parent, cnd.parentKey, newdata⟩ := by
      rw [← hSX]
      exact List.getElem?_set_eq_of_lt _ hclen1
    have hXq : stX.heap[st.heap.length]? = some qnd := by
      rw [← hSX]
      exact (List.getElem?_set_ne (by omega)).trans hq1
    have hprojX : PresProj st stX :=
      presProj_trans (presProj_of_presAll hpres)
        (by rw [← hSX]; exact presProj_set st1 c cnd _ hc1 rfl rfl)
    have hshape2 : (∃ es kk, cnd.data = NodeData.map es ∧ key = PKey.str kk
          ∧ newdata = NodeData.map (updEntry es kk (.ref st.heap.length)))
        ∨ (∃ l j, cnd.data = NodeData.seq l ∧ key = PKey.idx j ∧ j < l.length
          ∧ newdata = NodeData.seq (l.set j (.ref st.heap.length))) := hshape
    have hcopy : ∀ (F : Nat) (w : PyVal), toPlain F st (.ref p) = .ok w →
        wfPlain w = true → ∃ F2, toPlain F2 st1 (.ref st.heap.length) = .ok w := by
      intro F w hres hwf
      obtain ⟨F2, hB⟩ := (load_copy f1).1 st (.node c) key (.ref p) st1
        (.ref st.heap.length) hl F w 0 hres hwf (Nat.zero_le _)
      refine ⟨F2, ?_⟩
      rw [(toPlain_eq_B0 F2).1]
      exact hB
    rcases hnot with ⟨cp, hcpar, hok2⟩ | ⟨kk, hcpar, hcpk, hok2⟩
    · obtain ⟨n, L, hwL, hpresL, hprojL⟩ :=
        setNode_walk f1 stX cp cnd.parentKey (.ref c) st' hok2
      have hcfix : st'.heap[c]? = some ⟨cnd.parent, cnd.parentKey, newdata⟩ :=
        setNode_noRevisit f1 stX cp cnd.parentKey (.ref c) st' c
          ⟨cnd.parent, cnd.parentKey, newdata⟩ hok2 hXc hcpar
      have hprojFull : PresProj st st' := presProj_trans hprojX hprojL
      obtain ⟨qnd', hq2, hq2p, hq2k⟩ := hprojL.2 st.heap.length qnd hXq
      obtain ⟨pnd', hp2, hp2p, hp2k⟩ := hprojFull.2 p pnd hp
      exact ⟨st1, hl, hplen, hclen, ⟨qnd, hq1, hqp, hqk⟩,
        ⟨qnd', hq2, hq2p.trans hqp, hq2k.trans hqk⟩,
        ⟨pnd', hp2, hp2p, hp2k⟩,
        ⟨⟨cnd.parent, cnd.parentKey, newdata⟩, hcfix, rfl, rfl, hshape2⟩, hcopy⟩
    · have hheap : st'.heap = stX.heap := by
        have h1 : (databagSet f1 stX kk (.ref c)).1 = st' := congrArg Prod.fst hok2
        rw [← h1]
        exact databagSet_heap ..
      have hproj' : PresProj stX st' := presProj_of_heapEq (presProj_refl stX) hheap
      have hprojFull : PresProj st st' := presProj_trans hprojX hproj'
      have hcfix : st'.heap[c]? = some ⟨cnd.parent, cnd.parentKey, newdata⟩ := by
        rw [show st'.heap[c]? = stX.heap[c]? from by rw [hheap]]
        exact hXc
      have hq2 : st'.heap[st.heap.length]? = some qnd := by
        rw [show st'.heap[st.heap.length]? = stX.heap[st.heap.length]? from by rw [hheap]]
        exact hXq
      obtain ⟨pnd', hp2, hp2p, hp2k⟩ := hprojFull.2 p pnd hp
      exact ⟨st1, hl, hplen, hclen, ⟨qnd, hq1, hqp, hqk⟩,
        ⟨qnd, hq2, hqp, hqk⟩,
        ⟨pnd', hp2, hp2p, hp2k⟩,
        ⟨⟨cnd.parent, cnd.parentKey, newdata⟩, hcfix, rfl, rfl, hshape2⟩, hcopy⟩
  · intro f2 stb p2 key2 v2 st'' hok
    obtain ⟨n, L, hw, hpres, hproj⟩ := setNode_walk f2 stb p2 key2 v2 st'' hok
    exact ⟨n, L, hw, hpres, fun m nd_m hm => hproj.2 m nd_m hm⟩

/-- Witness for C9 at a concrete state: two root trees, the aliasing
assignment `c["k"] = p` installing the copy (node 2) with structural
equality, and the subsequent mutation `p["z"] = 3` leaving `c`'s entry and
the installed copy untouched. -/
theorem claim9_witness :
    (∃ st1, loadFuel 20 st9 (.node 0) (.str "k") (.ref 1) = (st1, .ok (.ref 2))
      ∧ (∃ F2, toPlain F2 st1 (.ref 2) = .ok (.dict [("y", .int 2)])))
    ∧ (∃ qnd', st9'.heap[2]? = some qnd' ∧ qnd'.parent = .node 0 ∧ qnd'.parentKey = .str "k")
    ∧ (∃ pnd', st9'.heap[1]? = some pnd' ∧ pnd'.parent = .databag
        ∧ pnd'.parentKey = .str "kp")
    ∧ st9''.heap[0]? = some ⟨.databag, .str "kc", .map (updEntry [("x", .int 1)] "k" (.ref 2))⟩
    ∧ st9''.heap[2]? = some ⟨.node 0, .str "k", .map [("y", .int 2)]⟩ := by
  obtain ⟨st1, hl, hplen, hclen, hq1, hq', hp', hc', heq⟩ :=
    (claim9_thm).1 20 st9 0 1 (.str "k") st9'
      ⟨.databag, .str "kc", .map [("x", .int 1)]⟩
      ⟨.databag, .str "kp", .map [("y", .int 2)]⟩
      rfl rfl rfl
  obtain ⟨n, L, hw, hpres, hproj⟩ := (claim9_thm).2 21 st9' 1 (.str "z") (.int 3) st9'' rfl
  have hL : L = [1] := wlist_unique n st9'' 1 L hw 1 [1] rfl
  subst hL
  refine ⟨⟨st1, hl, heq 10 (.dict [("y", .int 2)]) rfl rfl⟩, hq', hp', ?_, ?_⟩
  · exact hpres 0 ⟨.databag, .str "kc", .map (updEntry [("x", .int 1)] "k" (.ref 2))⟩
      rfl (by decide)
  · exact hpres 2 ⟨.node 0, .str "k", .map [("y", .int 2)]⟩ rfl (by decide)

/-- C6: insert renumbering.  Part one: inserting an element at position
`i ≤ n` into any live sequence proxy of length `n` — whatever its parent —
succeeds by loading the value, placing it at position `i` (elements before `i`
stay, elements at or after `i` shift to position + 1), and re-numbering the
`_parent_key` of every proxy-typed element to its position in the new list
(its *last* position, for an aliased ref); the notification chain cannot
revisit the sequence, so its updated entry survives, and `_parent_key`s are
never changed by the chain.  Part two: a subsequent mutation (any key or
index) of any shifted proxy element writes through to its NEW position in the
parent sequence — the parent's slot at the recorded index is replaced by the
rebuilt copy and every other slot is untouched. -/
theorem claim6_thm :
    (∀ (g : Nat) (st : St) (sid : Nat) (nd : Node) (l : List PyVal) (i : Nat)
        (v : PyVal) (st' : St),
      st.heap[sid]? = some nd →
      nd.data = .seq l →
      i ≤ l.length →
      insertNode (g + 1) st sid i v = (st', .ok ()) →
      ∃ v' st1,
        loadFuel g st (.node sid) (.idx i) v = (st1, .ok v')
        ∧ (∃ nd', st'.heap[sid]? = some nd' ∧ nd'.data = .seq (insAt i v' l)
             ∧ nd'.parent = nd.parent)
        ∧ (insAt i v' l).length = l.length + 1
        ∧ (∀ j : Nat, j < i → (insAt i v' l)[j]? = l[j]?)
        ∧ (insAt i v' l)[i]? = some v'
        ∧ (∀ j : Nat, i ≤ j → j < l.length → (insAt i v' l)[j + 1]? = l[j]?)
        ∧ (∀ j r : Nat, (insAt i v' l)[j]? = some (PyVal.ref r) →
             (∀ j2 : Nat, j < j2 → (insAt i v' l)[j2]? ≠ some (PyVal.ref r)) →
             r < st1.heap.length →
             ∃ rnd, st'.heap[r]? = some rnd ∧ rnd.parentKey = .idx j))
    ∧ (∀ (f2 : Nat) (stb : St) (sid r jn : Nat) (snd rnd : Node) (l2 : List PyVal)
        (key2 : PKey) (v2 : PyVal) (st'' : St),
      stb.heap[sid]? = some snd → snd.data = .seq l2 →
      stb.heap[r]? = some rnd →
      rnd.parent = .node sid → rnd.parentKey = .idx jn →
      r ≠ sid →
      setNode f2 stb r key2 v2 = (st'', .ok ()) →
      jn < l2.length
      ∧ ∃ q, stb.heap.length ≤ q
          ∧ st''.heap[sid]? = some ⟨snd.parent, snd.parentKey, .seq (l2.set jn (.ref q))⟩
          ∧ (∃ rnd', st''.heap[r]? = some rnd' ∧ rnd'.parent = .node sid
               ∧ rnd'.parentKey = .idx jn)) := by
  constructor
  · intro g st sid nd l i v st' hnd hdata hi hok
    have hsidlen : sid < st.heap.length := getElem?_some_lt hnd
    dsimp only [insertNode] at hok
    rw [hnd] at hok
    dsimp only at hok
    rw [hdata] at hok
    dsimp only at hok
    rcases hl : loadFuel g st (.node sid) (.idx i) v with ⟨st1, res⟩
    rw [hl] at hok
    cases res with
    | error e => exact absurd (congrArg Prod.snd hok) (by simp)
    | ok v' =>
      dsimp only at hok
      have hpres : PresAll st st1 := by
        have hp := (load_pres g).1 st (.node sid) (.idx i) v
        rw [hl] at hp
        exact hp
      have hn1 : st1.heap[sid]? = some nd := (hpres.2.2 sid hsidlen).trans hnd
      rw [hn1] at hok
      dsimp only at hok
      rw [hdata] at hok
      dsimp only at hok
      have hsidlen1 : sid < st1.heap.length := lt_of_lt_of_le hsidlen hpres.2.1
      have hst2get : (setHeapNode st1 sid { nd with data := .seq (insAt i v' l) }).heap[sid]?
          = some { nd with data := .seq (insAt i v' l) } :=
        List.getElem?_set_eq_of_lt _ hsidlen1
      have hproj := renumber_parent_data (insAt i v' l)
        (setHeapNode st1 sid { nd with data := .seq (insAt i v' l) }) 0 sid
      rw [hst2get] at hproj
      cases h3 : (renumber (setHeapNode st1 sid { nd with data := .seq (insAt i v' l) })
          (insAt i v' l) 0).heap[sid]? with
      | none => rw [h3] at hproj; exact absurd hproj (by simp)
      | some nd3 =>
        rw [h3] at hproj
        simp at hproj
        rw [h3] at hok
        dsimp only at hok
        have hren3 : ∀ j r : Nat, (insAt i v' l)[j]? = some (PyVal.ref r) →
            (∀ j2 : Nat, j < j2 → (insAt i v' l)[j2]? ≠ some (PyVal.ref r)) →
            r < st1.heap.length →
            ∃ rnd, (renumber (setHeapNode st1 sid { nd with data := .seq (insAt i v' l) })
                (insAt i v' l) 0).heap[r]? = some rnd ∧ rnd.parentKey = .idx j := by
          intro j r hjr hlast hrlen
          have hrlen2 : r < (setHeapNode st1 sid
              { nd with data := .seq (insAt i v' l) }).heap.length := by
            simpa [setHeapNode] using hrlen
          cases h0 : (setHeapNode st1 sid
              { nd with data := .seq (insAt i v' l) }).heap[r]? with
          | none =>
            rw [List.getElem?_eq_getElem hrlen2] at h0
            exact Option.noConfusion h0
          | some rnd0 =>
            obtain ⟨rnd, hr1, hr2⟩ := renumber_last (insAt i v' l) _ 0 j r rnd0 hjr hlast h0
            exact ⟨rnd, hr1, by rw [hr2]; simp⟩
        cases hpd3 : nd3.parent with
        | databag =>
          rw [hpd3] at hok
          cases hkk : nd3.parentKey with
          | idx m =>
            rw [hkk] at hok
            exact absurd (congrArg Prod.snd hok) (by simp)
          | str kk =>
            rw [hkk] at hok
            dsimp only at hok
            have hheq : st'.heap = (renumber
                (setHeapNode st1 sid { nd with data := .seq (insAt i v' l) })
                (insAt i v' l) 0).heap := by
              have h1 : (databagSet g (renumber (setHeapNode st1 sid
                  { nd with data := .seq (insAt i v' l) }) (insAt i v' l) 0) kk
                  (.ref sid)).1 = st' := congrArg Prod.fst hok
              rw [← h1]
              exact databagSet_heap ..
            refine ⟨v', st1, rfl, ⟨nd3, by rw [hheq]; exact h3, hproj.2, hproj.1⟩,
              insAt_length i v' l, ?_, ?_, ?_, ?_⟩
            · intro j hj
              exact insAt_get_lt i v' l j hj hi
            · exact insAt_get_self i v' l hi
            · intro j h1 h2
              exact insAt_get_ge i v' l j h1 h2
            · intro j r hjr hlast hrlen
              obtain ⟨rnd, hr1, hr2⟩ := hren3 j r hjr hlast hrlen
              refine ⟨rnd, ?_, hr2⟩
              rw [hheq]
              exact hr1
        | node p =>
          rw [hpd3] at hok
          dsimp only at hok
          obtain ⟨n, L, hwL, hpresL, hprojL⟩ :=
            setNode_walk g _ p nd3.parentKey (.ref sid) st' hok
          have hsidfix : st'.heap[sid]? = some nd3 :=
            setNode_noRevisit g _ p nd3.parentKey (.ref sid) st' sid nd3 hok h3 hpd3
          refine ⟨v', st1, rfl, ⟨nd3, hsidfix, hproj.2, hproj.1⟩,
            insAt_length i v' l, ?_, ?_, ?_, ?_⟩
          · intro j hj
            exact insAt_get_lt i v' l j hj hi
          · exact insAt_get_self i v' l hi
          · intro j h1 h2
            exact insAt_get_ge i v' l j h1 h2
          · intro j r hjr hlast hrlen
            obtain ⟨rnd, hr1, hr2⟩ := hren3 j r hjr hlast hrlen
            obtain ⟨rnd', hre, _, hrk'⟩ := hprojL.2 r rnd hr1
            exact ⟨rnd', hre, hrk'.trans hr2⟩
  · intro f2 stb sid r jn snd rnd l2 key2 v2 st'' hsn hsd hr0 hrpar hrk hrs hok
    cases f2 with
    | zero => exact absurd (congrArg Prod.snd hok) (by simp [setNode])
    | succ f3 =>
      obtain ⟨v2', st1, newdata, hl, hshape, hok2⟩ :=
        setNode_child_any f3 stb r key2 v2 rnd sid st'' hr0 hrpar hok
      rw [hrk] at hok2
      have hpres : PresAll stb st1 := by
        have hp := (load_pres f3).1 stb (.node r) key2 v2
        rw [hl] at hp
        exact hp
      have hrlen : r < stb.heap.length := getElem?_some_lt hr0
      have hslen : sid < stb.heap.length := getElem?_some_lt hsn
      have hrlen1 : r < st1.heap.length := lt_of_lt_of_le hrlen hpres.2.1
      have hslen1 : sid < st1.heap.length := lt_of_lt_of_le hslen hpres.2.1
      generalize hSX : setHeapNode st1 r ⟨rnd.parent, PKey.idx jn, newdata⟩ = stX at hok2
      have hXlen : stX.heap.length = st1.heap.length := by
        rw [← hSX]
        simp [setHeapNode]
      have hsX : stX.heap[sid]? = some snd := by
        rw [← hSX]
        exact (List.getElem?_set_ne hrs).trans ((hpres.2.2 sid hslen).trans hsn)
      have hrX : stX.heap[r]? = some ⟨rnd.parent, PKey.idx jn, newdata⟩ := by
        rw [← hSX]
        exact List.getElem?_set_eq_of_lt _ hrlen1
      cases f3 with
      | zero => exact absurd (congrArg Prod.snd hok2) (by simp [setNode])
      | succ f4 =>
        dsimp only [setNode] at hok2
        rw [hsX] at hok2
        dsimp only at hok2
        rcases hl2 : loadFuel f4 stX (.node sid) (.idx jn) (.ref r) with ⟨st1b, res2⟩
        rw [hl2] at hok2
        cases res2 with
        | error e => exact absurd (congrArg Prod.snd hok2) (by simp)
        | ok w' =>
          dsimp only at hok2
          have hw' : w' = .ref stX.heap.length :=
            loadFuel_ref_ok f4 stX (.node sid) (.idx jn) r st1b w' hl2
          subst hw'
          rw [hXlen] at hok2
          have hpres2 : PresAll stX st1b := by
            have hp := (load_pres f4).1 stX (.node sid) (.idx jn) (.ref r)
            rw [hl2] at hp
            exact hp
          have hslenX : sid < stX.heap.length := by
            rw [hXlen]
            exact hslen1
          have hrlenX : r < stX.heap.length := by
            rw [hXlen]
            exact hrlen1
          have hsb : st1b.heap[sid]? = some snd := (hpres2.2.2 sid hslenX).trans hsX
          rw [hsb] at hok2
          dsimp only at hok2
          rw [hsd] at hok2
          dsimp only at hok2
          by_cases hjn : jn < l2.length
          · rw [if_pos hjn] at hok2
            have hslen1b : sid < st1b.heap.length := lt_of_lt_of_le hslenX hpres2.2.1
            generalize hSY : setHeapNode st1b sid
                ⟨snd.parent, snd.parentKey, NodeData.seq (l2.set jn (PyVal.ref st1.heap.length))⟩
                = stY at hok2
            have hsY : stY.heap[sid]? = some
                ⟨snd.parent, snd.parentKey, NodeData.seq (l2.set jn (PyVal.ref st1.heap.length))⟩ := by
              rw [← hSY]
              exact List.getElem?_set_eq_of_lt _ hslen1b
            have hrY : stY.heap[r]? = some ⟨rnd.parent, PKey.idx jn, newdata⟩ := by
              rw [← hSY]
              exact (List.getElem?_set_ne (fun h => hrs h.symm)).trans
                ((hpres2.2.2 r hrlenX).trans hrX)
            have hmain : st''.heap[sid]? = some
                  ⟨snd.parent, snd.parentKey, NodeData.seq (l2.set jn (PyVal.ref st1.heap.length))⟩
                ∧ (∃ rnd', st''.heap[r]? = some rnd' ∧ rnd'.parent = .node sid
                     ∧ rnd'.parentKey = .idx jn) := by
              cases hsp : snd.parent with
              | databag =>
                rw [hsp] at hok2 hsY
                cases hsk : snd.parentKey with
                | idx mm =>
                  rw [hsk] at hok2
                  dsimp only at hok2
                  exact absurd (congrArg Prod.snd hok2) (by simp)
                | str kk =>
                  rw [hsk] at hok2 hsY
                  dsimp only at hok2
                  have hheap : st''.heap = stY.heap := by
                    have h1 : (databagSet f4 stY kk (.ref sid)).1 = st'' :=
                      congrArg Prod.fst hok2
                    rw [← h1]
                    exact databagSet_heap ..
                  constructor
                  · rw [show st''.heap[sid]? = stY.heap[sid]? from by rw [hheap]]
                    exact hsY
                  · refine ⟨⟨rnd.parent, PKey.idx jn, newdata⟩, ?_, hrpar, rfl⟩
                    rw [show st''.heap[r]? = stY.heap[r]? from by rw [hheap]]
                    exact hrY
              | node pp =>
                rw [hsp] at hok2 hsY
                dsimp only at hok2
                obtain ⟨n, L, hwL, hpresL, hprojL⟩ :=
                  setNode_walk f4 stY pp snd.parentKey (.ref sid) st'' hok2
                constructor
                · exact setNode_noRevisit f4 stY pp snd.parentKey (.ref sid) st'' sid
                    ⟨Parent.node pp, snd.parentKey,
                      NodeData.seq (l2.set jn (PyVal.ref st1.heap.length))⟩ hok2 hsY rfl
                · obtain ⟨rnd', hre, hrp', hrk'⟩ :=
                    hprojL.2 r ⟨rnd.parent, PKey.idx jn, newdata⟩ hrY
                  exact ⟨rnd', hre, hrp'.trans hrpar, hrk'⟩
            exact ⟨hjn, st1.heap.length, hpres.2.1, hmain.1, hmain.2⟩
          · rw [if_neg hjn] at hok2
            exact absurd (congrArg Prod.snd hok2) (by simp)

/-- Witness for C6 at a concrete state: insert `9` at position 0 of the live
sequence `[1, \x7b"q": 5\x7d, 2]`, observe the shift and the re-numbered
`_parent_key` of the shifted mapping proxy, then mutate it and observe the
write landing at its new position in the parent, with no other slot touched. -/
theorem claim6_witness :
    st6'.heap[0]? = some ⟨.databag, .str "k", .seq [.int 9, .int 1, .ref 1, .int 2]⟩
    ∧ (∃ rnd, st6'.heap[1]? = some rnd ∧ rnd.parentKey = .idx 2)
    ∧ (2 < ([.int 9, .int 1, .ref 1, .int 2] : List PyVal).length
       ∧ ∃ q, st6'.heap.length ≤ q
         ∧ st6''.heap[0]? = some ⟨.databag, .str "k",
             .seq ([.int 9, .int 1, .ref 1, .int 2].set 2 (.ref q))⟩
         ∧ (∃ rnd', st6''.heap[1]? = some rnd' ∧ rnd'.parent = .node 0
              ∧ rnd'.parentKey = .idx 2)) := by
  obtain ⟨v', st1, hl, hnode, hlen, hlt, hself, hge, hren⟩ :=
    (claim6_thm).1 30 st6 0 ⟨.databag, .str "k", .seq [.int 1, .ref 1, .int 2]⟩
      [.int 1, .ref 1, .int 2] 0 (.int 9) st6' rfl rfl (by omega) rfl
  have h0 : loadFuel 30 st6 (.node 0) (.idx 0) (.int 9) = (st6, .ok (.int 9)) := rfl
  rw [h0] at hl
  have hst1 : st6 = st1 := (Prod.mk.injEq .. ▸ hl).1
  have hv : v' = .int 9 := (Except.ok.inj (Prod.mk.injEq .. ▸ hl).2).symm
  subst hv
  have hlast23 : ∀ j2 : Nat, 2 < j2 →
      ((insAt 0 (.int 9) [.int 1, .ref 1, .int 2] : List PyVal))[j2]? ≠ some (PyVal.ref 1) := by
    intro j2 h2
    match j2, h2 with
    | 3, _ =>
      intro hcon
      exact PyVal.noConfusion (Option.some.inj hcon)
    | j4 + 4, _ =>
      intro hcon
      rw [List.getElem?_eq_none (by show 4 ≤ j4 + 4; omega)] at hcon
      exact Option.noConfusion hcon
  refine ⟨rfl, ?_, ?_⟩
  · exact hren 2 1 rfl hlast23 (by rw [← hst1]; decide)
  · exact (claim6_thm).2 31 st6' 0 1 2
      ⟨.databag, .str "k", .seq [.int 9, .int 1, .ref 1, .int 2]⟩
      ⟨.node 0, .idx 2, .map [("q", .int 5)]⟩ [.int 9, .int 1, .ref 1, .int 2]
      (.str "q") (.int 7) st6'' rfl rfl rfl rfl rfl (by decide) rfl

/-! Result-shape lemmas for C7: on string-free, reference-free data, `_load`
can only run out of fuel or raise the classification `TypeError` — and it
never returns successfully when an unclassifiable datum is present. -/

theorem plainSansStrList_map_int : ∀ bs : List Int,
    plainSansStrList (bs.map PyVal.int) = true := by
  intro bs
  induction bs with
  | nil => rfl
  | cons b rest ih => simp [plainSansStrList, plainSansStr, ih]

theorem hasObjList_map_int : ∀ bs : List Int,
    hasObjList (bs.map PyVal.int) = false := by
  intro bs
  induction bs with
  | nil => rfl
  | cons b rest ih => simp [hasObjList, hasObj, ih]

theorem load_obj_shape : ∀ f : Nat,
    (∀ st p pk v, plainSansStr v = true →
      ((hasObj v = true → (loadFuel f st p pk v).2 = .error .fuel
          ∨ ∃ w, (loadFuel f st p pk v).2 = .error (.typeErr w))
       ∧ (hasObj v = false → (loadFuel f st p pk v).2 = .error .fuel
          ∨ ∃ w, (loadFuel f st p pk v).2 = .ok w)))
    ∧ (∀ st nid xs, plainSansStrEntries xs = true →
      ((hasObjEntries xs = true → (loadMapItems f st nid xs).2 = .error .fuel
          ∨ ∃ w, (loadMapItems f st nid xs).2 = .error (.typeErr w))
       ∧ (hasObjEntries xs = false → (loadMapItems f st nid xs).2 = .error .fuel
          ∨ (loadMapItems f st nid xs).2 = .ok ())))
    ∧ (∀ st nid i xs, plainSansStrList xs = true →
      ((hasObjList xs = true → (loadSeqItems f st nid i xs).2 = .error .fuel
          ∨ ∃ w, (loadSeqItems f st nid i xs).2 = .error (.typeErr w))
       ∧ (hasObjList xs = false → (loadSeqItems f st nid i xs).2 = .error .fuel
          ∨ (loadSeqItems f st nid i xs).2 = .ok ()))) := by
  intro f
  induction f with
  | zero =>
    refine ⟨fun st p pk v _ => ⟨fun _ => .inl rfl, fun _ => .inl rfl⟩, ?_, ?_⟩
    · intro st nid xs _
      cases xs with
      | nil =>
        exact ⟨fun h => absurd h (by simp [hasObjEntries]), fun _ => .inr rfl⟩
      | cons hd tl => exact ⟨fun _ => .inl rfl, fun _ => .inl rfl⟩
    · intro st nid i xs _
      cases xs with
      | nil =>
        exact ⟨fun h => absurd h (by simp [hasObjList]), fun _ => .inr rfl⟩
      | cons hd tl => exact ⟨fun _ => .inl rfl, fun _ => .inl rfl⟩
  | succ g ih =>
    obtain ⟨ihL, ihM, ihS⟩ := ih
    refine ⟨?_, ?_, ?_⟩
    · intro st p pk v hp
      cases v with
      | str s => exact absurd hp (by simp [plainSansStr])
      | ref r => exact absurd hp (by simp [plainSansStr])
      | int n =>
        exact ⟨fun h => absurd h (by simp [hasObj]), fun _ => .inr ⟨.int n, rfl⟩⟩
      | bool b =>
        exact ⟨fun h => absurd h (by simp [hasObj]), fun _ => .inr ⟨.bool b, rfl⟩⟩
      | null =>
        exact ⟨fun h => absurd h (by simp [hasObj]), fun _ => .inr ⟨.null, rfl⟩⟩
      | obj t =>
        exact ⟨fun _ => .inr ⟨.obj t, rfl⟩, fun h => absurd h (by simp [hasObj])⟩
      | dict xs =>
        have hpe : plainSansStrEntries xs = true := by simpa [plainSansStr] using hp
        have hm := ihM { st with heap := st.heap ++ [⟨p, pk, .map xs⟩] } st.heap.length xs hpe
        constructor
        · intro hobj
          have hoe : hasObjEntries xs = true := by simpa [hasObj] using hobj
          dsimp only [loadFuel]
          rcases h : loadMapItems g { st with heap := st.heap ++ [⟨p, pk, .map xs⟩] }
              st.heap.length xs with ⟨st2, res⟩
          rw [h] at hm
          rcases hm.1 hoe with h1 | ⟨w, h1⟩
          · dsimp only at h1
            subst h1
            exact .inl rfl
          · dsimp only at h1
            subst h1
            exact .inr ⟨w, rfl⟩
        · intro hobj
          have hoe : hasObjEntries xs = false := by simpa [hasObj] using hobj
          dsimp only [loadFuel]
          rcases h : loadMapItems g { st with heap := st.heap ++ [⟨p, pk, .map xs⟩] }
              st.heap.length xs with ⟨st2, res⟩
          rw [h] at hm
          rcases hm.2 hoe with h1 | h1
          · dsimp only at h1
            subst h1
            exact .inl rfl
          · dsimp only at h1
            subst h1
            exact .inr ⟨.ref st.heap.length, rfl⟩
      | list xs =>
        have hpe : plainSansStrList xs = true := by simpa [plainSansStr] using hp
        have hm := ihS { st with heap := st.heap ++ [⟨p, pk, .seq xs⟩] } st.heap.length 0 xs hpe
        constructor
        · intro hobj
          have hoe : hasObjList xs = true := by simpa [hasObj] using hobj
          dsimp only [loadFuel]
          rcases h : loadSeqItems g { st with heap := st.heap ++ [⟨p, pk, .seq xs⟩] }
              st.heap.length 0 xs with ⟨st2, res⟩
          rw [h] at hm
          rcases hm.1 hoe with h1 | ⟨w, h1⟩
          · dsimp only at h1
            subst h1
            exact .inl rfl
          · dsimp only at h1
            subst h1
            exact .inr ⟨w, rfl⟩
        · intro hobj
          have hoe : hasObjList xs = false := by simpa [hasObj] using hobj
          dsimp only [loadFuel]
          rcases h : loadSeqItems g { st with heap := st.heap ++ [⟨p, pk, .seq xs⟩] }
              st.heap.length 0 xs with ⟨st2, res⟩
          rw [h] at hm
          rcases hm.2 hoe with h1 | h1
          · dsimp only at h1
            subst h1
            exact .inl rfl
          · dsimp only at h1
            subst h1
            exact .inr ⟨.ref st.heap.length, rfl⟩
      | bytes bs =>
        have hm := ihS { st with heap := st.heap ++ [⟨p, pk, .seq (bs.map PyVal.int)⟩] }
          st.heap.length 0 (bs.map PyVal.int) (plainSansStrList_map_int bs)
        constructor
        · intro hobj
          exact absurd hobj (by simp [hasObj])
        · intro _
          dsimp only [loadFuel]
          rcases h : loadSeqItems g
              { st with heap := st.heap ++ [⟨p, pk, .seq (bs.map PyVal.int)⟩] }
              st.heap.length 0 (bs.map PyVal.int) with ⟨st2, res⟩
          rw [h] at hm
          rcases hm.2 (hasObjList_map_int bs) with h1 | h1
          · dsimp only at h1
            subst h1
            exact .inl rfl
          · dsimp only at h1
            subst h1
            exact .inr ⟨.ref st.heap.length, rfl⟩
    · intro st nid xs hpe
      cases xs with
      | nil =>
        exact ⟨fun h => absurd h (by simp [hasObjEntries]), fun _ => .inr rfl⟩
      | cons hd tl =>
        rcases hd with ⟨k, v⟩
        have hpv : plainSansStr v = true ∧ plainSansStrEntries tl = true := by
          simpa [plainSansStrEntries, Bool.and_eq_true] using hpe
        have hlv := ihL st (.node nid) (.str k) v hpv.1
        dsimp only [loadMapItems]
        rcases h : loadFuel g st (.node nid) (.str k) v with ⟨st1, res⟩
        rw [h] at hlv
        constructor
        · intro hobj
          have hor : hasObj v = true ∨ hasObjEntries tl = true := by
            simpa [hasObjEntries, Bool.or_eq_true] using hobj
          cases hov : hasObj v with
          | true =>
            rcases hlv.1 hov with h1 | ⟨w, h1⟩
            · dsimp only at h1
              subst h1
              exact .inl rfl
            · dsimp only at h1
              subst h1
              exact .inr ⟨w, rfl⟩
          | false =>
            have hot : hasObjEntries tl = true := by
              rcases hor with h2 | h2
              · rw [hov] at h2
                exact Bool.noConfusion h2
              · exact h2
            rcases hlv.2 hov with h1 | ⟨w, h1⟩
            · dsimp only at h1
              subst h1
              exact .inl rfl
            · dsimp only at h1
              subst h1
              have hm := ihM (nodeSetEntry st1 nid k w) nid tl hpv.2
              rcases hm.1 hot with h2 | ⟨w2, h2⟩
              · exact .inl h2
              · exact .inr ⟨w2, h2⟩
        · intro hobj
          have hoo : hasObj v = false ∧ hasObjEntries tl = false := by
            simpa [hasObjEntries] using hobj
          rcases hlv.2 hoo.1 with h1 | ⟨w, h1⟩
          · dsimp only at h1
            subst h1
            exact .inl rfl
          · dsimp only at h1
            subst h1
            have hm := ihM (nodeSetEntry st1 nid k w) nid tl hpv.2
            exact hm.2 hoo.2
    · intro st nid i xs hpe
      cases xs with
      | nil =>
        exact ⟨fun h => absurd h (by simp [hasObjList]), fun _ => .inr rfl⟩
      | cons v tl =>
        have hpv : plainSansStr v = true ∧ plainSansStrList tl = true := by
          simpa [plainSansStrList, Bool.and_eq_true] using hpe
        have hlv := ihL st (.node nid) (.idx i) v hpv.1
        dsimp only [loadSeqItems]
        rcases h : loadFuel g st (.node nid) (.idx i) v with ⟨st1, res⟩
        rw [h] at hlv
        constructor
        · intro hobj
          have hor : hasObj v = true ∨ hasObjList tl = true := by
            simpa [hasObjList, Bool.or_eq_true] using hobj
          cases hov : hasObj v with
          | true =>
            rcases hlv.1 hov with h1 | ⟨w, h1⟩
            · dsimp only at h1
              subst h1
              exact .inl rfl
            · dsimp only at h1
              subst h1
              exact .inr ⟨w, rfl⟩
          | false =>
            have hot : hasObjList tl = true := by
              rcases hor with h2 | h2
              · rw [hov] at h2
                exact Bool.noConfusion h2
              · exact h2
            rcases hlv.2 hov with h1 | ⟨w, h1⟩
            · dsimp only at h1
              subst h1
              exact .inl rfl
            · dsimp only at h1
              subst h1
              have hm := ihS (nodeSetElem st1 nid i w) nid (i + 1) tl hpv.2
              rcases hm.1 hot with h2 | ⟨w2, h2⟩
              · exact .inl h2
              · exact .inr ⟨w2, h2⟩
        · intro hobj
          have hoo : hasObj v = false ∧ hasObjList tl = false := by
            simpa [hasObjList] using hobj
          rcases hlv.2 hoo.1 with h1 | ⟨w, h1⟩
          · dsimp only at h1
            subst h1
            exact .inl rfl
          · dsimp only at h1
            subst h1
            have hm := ihS (nodeSetElem st1 nid i w) nid (i + 1) tl hpv.2
            exact hm.2 hoo.2

/-- Result shape of the JSON encoder on string-free, reference-free data:
only fuel exhaustion, the classification `TypeError`, or success — and never
success when an unclassifiable datum is present. -/
theorem encode_obj_shape : ∀ f : Nat,
    (∀ st v, plainSansStr v = true →
      ((hasObj v = true → encodeV f st v = .error .fuel
          ∨ ∃ w, encodeV f st v = .error (.typeErr w))
       ∧ (encodeV f st v = .error .fuel ∨ (∃ w, encodeV f st v = .error (.typeErr w))
          ∨ ∃ s, encodeV f st v = .ok s)))
    ∧ (∀ st xs, plainSansStrList xs = true →
      ((hasObjList xs = true → encodeList f st xs = .error .fuel
          ∨ ∃ w, encodeList f st xs = .error (.typeErr w))
       ∧ (encodeList f st xs = .error .fuel ∨ (∃ w, encodeList f st xs = .error (.typeErr w))
          ∨ ∃ parts, encodeList f st xs = .ok parts)))
    ∧ (∀ st xs, plainSansStrEntries xs = true →
      ((hasObjEntries xs = true → encodeEntries f st xs = .error .fuel
          ∨ ∃ w, encodeEntries f st xs = .error (.typeErr w))
       ∧ (encodeEntries f st xs = .error .fuel
          ∨ (∃ w, encodeEntries f st xs = .error (.typeErr w))
          ∨ ∃ parts, encodeEntries f st xs = .ok parts))) := by
  intro f
  induction f with
  | zero =>
    refine ⟨fun st v _ => ⟨fun _ => .inl rfl, .inl rfl⟩, ?_, ?_⟩
    · intro st xs _
      cases xs with
      | nil => exact ⟨fun h => absurd h (by simp [hasObjList]), .inr (.inr ⟨[], rfl⟩)⟩
      | cons hd tl => exact ⟨fun _ => .inl rfl, .inl rfl⟩
    · intro st xs _
      cases xs with
      | nil => exact ⟨fun h => absurd h (by simp [hasObjEntries]), .inr (.inr ⟨[], rfl⟩)⟩
      | cons hd tl => exact ⟨fun _ => .inl rfl, .inl rfl⟩
  | succ g ih =>
    obtain ⟨ihV, ihX, ihE⟩ := ih
    refine ⟨?_, ?_, ?_⟩
    · intro st v hp
      cases v with
      | str s => exact absurd hp (by simp [plainSansStr])
      | ref r => exact absurd hp (by simp [plainSansStr])
      | int n =>
        exact ⟨fun h => absurd h (by simp [hasObj]), .inr (.inr ⟨_, rfl⟩)⟩
      | bool b =>
        exact ⟨fun h => absurd h (by simp [hasObj]), .inr (.inr ⟨_, rfl⟩)⟩
      | null =>
        exact ⟨fun h => absurd h (by simp [hasObj]), .inr (.inr ⟨_, rfl⟩)⟩
      | bytes bs =>
        exact ⟨fun h => absurd h (by simp [hasObj]), .inr (.inl ⟨.bytes bs, rfl⟩)⟩
      | obj t =>
        exact ⟨fun _ => .inr ⟨.obj t, rfl⟩, .inr (.inl ⟨.obj t, rfl⟩)⟩
      | list xs =>
        have hpl : plainSansStrList xs = true := by simpa [plainSansStr] using hp
        have hm := ihX st xs hpl
        constructor
        · intro hobj
          have hol : hasObjList xs = true := by simpa [hasObj] using hobj
          rcases hm.1 hol with h1 | ⟨w, h1⟩
          · exact .inl (by dsimp only [encodeV]; rw [h1])
          · exact .inr ⟨w, by dsimp only [encodeV]; rw [h1]⟩
        · rcases hm.2 with h1 | ⟨w, h1⟩ | ⟨parts, h1⟩
          · exact .inl (by dsimp only [encodeV]; rw [h1])
          · exact .inr (.inl ⟨w, by dsimp only [encodeV]; rw [h1]⟩)
          · exact .inr (.inr ⟨_, by dsimp only [encodeV]; rw [h1]⟩)
      | dict xs =>
        have hpl : plainSansStrEntries xs = true := by simpa [plainSansStr] using hp
        have hm := ihE st xs hpl
        constructor
        · intro hobj
          have hol : hasObjEntries xs = true := by simpa [hasObj] using hobj
          rcases hm.1 hol with h1 | ⟨w, h1⟩
          · exact .inl (by dsimp only [encodeV]; rw [h1])
          · exact .inr ⟨w, by dsimp only [encodeV]; rw [h1]⟩
        · rcases hm.2 with h1 | ⟨w, h1⟩ | ⟨parts, h1⟩
          · exact .inl (by dsimp only [encodeV]; rw [h1])
          · exact .inr (.inl ⟨w, by dsimp only [encodeV]; rw [h1]⟩)
          · exact .inr (.inr ⟨_, by dsimp only [encodeV]; rw [h1]⟩)
    · intro st xs hpe
      cases xs with
      | nil => exact ⟨fun h => absurd h (by simp [hasObjList]), .inr (.inr ⟨[], rfl⟩)⟩
      | cons v tl =>
        have hpv : plainSansStr v = true ∧ plainSansStrList tl = true := by
          simpa [plainSansStrList, Bool.and_eq_true] using hpe
        have hv := ihV st v hpv.1
        have htl := ihX st tl hpv.2
        constructor
        · intro hobj
          have hor : hasObj v = true ∨ hasObjList tl = true := by
            simpa [hasObjList, Bool.or_eq_true] using hobj
          cases hov : hasObj v with
          | true =>
            rcases hv.1 hov with h1 | ⟨w, h1⟩
            · exact .inl (by dsimp only [encodeList]; rw [h1])
            · exact .inr ⟨w, by dsimp only [encodeList]; rw [h1]⟩
          | false =>
            have hot : hasObjList tl = true := by
              rcases hor with h2 | h2
              · rw [hov] at h2
                exact Bool.noConfusion h2
              · exact h2
            rcases hv.2 with h1 | ⟨w, h1⟩ | ⟨s, h1⟩
            · exact .inl (by dsimp only [encodeList]; rw [h1])
            · exact .inr ⟨w, by dsimp only [encodeList]; rw [h1]⟩
            · rcases htl.1 hot with h2 | ⟨w2, h2⟩
              · exact .inl (by dsimp only [encodeList]; rw [h1, h2])
              · exact .inr ⟨w2, by dsimp only [encodeList]; rw [h1, h2]⟩
        · rcases hv.2 with h1 | ⟨w, h1⟩ | ⟨s, h1⟩
          · exact .inl (by dsimp only [encodeList]; rw [h1])
          · exact .inr (.inl ⟨w, by dsimp only [encodeList]; rw [h1]⟩)
          · rcases htl.2 with h2 | ⟨w2, h2⟩ | ⟨parts, h2⟩
            · exact .inl (by dsimp only [encodeList]; rw [h1, h2])
            · exact .inr (.inl ⟨w2, by dsimp only [encodeList]; rw [h1, h2]⟩)
            · exact .inr (.inr ⟨_, by dsimp only [encodeList]; rw [h1, h2]⟩)
    · intro st xs hpe
      cases xs with
      | nil => exact ⟨fun h => absurd h (by simp [hasObjEntries]), .inr (.inr ⟨[], rfl⟩)⟩
      | cons hd tl =>
        rcases hd with ⟨k, v⟩
        have hpv : plainSansStr v = true ∧ plainSansStrEntries tl = true := by
          simpa [plainSansStrEntries, Bool.and_eq_true] using hpe
        have hv := ihV st v hpv.1
        have htl := ihE st tl hpv.2
        constructor
        · intro hobj
          have hor : hasObj v = true ∨ hasObjEntries tl = true := by
            simpa [hasObjEntries, Bool.or_eq_true] using hobj
          cases hov : hasObj v with
          | true =>
            rcases hv.1 hov with h1 | ⟨w, h1⟩
            · exact .inl (by dsimp only [encodeEntries]; rw [h1])
            · exact .inr ⟨w, by dsimp only [encodeEntries]; rw [h1]⟩
          | false =>
            have hot : hasObjEntries tl = true := by
              rcases hor with h2 | h2
              · rw [hov] at h2
                exact Bool.noConfusion h2
              · exact h2
            rcases hv.2 with h1 | ⟨w, h1⟩ | ⟨s, h1⟩
            · exact .inl (by dsimp only [encodeEntries]; rw [h1])
            · exact .inr ⟨w, by dsimp only [encodeEntries]; rw [h1]⟩
            · rcases htl.1 hot with h2 | ⟨w2, h2⟩
              · exact .inl (by dsimp only [encodeEntries]; rw [h1, h2])
              · exact .inr ⟨w2, by dsimp only [encodeEntries]; rw [h1, h2]⟩
        · rcases hv.2 with h1 | ⟨w, h1⟩ | ⟨s, h1⟩
          · exact .inl (by dsimp only [encodeEntries]; rw [h1])
          · exact .inr (.inl ⟨w, by dsimp only [encodeEntries]; rw [h1]⟩)
          · rcases htl.2 with h2 | ⟨w2, h2⟩ | ⟨parts, h2⟩
            · exact .inl (by dsimp only [encodeEntries]; rw [h1, h2])
            · exact .inr (.inl ⟨w2, by dsimp only [encodeEntries]; rw [h1, h2]⟩)
            · exact .inr (.inr ⟨_, by dsimp only [encodeEntries]; rw [h1, h2]⟩)

/-- `_load` can never return successfully on a value containing an
unclassifiable datum anywhere in its plain structure: the population loops
must reach the offending datum, unless a sibling fails first. -/
theorem load_never_ok : ∀ f : Nat,
    (∀ st p pk v, hasObj v = true → ∀ w, (loadFuel f st p pk v).2 ≠ .ok w)
    ∧ (∀ st nid xs, hasObjEntries xs = true → (loadMapItems f st nid xs).2 ≠ .ok ())
    ∧ (∀ st nid i xs, hasObjList xs = true → (loadSeqItems f st nid i xs).2 ≠ .ok ()) := by
  intro f
  induction f with
  | zero =>
    refine ⟨fun st p pk v _ w => by simp [loadFuel], ?_, ?_⟩
    · intro st nid xs hx
      cases xs with
      | nil => exact absurd hx (by simp [hasObjEntries])
      | cons hd tl => simp [loadMapItems]
    · intro st nid i xs hx
      cases xs with
      | nil => exact absurd hx (by simp [hasObjList])
      | cons hd tl => simp [loadSeqItems]
  | succ g ih =>
    obtain ⟨ihL, ihM, ihS⟩ := ih
    refine ⟨?_, ?_, ?_⟩
    · intro st p pk v hv w
      cases v with
      | obj t => simp [loadFuel]
      | str s => exact absurd hv (by simp [hasObj])
      | int n => exact absurd hv (by simp [hasObj])
      | bool b => exact absurd hv (by simp [hasObj])
      | null => exact absurd hv (by simp [hasObj])
      | bytes bs => exact absurd hv (by simp [hasObj])
      | ref r => exact absurd hv (by simp [hasObj])
      | dict xs =>
        have hxe : hasObjEntries xs = true := by simpa [hasObj] using hv
        have hm := ihM { st with heap := st.heap ++ [⟨p, pk, .map xs⟩] } st.heap.length xs hxe
        dsimp only [loadFuel]
        rcases h : loadMapItems g { st with heap := st.heap ++ [⟨p, pk, .map xs⟩] }
            st.heap.length xs with ⟨st2, res⟩
        rw [h] at hm
        cases res with
        | ok u =>
          cases u
          exact absurd rfl hm
        | error e =>
          dsimp only
          simp
      | list xs =>
        have hxe : hasObjList xs = true := by simpa [hasObj] using hv
        have hm := ihS { st with heap := st.heap ++ [⟨p, pk, .seq xs⟩] } st.heap.length 0 xs hxe
        dsimp only [loadFuel]
        rcases h : loadSeqItems g { st with heap := st.heap ++ [⟨p, pk, .seq xs⟩] }
            st.heap.length 0 xs with ⟨st2, res⟩
        rw [h] at hm
        cases res with
        | ok u =>
          cases u
          exact absurd rfl hm
        | error e =>
          dsimp only
          simp
    · intro st nid xs hx
      cases xs with
      | nil => exact absurd hx (by simp [hasObjEntries])
      | cons hd tl =>
        rcases hd with ⟨k, v⟩
        have hor : hasObj v = true ∨ hasObjEntries tl = true := by
          simpa [hasObjEntries, Bool.or_eq_true] using hx
        dsimp only [loadMapItems]
        rcases h : loadFuel g st (.node nid) (.str k) v with ⟨st1, res⟩
        cases res with
        | error e =>
          dsimp only
          simp
        | ok v' =>
          dsimp only
          cases hov : hasObj v with
          | true =>
            have hne := ihL st (.node nid) (.str k) v hov v'
            rw [h] at hne
            exact absurd rfl hne
          | false =>
            have htl : hasObjEntries tl = true := by
              rcases hor with h2 | h2
              · rw [hov] at h2
                exact Bool.noConfusion h2
              · exact h2
            exact ihM (nodeSetEntry st1 nid k v') nid tl htl
    · intro st nid i xs hx
      cases xs with
      | nil => exact absurd hx (by simp [hasObjList])
      | cons v tl =>
        have hor : hasObj v = true ∨ hasObjList tl = true := by
          simpa [hasObjList, Bool.or_eq_true] using hx
        dsimp only [loadSeqItems]
        rcases h : loadFuel g st (.node nid) (.idx i) v with ⟨st1, res⟩
        cases res with
        | error e =>
          dsimp only
          simp
        | ok v' =>
          dsimp only
          cases hov : hasObj v with
          | true =>
            have hne := ihL st (.node nid) (.idx i) v hov v'
            rw [h] at hne
            exact absurd rfl hne
          | false =>
            have htl : hasObjList tl = true := by
              rcases hor with h2 | h2
              · rw [hov] at h2
                exact Bool.noConfusion h2
              · exact h2
            exact ihS (nodeSetElem st1 nid i v') nid (i + 1) tl htl

/-- The JSON encoder can never succeed on a value containing an
unclassifiable datum anywhere in its plain structure. -/
theorem encode_never_ok : ∀ f : Nat,
    (∀ st v, hasObj v = true → ∀ s, encodeV f st v ≠ .ok s)
    ∧ (∀ st xs, hasObjList xs = true → ∀ parts, encodeList f st xs ≠ .ok parts)
    ∧ (∀ st xs, hasObjEntries xs = true → ∀ parts, encodeEntries f st xs ≠ .ok parts) := by
  intro f
  induction f with
  | zero =>
    refine ⟨fun st v _ s => by simp [encodeV], ?_, ?_⟩
    · intro st xs hx parts
      cases xs with
      | nil => exact absurd hx (by simp [hasObjList])
      | cons hd tl => simp [encodeList]
    · intro st xs hx parts
      cases xs with
      | nil => exact absurd hx (by simp [hasObjEntries])
      | cons hd tl => simp [encodeEntries]
  | succ g ih =>
    obtain ⟨ihV, ihX, ihE⟩ := ih
    refine ⟨?_, ?_, ?_⟩
    · intro st v hv s
      cases v with
      | obj t => simp [encodeV]
      | bytes bs => exact absurd hv (by simp [hasObj])
      | str s2 => exact absurd hv (by simp [hasObj])
      | int n => exact absurd hv (by simp [hasObj])
      | bool b => exact absurd hv (by simp [hasObj])
      | null => exact absurd hv (by simp [hasObj])
      | ref r => exact absurd hv (by simp [hasObj])
      | list xs =>
        have hxl : hasObjList xs = true := by simpa [hasObj] using hv
        dsimp only [encodeV]
        cases h : encodeList g st xs with
        | ok parts => exact absurd h (ihX st xs hxl parts)
        | error e => simp
      | dict xs =>
        have hxe : hasObjEntries xs = true := by simpa [hasObj] using hv
        dsimp only [encodeV]
        cases h : encodeEntries g st xs with
        | ok parts => exact absurd h (ihE st xs hxe parts)
        | error e => simp
    · intro st xs hx parts
      cases xs with
      | nil => exact absurd hx (by simp [hasObjList])
      | cons v tl =>
        have hor : hasObj v = true ∨ hasObjList tl = true := by
          simpa [hasObjList, Bool.or_eq_true] using hx
        dsimp only [encodeList]
        cases h : encodeV g st v with
        | error e => simp
        | ok s1 =>
          dsimp only
          cases hov : hasObj v with
          | true => exact absurd h (ihV st v hov s1)
          | false =>
            have htl : hasObjList tl = true := by
              rcases hor with h2 | h2
              · rw [hov] at h2
                exact Bool.noConfusion h2
              · exact h2
            cases h2 : encodeList g st tl with
            | ok parts2 => exact absurd h2 (ihX st tl htl parts2)
            | error e => simp
    · intro st xs hx parts
      cases xs with
      | nil => exact absurd hx (by simp [hasObjEntries])
      | cons hd tl =>
        rcases hd with ⟨k, v⟩
        have hor : hasObj v = true ∨ hasObjEntries tl = true := by
          simpa [hasObjEntries, Bool.or_eq_true] using hx
        dsimp only [encodeEntries]
        cases h : encodeV g st v with
        | error e => simp
        | ok s1 =>
          dsimp only
          cases hov : hasObj v with
          | true => exact absurd h (ihV st v hov s1)
          | false =>
            have htl : hasObjEntries tl = true := by
              rcases hor with h2 | h2
              · rw [hov] at h2
                exact Bool.noConfusion h2
              · exact h2
            cases h2 : encodeEntries g st tl with
            | ok parts2 => exact absurd h2 (ihE st tl htl parts2)
            | error e => simp

/-- C7 (amended): for every value containing an unclassifiable datum (a
custom object, a set, …) anywhere in its plain structure — values with
strings or live references included — storing it via `set` on the
Write-Through Mapping (any key) or via a proxy `__setitem__` / `insert`
never succeeds and performs no backing-store write: the databag path returns
with the state exactly unchanged, and the proxy paths leave the databag
(store and write log) untouched.  For string-free, reference-free values the
failure is precisely the `TypeError` identifying an offending value, or
recursion-limit exhaustion.  (`bytes`, which the original claim also listed
as rejected, is instead accepted by the proxy-mutation path and silently
converted to a list of integers: see the counterexample.) -/
theorem claim7_thm :
    (∀ (f : Nat) (st : St) (k : String) (v : PyVal),
      hasObj v = true → ∃ e, databagSet f st k v = (st, .error e))
    ∧ (∀ (f : Nat) (st : St) (nid : Nat) (key : PKey) (v : PyVal),
      hasObj v = true →
      ((setNode f st nid key v).1).db = st.db ∧ (setNode f st nid key v).2 ≠ .ok ())
    ∧ (∀ (f : Nat) (st : St) (nid i : Nat) (v : PyVal),
      hasObj v = true →
      ((insertNode f st nid i v).1).db = st.db ∧ (insertNode f st nid i v).2 ≠ .ok ())
    ∧ (∀ (f : Nat) (st : St) (k : String) (v : PyVal),
      k ∉ EXCLUDED_KEYS → plainSansStr v = true → hasObj v = true →
      databagSet f st k v = (st, .error .fuel)
      ∨ ∃ w, databagSet f st k v = (st, .error (.typeErr w)))
    ∧ (∀ (f : Nat) (st : St) (nid : Nat) (key : PKey) (v : PyVal) (nd : Node),
      st.heap[nid]? = some nd → plainSansStr v = true → hasObj v = true →
      ((setNode f st nid key v).1).db = st.db
      ∧ ((setNode f st nid key v).2 = .error .fuel
         ∨ ∃ w, (setNode f st nid key v).2 = .error (.typeErr w)))
    ∧ (∀ (f : Nat) (st : St) (nid : Nat) (i : Nat) (v : PyVal) (nd : Node) (l : List PyVal),
      st.heap[nid]? = some nd → nd.data = .seq l → plainSansStr v = true → hasObj v = true →
      ((insertNode f st nid i v).1).db = st.db
      ∧ ((insertNode f st nid i v).2 = .error .fuel
         ∨ ∃ w, (insertNode f st nid i v).2 = .error (.typeErr w))) := by
  refine ⟨?_, ?_, ?_, ?_, ?_, ?_⟩
  · intro f st k v hobj
    by_cases hk : k ∈ EXCLUDED_KEYS
    · cases v with
      | str s => exact absurd hobj (by simp [hasObj])
      | int n => exact ⟨.reservedTypeErr k (.int n), by unfold databagSet; rw [if_pos hk]⟩
      | bool b => exact ⟨.reservedTypeErr k (.bool b), by unfold databagSet; rw [if_pos hk]⟩
      | null => exact ⟨.reservedTypeErr k .null, by unfold databagSet; rw [if_pos hk]⟩
      | bytes bs => exact ⟨.reservedTypeErr k (.bytes bs), by unfold databagSet; rw [if_pos hk]⟩
      | obj t => exact ⟨.reservedTypeErr k (.obj t), by unfold databagSet; rw [if_pos hk]⟩
      | ref r => exact ⟨.reservedTypeErr k (.ref r), by unfold databagSet; rw [if_pos hk]⟩
      | list xs => exact ⟨.reservedTypeErr k (.list xs), by unfold databagSet; rw [if_pos hk]⟩
      | dict xs => exact ⟨.reservedTypeErr k (.dict xs), by unfold databagSet; rw [if_pos hk]⟩
    · cases he : encodeV f st v with
      | ok s => exact absurd he ((encode_never_ok f).1 st v hobj s)
      | error e =>
        refine ⟨e, ?_⟩
        unfold databagSet
        rw [if_neg hk, he]
  · intro f st nid key v hobj
    cases f with
    | zero => exact ⟨rfl, by simp [setNode]⟩
    | succ g =>
      cases hn : st.heap[nid]? with
      | none =>
        have hsn : setNode (g + 1) st nid key v = (st, .error .bad) := by
          dsimp only [setNode]
          rw [hn]
        rw [hsn]
        exact ⟨rfl, by simp⟩
      | some nd =>
        rcases hload : loadFuel g st (.node nid) key v with ⟨st1, res⟩
        have hdb : st1.db = st.db := by
          have hpr := (load_pres g).1 st (.node nid) key v
          rw [hload] at hpr
          exact hpr.1
        cases res with
        | ok w =>
          have hne := (load_never_ok g).1 st (.node nid) key v hobj w
          rw [hload] at hne
          exact absurd rfl hne
        | error e =>
          have hsn : setNode (g + 1) st nid key v = (st1, .error e) := by
            dsimp only [setNode]
            rw [hn]
            dsimp only
            rw [hload]
          rw [hsn]
          exact ⟨hdb, by simp⟩
  · intro f st nid i v hobj
    cases f with
    | zero => exact ⟨rfl, by simp [insertNode]⟩
    | succ g =>
      cases hn : st.heap[nid]? with
      | none =>
        have hsn : insertNode (g + 1) st nid i v = (st, .error .bad) := by
          dsimp only [insertNode]
          rw [hn]
        rw [hsn]
        exact ⟨rfl, by simp⟩
      | some nd0 =>
        cases hd0 : nd0.data with
        | map ms =>
          have hsn : insertNode (g + 1) st nid i v = (st, .error .bad) := by
            dsimp only [insertNode]
            rw [hn]
            dsimp only
            rw [hd0]
          rw [hsn]
          exact ⟨rfl, by simp⟩
        | seq l0 =>
          rcases hload : loadFuel g st (.node nid) (.idx i) v with ⟨st1, res⟩
          have hdb : st1.db = st.db := by
            have hpr := (load_pres g).1 st (.node nid) (.idx i) v
            rw [hload] at hpr
            exact hpr.1
          cases res with
          | ok w =>
            have hne := (load_never_ok g).1 st (.node nid) (.idx i) v hobj w
            rw [hload] at hne
            exact absurd rfl hne
          | error e =>
            have hsn : insertNode (g + 1) st nid i v = (st1, .error e) := by
              dsimp only [insertNode]
              rw [hn]
              dsimp only
              rw [hd0]
              dsimp only
              rw [hload]
            rw [hsn]
            exact ⟨hdb, by simp⟩
  · intro f st k v hk hp hobj
    rcases ((encode_obj_shape f).1 st v hp).1 hobj with he | ⟨w, he⟩
    · exact .inl (by unfold databagSet; rw [if_neg hk, he])
    · exact .inr ⟨w, by unfold databagSet; rw [if_neg hk, he]⟩
  · intro f st nid key v nd hnid hp hobj
    cases f with
    | zero => exact ⟨rfl, .inl rfl⟩
    | succ g =>
      have hl := ((load_obj_shape g).1 st (.node nid) key v hp).1 hobj
      rcases hload : loadFuel g st (.node nid) key v with ⟨st1, res⟩
      rw [hload] at hl
      have hdb : st1.db = st.db := by
        have hpr := (load_pres g).1 st (.node nid) key v
        rw [hload] at hpr
        exact hpr.1
      dsimp only at hl
      rcases hl with h1 | ⟨w, h1⟩
      · subst h1
        have hsn : setNode (g + 1) st nid key v = (st1, .error .fuel) := by
          dsimp only [setNode]
          rw [hnid]
          dsimp only
          rw [hload]
        rw [hsn]
        exact ⟨hdb, .inl rfl⟩
      · subst h1
        have hsn : setNode (g + 1) st nid key v = (st1, .error (.typeErr w)) := by
          dsimp only [setNode]
          rw [hnid]
          dsimp only
          rw [hload]
        rw [hsn]
        exact ⟨hdb, .inr ⟨w, rfl⟩⟩
  · intro f st nid i v nd l hnid hdata hp hobj
    cases f with
    | zero => exact ⟨rfl, .inl rfl⟩
    | succ g =>
      have hl := ((load_obj_shape g).1 st (.node nid) (.idx i) v hp).1 hobj
      rcases hload : loadFuel g st (.node nid) (.idx i) v with ⟨st1, res⟩
      rw [hload] at hl
      have hdb : st1.db = st.db := by
        have hpr := (load_pres g).1 st (.node nid) (.idx i) v
        rw [hload] at hpr
        exact hpr.1
      dsimp only at hl
      rcases hl with h1 | ⟨w, h1⟩
      · subst h1
        have hsn : insertNode (g + 1) st nid i v = (st1, .error .fuel) := by
          dsimp only [insertNode]
          rw [hnid]
          dsimp only
          rw [hdata]
          dsimp only
          rw [hload]
        rw [hsn]
        exact ⟨hdb, .inl rfl⟩
      · subst h1
        have hsn : insertNode (g + 1) st nid i v = (st1, .error (.typeErr w)) := by
          dsimp only [insertNode]
          rw [hnid]
          dsimp only
          rw [hdata]
          dsimp only
          rw [hload]
        rw [hsn]
        exact ⟨hdb, .inr ⟨w, rfl⟩⟩

/-- Witness for C7 at concrete states: storing a value holding a set — with
and without an accompanying string entry, through every path, including a
reserved key — fails without touching the databag. -/
theorem claim7_witness :
    plainSansStr (PyVal.dict [("x", .obj "set()")]) = true
    ∧ hasObj (PyVal.dict [("x", .obj "set()")]) = true
    ∧ hasObj (PyVal.dict [("s", .str "boom"), ("x", .obj "set()")]) = true
    ∧ (∃ e, databagSet 10 stW7 "ingress-address"
        (.dict [("s", .str "boom"), ("x", .obj "set()")]) = (stW7, .error e))
    ∧ (((setNode 10 stW7 0 (.idx 0) (.dict [("s", .str "boom"), ("x", .obj "set()")])).1).db
          = stW7.db
       ∧ (setNode 10 stW7 0 (.idx 0)
            (.dict [("s", .str "boom"), ("x", .obj "set()")])).2 ≠ .ok ())
    ∧ (((insertNode 10 stW7 0 0 (.dict [("s", .str "boom"), ("x", .obj "set()")])).1).db
          = stW7.db
       ∧ (insertNode 10 stW7 0 0
            (.dict [("s", .str "boom"), ("x", .obj "set()")])).2 ≠ .ok ())
    ∧ (databagSet 10 stW7 "kk" (.dict [("x", .obj "set()")]) = (stW7, .error .fuel)
       ∨ ∃ w, databagSet 10 stW7 "kk" (.dict [("x", .obj "set()")])
          = (stW7, .error (.typeErr w)))
    ∧ (((setNode 10 stW7 0 (.idx 0) (.dict [("x", .obj "set()")])).1).db = stW7.db
       ∧ ((setNode 10 stW7 0 (.idx 0) (.dict [("x", .obj "set()")])).2 = .error .fuel
          ∨ ∃ w, (setNode 10 stW7 0 (.idx 0) (.dict [("x", .obj "set()")])).2
             = .error (.typeErr w)))
    ∧ (((insertNode 10 stW7 0 0 (.dict [("x", .obj "set()")])).1).db = stW7.db
       ∧ ((insertNode 10 stW7 0 0 (.dict [("x", .obj "set()")])).2 = .error .fuel
          ∨ ∃ w, (insertNode 10 stW7 0 0 (.dict [("x", .obj "set()")])).2
             = .error (.typeErr w))) := by
  refine ⟨rfl, rfl, rfl, ?_, ?_, ?_, ?_, ?_, ?_⟩
  · exact (claim7_thm).1 10 stW7 "ingress-address" _ rfl
  · exact (claim7_thm).2.1 10 stW7 0 (.idx 0) _ rfl
  · exact (claim7_thm).2.2.1 10 stW7 0 0 _ rfl
  · exact (claim7_thm).2.2.2.1 10 stW7 "kk" _ (by decide) rfl rfl
  · exact (claim7_thm).2.2.2.2.1 10 stW7 0 (.idx 0) _ ⟨.databag, .str "k7w", .seq [.int 1]⟩
      rfl rfl rfl
  · exact (claim7_thm).2.2.2.2.2 10 stW7 0 0 _ ⟨.databag, .str "k7w", .seq [.int 1]⟩ [.int 1]
      rfl rfl rfl rfl

end CharmJson
